import Mathlib

/-!
Verification of the `jsonparser` repository (a JSON text parser written in
Rust) against its natural-language specification.

The development shallowly embeds the two source files:

* `src/tokenizer.rs` — a character-level tokenizer with line/column tracking
  (`Tokenizer::next_token`, `skip_whitespace`, `tokenize_val`, `is_num_char`);
* `src/parser.rs` — a recursive-descent parser (`parse`, `parse_object`,
  `parse_array`, `parse_val`, `parse_ident`) producing a `JsonVal` tree,
  plus the `Display` implementation (`fmt_impl`).

Modelling conventions:

* The Rust `Tokenizer` (a peekable char iterator plus `col`/`line` counters)
  becomes the state record `St` holding the remaining input as a `List Char`.
* Rust panics (`unreachable!`, out-of-range indexing/slicing) are modelled by
  a dedicated `panic` outcome constructor, distinct from returning an error.
* The recursive-descent parser loops are modelled by a single fuel-indexed
  step function `run`; fuel is purely a termination device (the Rust loops
  terminate because every token consumes input) and exhaustion is a separate
  `nofuel` outcome that the top-level entry point provisions against by
  supplying `input.length + 2` units of fuel.
* Machine integers are `Nat`/`Int` with explicit range checks mirroring the
  `u64`/`i64` `from_str` failures; `f64` literal values are modelled as exact
  decimal rationals (`ℚ`), which is sound for the classification logic and
  for equalities between decimal literals denoting the same rational.
-/

namespace Jsonparser

/-- The double-quote character `"` (written via its code point). -/
def qmark : Char := Char.ofNat 34

/-- The backslash escape character (written via its code point). -/
def bslash : Char := Char.ofNat 92

/-- The opening brace character (written via its code point). -/
def lbrace : Char := Char.ofNat 123

/-- The closing brace character (written via its code point). -/
def rbrace : Char := Char.ofNat 125

/-- Rust's `char::is_ascii`: code point at most `0x7F`. -/
def rustIsAscii (c : Char) : Bool := c.toNat ≤ 0x7F

/-- Rust's `char::is_whitespace`: membership in the Unicode `White_Space`
set, given here by its (fixed) list of code points. -/
def rustIsWs (c : Char) : Bool :=
  [9, 10, 11, 12, 13, 32, 0x85, 0xA0, 0x1680, 0x2000, 0x2001, 0x2002, 0x2003,
    0x2004, 0x2005, 0x2006, 0x2007, 0x2008, 0x2009, 0x200A, 0x2028, 0x2029,
    0x202F, 0x205F, 0x3000].contains c.toNat

/-- `tokenizer.rs::is_num_char`: `(!c.is_alphabetic() ||
c.to_lowercase().next().unwrap() == 'e') && (c.is_ascii_alphanumeric() ||
*c == '.' || *c == '-' || *c == '+')`.  Since the second conjunct restricts
to ASCII alphanumerics (plus `.`, `-`, `+`), the Unicode `is_alphabetic` /
`to_lowercase` calls agree with the ASCII `Char.isAlpha` / `Char.toLower`
on every character for which the predicate can hold. -/
def is_num_char (c : Char) : Bool :=
  (!c.isAlpha || c.toLower == 'e') && (c.isAlphanum || c == '.' || c == '-' || c == '+')

/-- `tokenizer.rs::Loc`: a source location `{col, line}`. -/
structure Loc where
  col : Nat
  line : Nat
deriving DecidableEq, Repr

/-- `tokenizer.rs::TokenKind`.  `Ident`/`Val` carry the raw text as a list of
characters. -/
inductive TokenKind where
  | OpenBracket
  | ClosedBracket
  | OpenSqBracket
  | ClosedSqBracket
  | Comma
  | Colon
  | Ident (text : List Char)
  | Val (text : List Char)
  | End
deriving DecidableEq, Repr

/-- `tokenizer.rs::Token`: kind plus location. -/
structure Token where
  kind : TokenKind
  loc : Loc
deriving DecidableEq, Repr

/-- `tokenizer.rs::ParsingErrorKind`. -/
inductive ParsingErrorKind where
  | InvalidTrailingComma
  | MissingEndingComma
  | UnsupportedToken
  | UnexpectedToken
  | InvalidStartingToken
  | InvalidIdentInArray
  | InvalidToken
deriving DecidableEq, Repr

/-- `tokenizer.rs::ParsingError`: kind plus location. -/
structure ParsingError where
  kind : ParsingErrorKind
  loc : Loc
deriving DecidableEq, Repr

/-- The `Tokenizer` state: remaining input characters plus the mutable
`col`/`line` counters (initialised to `0`/`1` by `from_iter`). -/
structure St where
  input : List Char
  col : Nat
  line : Nat
deriving DecidableEq, Repr

/-- Result of `next_token`: a token together with the tokenizer state after
it, a `ParsingError`, or a Rust panic (`unreachable!`). -/
inductive LexRes where
  | ok (tok : Token) (s : St)
  | err (e : ParsingError)
  | panic
deriving DecidableEq, Repr

/-- `tokenizer.rs::skip_whitespace`: consume leading whitespace; a newline
resets `col` to `0` and increments `line`, any other whitespace increments
`col`. -/
def skipWsGo : List Char → Nat → Nat → St
  | [], c, l => ⟨[], c, l⟩
  | ch :: rest, c, l =>
    if rustIsWs ch then
      if ch == '\n' then skipWsGo rest 0 (l + 1)
      else skipWsGo rest (c + 1) l
    else ⟨ch :: rest, c, l⟩

/-- `tokenizer.rs::skip_whitespace`, as a transformer of the tokenizer
state. -/
def skip_whitespace (s : St) : St := skipWsGo s.input s.col s.line

/-- The quoted-run loop inside `next_token` (the `while let Some(c) =
self.iter.next_if(...)` over `'"' => was_escape, _ => true`): consume
characters until an unescaped quote, accumulating them in `acc`, bumping
`col` for every consumed character (newlines included — the loop uses the
raw iterator, not `skip_whitespace`). -/
def strBodyGo : Bool → List Char → List Char → Nat → Nat → (List Char × St)
  | _, acc, [], c, l => (acc, ⟨[], c, l⟩)
  | esc, acc, ch :: rest, c, l =>
    if ch != qmark || esc then strBodyGo (ch == bslash) (acc ++ [ch]) rest (c + 1) l
    else (acc, ⟨ch :: rest, c, l⟩)

/-- The quoted-run loop, as a transformer of the tokenizer state. -/
def strBody (esc : Bool) (acc : List Char) (s : St) : List Char × St :=
  strBodyGo esc acc s.input s.col s.line

/-- The numeric-run loop inside `next_token` (`while let Some(c) =
self.iter.next_if(is_num_char)`), using the raw iterator (no whitespace
skipping). -/
def numRunGo : List Char → List Char → Nat → Nat → (List Char × St)
  | acc, [], c, l => (acc, ⟨[], c, l⟩)
  | acc, ch :: rest, c, l =>
    if is_num_char ch then numRunGo (acc ++ [ch]) rest (c + 1) l
    else (acc, ⟨ch :: rest, c, l⟩)

/-- The numeric-run loop, as a transformer of the tokenizer state. -/
def numRun (acc : List Char) (s : St) : List Char × St :=
  numRunGo acc s.input s.col s.line

/-- The bare-word loop inside `next_token` (`while let Some(c) =
self.next_if(|c| *c != ',' && *c != '}' && *c != ']')`).  `Tokenizer::next_if`
first runs `skip_whitespace`, so whitespace between bare-word characters is
consumed (without entering the text).  The loop consumes one non-delimiter
character per iteration; `fuel` (instantiated with more than the remaining
input length at the call site) is a termination device only. -/
def bareRun : Nat → List Char → St → (List Char × St)
  | 0, acc, s => (acc, s)
  | fuel + 1, acc, s =>
    let s' := skip_whitespace s
    match s'.input with
    | [] => (acc, s')
    | ch :: rest =>
      if ch == ',' || ch == rbrace || ch == ']' then (acc, s')
      else bareRun fuel (acc ++ [ch]) ⟨rest, s'.col + 1, s'.line⟩

/-- `tokenizer.rs::tokenize_val`: peek (skipping whitespace); if the next
significant character is `,`, `}` or `]` emit a `Val` token at `loc`,
otherwise fail with `MissingEndingComma` at the current location. -/
def tokenize_val (text : List Char) (loc : Loc) (s : St) : LexRes :=
  let p := skip_whitespace s
  match p.input with
  | ch :: _ =>
    if ch == ',' || ch == rbrace || ch == ']' then .ok ⟨.Val text, loc⟩ p
    else .err ⟨.MissingEndingComma, ⟨p.col, p.line⟩⟩
  | [] => .err ⟨.MissingEndingComma, ⟨p.col, p.line⟩⟩

/-- `tokenizer.rs::next_token`.  Skips whitespace, then dispatches on the
next character exactly as the Rust `match`: structural single-character
tokens, the comma with its trailing-comma lookahead, quoted runs (identifier
vs. string value decided by peeking for `:`), numeric runs, and bare words;
end of input yields the `End` token at the current location.  An unclosed
quoted run reaches the Rust `unreachable!` and is modelled as `panic`. -/
def next_token (s0 : St) : LexRes :=
  let s := skip_whitespace s0
  match s.input with
  | [] => .ok ⟨.End, ⟨s.col, s.line⟩⟩ s
  | ch :: rest =>
    let c1 := s.col + 1
    let l := s.line
    if ch == lbrace then .ok ⟨.OpenBracket, ⟨c1, l⟩⟩ ⟨rest, c1, l⟩
    else if ch == rbrace then .ok ⟨.ClosedBracket, ⟨c1, l⟩⟩ ⟨rest, c1, l⟩
    else if ch == '[' then .ok ⟨.OpenSqBracket, ⟨c1, l⟩⟩ ⟨rest, c1, l⟩
    else if ch == ']' then .ok ⟨.ClosedSqBracket, ⟨c1, l⟩⟩ ⟨rest, c1, l⟩
    else if ch == ':' then .ok ⟨.Colon, ⟨c1, l⟩⟩ ⟨rest, c1, l⟩
    else if ch == ',' then
      let p := skip_whitespace ⟨rest, c1, l⟩
      match p.input with
      | ch2 :: _ =>
        if ch2 == rbrace || ch2 == ']' then .err ⟨.InvalidTrailingComma, ⟨c1, l⟩⟩
        else .ok ⟨.Comma, ⟨c1, l⟩⟩ p
      | [] => .ok ⟨.Comma, ⟨c1, l⟩⟩ p
    else if ch == qmark then
      let r := strBody false [] ⟨rest, c1, l⟩
      match r.2.input with
      | ch2 :: rest2 =>
        if ch2 == qmark then
          let p := skip_whitespace ⟨rest2, r.2.col + 1, r.2.line⟩
          match p.input with
          | ch3 :: _ =>
            if ch3 == ':' then .ok ⟨.Ident r.1, ⟨c1, l⟩⟩ p
            else .ok ⟨.Val (qmark :: r.1 ++ [qmark]), ⟨c1, l⟩⟩ p
          | [] => .ok ⟨.Val (qmark :: r.1 ++ [qmark]), ⟨c1, l⟩⟩ p
        else .panic
      | [] => .panic
    else if ch.isDigit then
      let r := numRun [ch] ⟨rest, c1, l⟩
      tokenize_val r.1 ⟨c1, l⟩ r.2
    else if rustIsAscii ch then
      let r := bareRun (rest.length + 1) [ch] ⟨rest, c1, l⟩
      tokenize_val r.1 ⟨c1, l⟩ r.2
    else .err ⟨.UnsupportedToken, ⟨c1, l⟩⟩

/-- `tokenizer.rs::expect_token`: take the next token and fail with
`UnexpectedToken` at its location unless its kind matches. -/
def expect_token (kind : TokenKind) (s : St) : LexRes :=
  match next_token s with
  | .ok tok s' => if tok.kind == kind then .ok tok s' else .err ⟨.UnexpectedToken, tok.loc⟩
  | .err e => .err e
  | .panic => .panic

/-- `parser.rs::Number`: the parse-time number sub-typing.  `Float` carries
the exact rational value of the decimal literal (Rust stores the nearest
`f64`; equal rationals round to equal `f64` values, so equalities proved
here entail the corresponding `f64` equalities). -/
inductive Number where
  | UnsignedInt (n : Nat)
  | SignedInt (n : Int)
  | Float (q : ℚ)
deriving DecidableEq, Repr

/-- `parser.rs::JsonVal`.  `Object` is the order-preserving `IndexMap`,
modelled as an association list in insertion order. -/
inductive JsonVal where
  | Null
  | Number (n : Number)
  | String (s : String)
  | Boolean (b : Bool)
  | Array (elems : List JsonVal)
  | Object (mems : List (String × JsonVal))
deriving Repr

/-- Decimal value of a digit string (most significant first). -/
def digitsVal (l : List Char) : Nat :=
  l.foldl (fun a c => a * 10 + (c.toNat - 48)) 0

/-- All characters are ASCII digits. -/
def allDigits (l : List Char) : Bool := l.all Char.isDigit

/-- Rust's `u64::from_str`: an optional leading `+`, then one or more
digits; overflow of the 64-bit range is an error. -/
def rustParseU64 (l : List Char) : Option Nat :=
  let ds := match l with
    | c :: t => if c == '+' then t else c :: t
    | [] => []
  if ds ≠ [] ∧ allDigits ds ∧ digitsVal ds < 2 ^ 64 then some (digitsVal ds) else none

/-- Rust's `i64::from_str`: an optional sign, then one or more digits;
values outside `[-2^63, 2^63 - 1]` are an error. -/
def rustParseI64 (l : List Char) : Option Int :=
  match l with
  | c :: t =>
    if c == '-' then
      if t ≠ [] ∧ allDigits t ∧ digitsVal t ≤ 2 ^ 63 then some (-(digitsVal t : Int)) else none
    else
      let ds := if c == '+' then t else c :: t
      if ds ≠ [] ∧ allDigits ds ∧ digitsVal ds ≤ 2 ^ 63 - 1 then some (digitsVal ds : Int)
      else none
  | [] => none

/-- Rust's `f64::from_str` on numeric text, restricted to the decimal
grammar `Sign? (Digits ('.' Digits?)? | '.' Digits) (('e'|'E') Sign?
Digits)?` and returning the exact rational value of the literal.  The
`inf`/`infinity`/`nan` spellings of the full Rust grammar are omitted: the
parser only applies this to text whose characters all satisfy
`is_num_char`, which admits no alphabetic character besides `e`/`E`.
Rust rounds the value to the nearest `f64` (overflowing to infinity);
the rational is the pre-rounding value. -/
def rustParseF64 (l : List Char) : Option ℚ :=
  let sl : Int × List Char := match l with
    | c :: t => if c == '-' then (-1, t) else if c == '+' then (1, t) else (1, c :: t)
    | [] => (1, [])
  let intd := sl.2.takeWhile Char.isDigit
  let l2 := sl.2.dropWhile Char.isDigit
  let fl : List Char × List Char := match l2 with
    | c :: t => if c == '.' then (t.takeWhile Char.isDigit, t.dropWhile Char.isDigit) else ([], c :: t)
    | [] => ([], [])
  let fracd := fl.1
  let l3 := fl.2
  let ex : Option Int := match l3 with
    | [] => some 0
    | c :: t =>
      if c == 'e' ∨ c == 'E' then
        let st : Int × List Char := match t with
          | c2 :: t2 => if c2 == '-' then (-1, t2) else if c2 == '+' then (1, t2) else (1, c2 :: t2)
          | [] => (1, [])
        if st.2 ≠ [] ∧ allDigits st.2 then some (st.1 * digitsVal st.2) else none
      else none
  match ex with
  | none => none
  | some e =>
    if intd = [] ∧ fracd = [] then none
    else
      let m : Int := sl.1 * ((digitsVal intd) * 10 ^ fracd.length + digitsVal fracd)
      let p : Int := e - fracd.length
      some (if 0 ≤ p then mkRat (m * 10 ^ p.toNat) 1 else mkRat m (10 ^ (-p).toNat))

/-- The truncating element-wise comparison `chars.iter().zip(lit.chars())
.all(|(&a, b)| a == b)` used by `parse_val` for the `true`/`false`/`null`
checks: it only compares up to the shorter length. -/
def zipPrefEq (a b : List Char) : Bool := (a.zip b).all fun p => p.1 == p.2

/-- `IndexMap::insert`: replace in place (keeping the position) when the key
is present, append otherwise. -/
def mapInsert (m : List (String × JsonVal)) (k : String) (v : JsonVal) :
    List (String × JsonVal) :=
  if m.any (fun p => p.1 == k) then m.map (fun p => if p.1 == k then (p.1, v) else p)
  else m ++ [(k, v)]

/-- Result of a recursive-descent call: `parse_object`/`parse_array`/
`parse_val` produce a value (`v`), `parse_ident` produces a key/value pair
(`kv`). -/
inductive RVal where
  | v (val : JsonVal)
  | kv (key : String) (val : JsonVal)
deriving Repr

/-- Outcome of a recursive-descent call: success with the tokenizer state
left after it, a `ParsingError`, a Rust panic, or fuel exhaustion (a model
artefact only; see `run`). -/
inductive Out where
  | ok (r : RVal) (s : St)
  | err (e : ParsingError)
  | panic
  | nofuel
deriving Repr

/-- The scalar branch of `parser.rs::parse_val` on a `Val` token's text:
quoted string (with the Rust panics on an empty vector and on the
one-character slice `chars[1..0]` modelled as `panic`), then number
(float / signed / unsigned by lexical shape), then `true`/`false`/`null`
via the truncating zip comparison (`null` lacks the length check the
boolean branches have), else the `InvalidToken` error at the token's
location. -/
def classifyVal (chars : List Char) (loc : Loc) (s : St) : Out :=
  match chars with
  | [] => .panic
  | c0 :: _ =>
    if c0 == qmark && chars.getLast? == some qmark then
      if chars.length == 1 then .panic
      else .ok (.v (.String (String.mk ((chars.drop 1).dropLast)))) s
    else if chars.all is_num_char then
      if chars.any (fun c => c.toLower == 'e' || c == '.') then
        match rustParseF64 chars with
        | some q => .ok (.v (.Number (.Float q))) s
        | none => .err ⟨.InvalidToken, loc⟩
      else if c0 == '-' then
        match rustParseI64 chars with
        | some n => .ok (.v (.Number (.SignedInt n))) s
        | none => .err ⟨.InvalidToken, loc⟩
      else
        match rustParseU64 chars with
        | some n => .ok (.v (.Number (.UnsignedInt n))) s
        | none => .err ⟨.InvalidToken, loc⟩
    else if chars.length == 4 && zipPrefEq chars "true".data then .ok (.v (.Boolean true)) s
    else if chars.length == 5 && zipPrefEq chars "false".data then .ok (.v (.Boolean false)) s
    else if zipPrefEq chars "null".data then .ok (.v .Null) s
    else .err ⟨.InvalidToken, loc⟩

/-- One call of the recursive-descent parser. -/
inductive Call where
  | obj (map : List (String × JsonVal))
  | arr (elems : List JsonVal)
  | val (tok : Token)
  | idp (tok : Token)

/-- The mutually recursive `parse_object` / `parse_array` / `parse_val` /
`parse_ident` of `parser.rs`, combined into one fuel-indexed step function
(`Call.obj`/`Call.arr` carry the accumulated members of the Rust loop,
`Call.val`/`Call.idp` carry the already-consumed token the Rust function
receives).  Fuel only forces termination: the Rust loops terminate because
every token consumes input, and the top-level `parse` supplies more fuel
than any run can use, so `nofuel` never escapes it.  The `.ok (.kv ..)`
mismatch arms are dead code (the Rust return types rule them out); they are
mapped to `panic`. -/
def run : Nat → Call → St → Out
  | 0, _, _ => .nofuel
  | fuel + 1, c, s =>
    match c with
    | .obj map =>
      match next_token s with
      | .err e => .err e
      | .panic => .panic
      | .ok tok s1 =>
        match tok.kind with
        | .ClosedBracket => .ok (.v (.Object map)) s1
        | .Ident _ =>
          match run fuel (.idp tok) s1 with
          | .ok (.kv k v) s2 => run fuel (.obj (mapInsert map k v)) s2
          | .ok (.v _) _ => .panic
          | .err e => .err e
          | .panic => .panic
          | .nofuel => .nofuel
        | .Comma => run fuel (.obj map) s1
        | _ => .err ⟨.UnexpectedToken, tok.loc⟩
    | .arr elems =>
      match next_token s with
      | .err e => .err e
      | .panic => .panic
      | .ok tok s1 =>
        match tok.kind with
        | .ClosedSqBracket => .ok (.v (.Array elems)) s1
        | .OpenBracket =>
          match run fuel (.obj []) s1 with
          | .ok (.v v) s2 => run fuel (.arr (elems ++ [v])) s2
          | .ok (.kv _ _) _ => .panic
          | .err e => .err e
          | .panic => .panic
          | .nofuel => .nofuel
        | .OpenSqBracket =>
          match run fuel (.arr []) s1 with
          | .ok (.v v) s2 => run fuel (.arr (elems ++ [v])) s2
          | .ok (.kv _ _) _ => .panic
          | .err e => .err e
          | .panic => .panic
          | .nofuel => .nofuel
        | .Val _ =>
          match run fuel (.val tok) s1 with
          | .ok (.v v) s2 => run fuel (.arr (elems ++ [v])) s2
          | .ok (.kv _ _) _ => .panic
          | .err e => .err e
          | .panic => .panic
          | .nofuel => .nofuel
        | .Ident _ => .err ⟨.InvalidIdentInArray, tok.loc⟩
        | .Comma => run fuel (.arr elems) s1
        | _ => .err ⟨.UnexpectedToken, tok.loc⟩
    | .val tok =>
      match tok.kind with
      | .Val chars => classifyVal chars tok.loc s
      | .OpenSqBracket => run fuel (.arr []) s
      | .OpenBracket => run fuel (.obj []) s
      | _ => .err ⟨.InvalidToken, tok.loc⟩
    | .idp tok =>
      match expect_token .Colon s with
      | .err e => .err e
      | .panic => .panic
      | .ok _ s1 =>
        match next_token s1 with
        | .err e => .err e
        | .panic => .panic
        | .ok vtok s2 =>
          match tok.kind with
          | .Ident text =>
            match run fuel (.val vtok) s2 with
            | .ok (.v v) s3 => .ok (.kv (String.mk text) v) s3
            | .ok (.kv _ _) _ => .panic
            | .err e => .err e
            | .panic => .panic
            | .nofuel => .nofuel
          | _ => .panic

/-- `parser.rs::parse_object` (starting from the empty map). -/
def parse_object (fuel : Nat) (s : St) : Out := run fuel (.obj []) s

/-- `parser.rs::parse_array` (starting from the empty vector). -/
def parse_array (fuel : Nat) (s : St) : Out := run fuel (.arr []) s

/-- `parser.rs::parse_val` on an already-consumed token. -/
def parse_val (fuel : Nat) (tok : Token) (s : St) : Out := run fuel (.val tok) s

/-- `parser.rs::parse_ident` on an already-consumed identifier token. -/
def parse_ident (fuel : Nat) (tok : Token) (s : St) : Out := run fuel (.idp tok) s

/-- `parser.rs::parse`: take the first token; an opening brace enters
`parse_object`, an opening square bracket enters `parse_array`, anything
else is the `InvalidStartingToken` error at that token's location.  The
fuel `input.length + 2` exceeds what any run can consume (each loop
iteration and each descent consumes at least one input character). -/
def parse (s : St) : Out :=
  match next_token s with
  | .err e => .err e
  | .panic => .panic
  | .ok tok s1 =>
    match tok.kind with
    | .OpenBracket => parse_object (s.input.length + 2) s1
    | .OpenSqBracket => parse_array (s.input.length + 2) s1
    | _ => .err ⟨.InvalidStartingToken, tok.loc⟩

/-- Parse a whole string through a fresh tokenizer (`Tokenizer::from_str`
starts at column 0, line 1). -/
def parseStr (str : String) : Out := parse ⟨str.data, 0, 1⟩

/-- `print_indent`: `depth` copies of the four-space unit. -/
def indentChars (depth : Nat) : List Char := List.replicate (4 * depth) ' '

/-- Decimal digits of a natural number, most significant first (Rust's
`u64` `Display`).  The fuel argument only drives the recursion; `n + 1`
units always suffice since the digit count never exceeds them. -/
def natDigsAux : Nat → Nat → List Char → List Char
  | 0, _, acc => acc
  | f + 1, n, acc =>
    let d := Char.ofNat (48 + n % 10)
    if n < 10 then d :: acc else natDigsAux f (n / 10) (d :: acc)

/-- Decimal representation of a natural number (Rust's `u64` `Display`). -/
def natDigs (n : Nat) : List Char := natDigsAux (n + 1) n []

/-- Decimal representation of an integer (Rust's `i64` `Display`). -/
def intDigs (n : Int) : List Char :=
  if n < 0 then '-' :: natDigs n.natAbs else natDigs n.natAbs

/-- Rust's `{}` `Display` for `f64` prints the shortest decimal string that
parses back to the same `f64` (never exponent notation), so an integral
float such as `2700.0` prints as `2700`.  The integral case is modelled
exactly; the general shortest-round-trip digit search is binary-float
specific and left as a placeholder character (no theorem in this file
depends on it). -/
def floatDigs (q : ℚ) : List Char :=
  if q.den = 1 then intDigs q.num else ['?']

mutual
/-- `parser.rs::JsonVal::fmt_impl`: the indented tree-walk serializer.
Arrays print every element followed by `,\n`; objects print members
separated by `,\n` with no comma after the last; both print the closing
delimiter after `indentChars depth`, except that an empty array prints as
`[]` (the indent call is inside the non-empty branch) while an empty
object prints its indent (the call is outside the branch). -/
def fmt_impl : JsonVal → Nat → List Char
  | .Array [], _ => ['[', ']']
  | .Array (v :: vs), depth =>
    '[' :: '\n' :: (fmtElems (v :: vs) (depth + 1) ++ indentChars depth ++ [']'])
  | .Object [], depth => lbrace :: (indentChars depth ++ [rbrace])
  | .Object (m :: ms), depth =>
    lbrace :: '\n' :: (fmtMems (m :: ms) (depth + 1) ++ indentChars depth ++ [rbrace])
  | .String s, _ => qmark :: (s.data ++ [qmark])
  | .Boolean b, _ => (if b then "true" else "false").data
  | .Null, _ => "null".data
  | .Number (.Float q), _ => floatDigs q
  | .Number (.UnsignedInt n), _ => natDigs n
  | .Number (.SignedInt n), _ => intDigs n

/-- The element loop of the `Array` branch of `fmt_impl`. -/
def fmtElems : List JsonVal → Nat → List Char
  | [], _ => []
  | v :: vs, d => indentChars d ++ fmt_impl v d ++ [',', '\n'] ++ fmtElems vs d

/-- The member loop of the `Object` branch of `fmt_impl` (comma after every
member except the last). -/
def fmtMems : List (String × JsonVal) → Nat → List Char
  | [], _ => []
  | (k, v) :: ms, d =>
    indentChars d ++ (qmark :: (k.data ++ [qmark])) ++ [':', ' '] ++ fmt_impl v d
      ++ (if ms.isEmpty then [] else [',']) ++ '\n' :: fmtMems ms d
end

/-- The `Display` instance: `fmt_impl` at depth 0, as a string. -/
def display (v : JsonVal) : String := String.mk (fmt_impl v 0)


/-! ## Well-formedness for the round-trip property -/

/-- Replay of the quoted-run escape automaton over a string body: the body
contains no unescaped quote, and does not end in an escaping state, so
that re-lexing `"` ++ body ++ `"` stops exactly at the final quote.  Lexed
string bodies satisfy this by construction. -/
def strOkGo : Bool → List Char → Bool
  | esc, [] => !esc
  | esc, ch :: rest => (ch != qmark || esc) && strOkGo (ch == bslash) rest

/-- The key is absent from the member list. -/
def keyNotIn (k : String) (m : List (String × JsonVal)) : Bool :=
  m.all fun p => p.1 != k

mutual
/-- Values whose serialization re-parses to an equal tree: arrays are
empty (the serializer prints a trailing comma after every array element,
which the tokenizer rejects), numbers are in-range unsigned integers or
strictly negative in-range signed integers (floats and non-negative
signed integers re-parse to a different variant), and string bodies
re-lex to themselves.  Values produced by a successful parse satisfy all
of these except the array/number restrictions. -/
def wfVal : JsonVal → Bool
  | .Array es => es.isEmpty
  | .Object ms => wfMems ms
  | .String s => strOkGo false s.data
  | .Number (.UnsignedInt n) => decide (n < 2 ^ 64)
  | .Number (.SignedInt n) => decide (n < 0) && decide (n.natAbs ≤ 2 ^ 63)
  | .Number (.Float _) => false
  | .Boolean _ => true
  | .Null => true

/-- Member lists with re-lexable, pairwise distinct keys and well-formed
values (parse output is always pairwise distinct, by last-write-wins). -/
def wfMems : List (String × JsonVal) → Bool
  | [] => true
  | (k, v) :: ms => strOkGo false k.data && keyNotIn k ms && wfVal v && wfMems ms
end

/-- The first significant character after a serialized member value is a
delimiter the tokenizer accepts after a literal. -/
def contOk (rest : List Char) : Bool :=
  match (rest.dropWhile rustIsWs).head? with
  | some d => d == ',' || d == rbrace || d == ']'
  | none => false


/-- The value round-trip property: from any tokenizer state whose
significant input is the serialization of `v` followed by delimiter
context `rest`, the tokenizer produces a token beginning `v`, and the
value call on that token reconstructs exactly `v`, leaving `rest` (its
leading whitespace possibly consumed) in the state. -/
def ValRT (v : JsonVal) : Prop :=
  ∀ (dep : Nat) (a rest : List Char) (col line : Nat),
    a.dropWhile rustIsWs = fmt_impl v dep ++ rest →
    (rest.head? = some ',' ∨ rest.head? = some '\n') →
    contOk rest = true →
    ∃ tok a1 c1 l1,
      next_token ⟨a, col, line⟩ = .ok tok ⟨a1, c1, l1⟩ ∧
      ∀ F, run F (.val tok) ⟨a1, c1, l1⟩ = .nofuel ∨
        ∃ r2 c2 l2, run F (.val tok) ⟨a1, c1, l1⟩ = .ok (.v v) ⟨r2, c2, l2⟩ ∧
          r2.dropWhile rustIsWs = rest.dropWhile rustIsWs

/-! ## Basic tokenizer lemmas -/

/-- `skip_whitespace` leaves exactly the input with its leading whitespace
dropped. -/
theorem skipWsGo_input (cs : List Char) : ∀ c l, (skipWsGo cs c l).input = cs.dropWhile rustIsWs := by
  induction cs with
  | nil => intro c l; rfl
  | cons ch rest ih =>
    intro c l
    by_cases h : rustIsWs ch
    · by_cases h2 : ch == '\n' <;> simp [skipWsGo, h, h2, List.dropWhile, ih]
    · simp [skipWsGo, h, List.dropWhile]

/-- State form of `skipWsGo_input`. -/
theorem skip_whitespace_input (s : St) :
    (skip_whitespace s).input = s.input.dropWhile rustIsWs :=
  skipWsGo_input s.input s.col s.line

/-- `skip_whitespace` does nothing when the input starts with a
non-whitespace character. -/
theorem skip_whitespace_nonws (s : St) (ch : Char) (rest : List Char)
    (hin : s.input = ch :: rest) (h : rustIsWs ch = false) : skip_whitespace s = s := by
  obtain ⟨i, c, l⟩ := s
  simp only [St.mk.injEq] at hin ⊢
  subst hin
  simp [skip_whitespace, skipWsGo, h]

/-- The quoted-run loop never changes the line counter (a newline inside a
quoted run is consumed like any other character). -/
theorem strBodyGo_line (cs : List Char) : ∀ esc acc c l, ((strBodyGo esc acc cs c l).2).line = l := by
  induction cs with
  | nil => intro esc acc c l; rfl
  | cons ch rest ih =>
    intro esc acc c l
    by_cases h : (ch != qmark || esc) <;> simp [strBodyGo, h, ih]

/-! ## Claim C3 — object key order and duplicate keys -/

/-- Claim C3: for every parsed object, insertion order of keys is preserved
and duplicate keys are resolved last-write-wins rather than rejected.
`mapInsert` (the model of `IndexMap::insert`) appends a fresh key at the end
of the in-order member list; the document `(lbrace)"b":1,"a":2(rbrace)`
parses to an object listing `b` before `a`, and
`(lbrace)"a":1,"a":2(rbrace)` parses to the single-entry object whose value
is 2. -/
theorem c3_object_order :
    (∀ (m : List (String × JsonVal)) (k : String) (v : JsonVal),
        m.any (fun p => p.1 == k) = false → mapInsert m k v = m ++ [(k, v)]) ∧
    parseStr "\x7b\"b\":1,\"a\":2\x7d" =
      .ok (.v (.Object [("b", .Number (.UnsignedInt 1)), ("a", .Number (.UnsignedInt 2))]))
        ⟨[], 13, 1⟩ ∧
    parseStr "\x7b\"a\":1,\"a\":2\x7d" =
      .ok (.v (.Object [("a", .Number (.UnsignedInt 2))])) ⟨[], 13, 1⟩ := by
  refine ⟨?_, rfl, rfl⟩
  intro m k v h
  simp [mapInsert, h]

/-- Witness for the universally quantified part of `c3_object_order`:
inserting the fresh key `a` into the singleton map holding `b` appends it
after `b`. -/
theorem c3_object_order_witness :
    mapInsert [("b", JsonVal.Null)] "a" JsonVal.Null =
      [("b", JsonVal.Null), ("a", JsonVal.Null)] :=
  c3_object_order.1 [("b", JsonVal.Null)] "a" JsonVal.Null (by decide)

/-! ## Claim C4 — end of input inside a quoted run -/

/-- Claim C4 (code bug): the claim (and §4.1 of the spec) says reaching end
of input before the closing quote is a `ParsingError`; the code instead
reaches the `unreachable!` macro in the `'"'` arm of `next_token` — an
explicit assertion that the situation cannot happen — and panics.  The
model evaluates both the bare tokenizer call and a full parse on such an
input to the `panic` outcome, which is neither an `ok` token nor an `err`. -/
theorem c4_unclosed_quote_panics :
    next_token ⟨"\"abc".data, 0, 1⟩ = .panic ∧ parseStr "[\"abc" = .panic :=
  ⟨rfl, rfl⟩

/-! ## Claim C5 — `null` classification -/

/-- Claim C5 (code bug): the claim says `parse_val` classifies a literal as
`Null` only on an exact match of `null`, so that `nul` and `nullx` are
"invalid token" errors.  The code's `null` check
`chars.iter().zip("null".chars()).all(|(&a, b)| a == b)` lacks the length
guard that the `true`/`false` branches have, and `zip` truncates to the
shorter list, so any prefix (`nul`) or extension (`nullx`) of `null` whose
compared characters agree is classified as `Null`: both documents parse
successfully to `[Null]`, exactly as the exact literal `null` does. -/
theorem c5_null_prefix_match :
    parseStr "[nul]" = .ok (.v (.Array [.Null])) ⟨[], 5, 1⟩ ∧
    parseStr "[nullx]" = .ok (.v (.Array [.Null])) ⟨[], 7, 1⟩ ∧
    parseStr "[null]" = .ok (.v (.Array [.Null])) ⟨[], 6, 1⟩ :=
  ⟨rfl, rfl, rfl⟩

/-! ## Claim C6 — malformed numeric-leading literals -/

/-- Counterexample to claim C6 as stated: the claim says the literal `1x`
is accepted by the tokenizer and rejected only by the downstream
value-literal classifier with "invalid token".  In fact the numeric run
stops at `x` (`is_num_char 'x'` is false), the tokenizer then requires a
`,`/`(rbrace)`/`]` delimiter immediately after the run, and `[1x]` fails at
tokenization time with the `MissingEndingComma` lex error — not with
`InvalidToken`. -/
theorem c6_tokenizer_rejects_1x :
    parseStr "[1x]" = .err ⟨.MissingEndingComma, ⟨2, 1⟩⟩ ∧
    next_token ⟨"1x]".data, 1, 1⟩ = .err ⟨.MissingEndingComma, ⟨2, 1⟩⟩ ∧
    is_num_char 'x' = false :=
  ⟨rfl, rfl, rfl⟩

/-- Claim C6, amended: a malformed numeric-leading literal is rejected at
tokenization time with the `MissingEndingComma` lex error as soon as its
first character outside the numeric character set is reached (e.g. `1x`);
only malformed literals built entirely from numeric-set characters (such as
`1e` or `1.2.3`) are accepted by the tokenizer and rejected by the
downstream value-literal classifier as "invalid token" value errors. -/
theorem c6_malformed_literal :
    parseStr "[1x]" = .err ⟨.MissingEndingComma, ⟨2, 1⟩⟩ ∧
    parseStr "[1e]" = .err ⟨.InvalidToken, ⟨2, 1⟩⟩ ∧
    parseStr "[1.2.3]" = .err ⟨.InvalidToken, ⟨2, 1⟩⟩ :=
  ⟨rfl, rfl, rfl⟩

/-! ## Claim C7 — trailing comma lookahead -/

/-- Claim C7: whenever a comma is followed (after skipping whitespace) by a
closing brace or closing bracket as the very next significant character,
`next_token` fails with `InvalidTrailingComma` at the comma's own location
(the line of the counters and the 1-based column of the comma character);
in particular `(lbrace)"a":1,(rbrace)` fails this way at column 7 of line 1. -/
theorem c7_trailing_comma :
    (∀ (s0 : St) (r : List Char),
        (skip_whitespace s0).input = ',' :: r →
        ((r.dropWhile rustIsWs).head? = some rbrace ∨ (r.dropWhile rustIsWs).head? = some ']') →
        next_token s0 = .err ⟨.InvalidTrailingComma,
          ⟨(skip_whitespace s0).col + 1, (skip_whitespace s0).line⟩⟩) ∧
    parseStr "\x7b\"a\":1,\x7d" = .err ⟨.InvalidTrailingComma, ⟨7, 1⟩⟩ := by
  refine ⟨?_, rfl⟩
  intro s0 r hin hnext
  have hcons : ∃ ch2 t, r.dropWhile rustIsWs = ch2 :: t ∧ (ch2 == rbrace || ch2 == ']') = true := by
    rcases hnext with h | h <;>
      rcases hd : r.dropWhile rustIsWs with _ | ⟨ch2, t⟩ <;> rw [hd] at h <;> simp at h <;>
      exact ⟨_, t, rfl, by simp [h]⟩
  obtain ⟨ch2, t, ht, hch⟩ := hcons
  simp only [next_token, hin]
  simp only [skip_whitespace_input]
  rw [ht]
  simp [hch]
  rw [if_neg (by decide : ¬ (',' = lbrace)), if_neg (by decide : ¬ (',' = rbrace))]

/-- Witness for `c7_trailing_comma`: the input `",  ]"` starts with a comma
whose next significant character is `]`. -/
theorem c7_trailing_comma_witness :
    next_token ⟨[',', ' ', ' ', ']'], 0, 1⟩ = .err ⟨.InvalidTrailingComma, ⟨1, 1⟩⟩ :=
  c7_trailing_comma.1 ⟨[',', ' ', ' ', ']'], 0, 1⟩ [' ', ' ', ']'] rfl (by right; rfl)

/-! ## Claim C2 — serialize/re-parse round trip -/

/-- Counterexample to claim C2 as stated: the claim says that for every
tree produced by a successful parse, re-parsing the `Display` output yields
an equal tree.  `[1]` parses successfully to `Array [UnsignedInt 1]`, but
the serializer prints every array element with a trailing `,` before the
closing `]`, and the tokenizer's comma lookahead rejects exactly that
shape, so re-parsing the serialization fails with `InvalidTrailingComma`
(at the comma of line 2) instead of producing any tree. -/
theorem c2_roundtrip_counterexample :
    parseStr "[1]" = .ok (.v (.Array [.Number (.UnsignedInt 1)])) ⟨[], 3, 1⟩ ∧
    display (.Array [.Number (.UnsignedInt 1)]) = "[\n    1,\n]" ∧
    parseStr "[\n    1,\n]" = .err ⟨.InvalidTrailingComma, ⟨6, 2⟩⟩ :=
  ⟨rfl, rfl, rfl⟩

/-! ## Claim C9 — line/column tracking -/

/-- Counterexample to claim C9 as stated: the claim says every newline the
tokenizer consumes — including newlines inside quoted runs — resets the
column to 0 and increments the line.  Tokenizing `["a(newline)b"]`, the
string token's quoted run consumes the newline as an ordinary character:
the tokenizer leaves the run with `col = 6` and `line` still `1`, and the
following `]` token carries location column 7, line 1, where the claim
requires a line of at least 2. -/
theorem c9_newline_counterexample :
    next_token ⟨"[\"a\nb\"]".data, 0, 1⟩ =
      .ok ⟨.OpenSqBracket, ⟨1, 1⟩⟩ ⟨"\"a\nb\"]".data, 1, 1⟩ ∧
    next_token ⟨"\"a\nb\"]".data, 1, 1⟩ =
      .ok ⟨.Val "\"a\nb\"".data, ⟨2, 1⟩⟩ ⟨[']'], 6, 1⟩ ∧
    next_token ⟨[']'], 6, 1⟩ = .ok ⟨.ClosedSqBracket, ⟨7, 1⟩⟩ ⟨[], 7, 1⟩ :=
  ⟨rfl, rfl, rfl⟩

/-! ## Stepping lemmas for `next_token`

One lemma per branch of the Rust `match`, phrased on the state after
`skip_whitespace`.  These drive all later simulation proofs. -/

/-- If `a` satisfies a Boolean character predicate and `b` does not, they
are distinct. -/
theorem beq_eq_false_of_pred {p : Char → Bool} {a b : Char} (ha : p a = true)
    (hb : p b = false) : (a == b) = false := by
  cases h : a == b
  · rfl
  · rw [eq_of_beq h] at ha
    rw [ha] at hb
    cases hb

/-- `next_token` at end of input: the `End` token at the current location. -/
theorem next_token_end (s0 : St) (h : (skip_whitespace s0).input = []) :
    next_token s0 = .ok ⟨.End, ⟨(skip_whitespace s0).col, (skip_whitespace s0).line⟩⟩
      (skip_whitespace s0) := by
  simp only [next_token, h]

/-- `next_token` on an opening brace. -/
theorem next_token_lbrace (s0 : St) (rest : List Char)
    (hin : (skip_whitespace s0).input = lbrace :: rest) :
    next_token s0 = .ok ⟨.OpenBracket, ⟨(skip_whitespace s0).col + 1, (skip_whitespace s0).line⟩⟩
      ⟨rest, (skip_whitespace s0).col + 1, (skip_whitespace s0).line⟩ := by
  simp only [next_token, hin]
  rw [if_pos (by decide : (lbrace == lbrace) = true)]

/-- `next_token` on a closing brace. -/
theorem next_token_rbrace (s0 : St) (rest : List Char)
    (hin : (skip_whitespace s0).input = rbrace :: rest) :
    next_token s0 = .ok ⟨.ClosedBracket, ⟨(skip_whitespace s0).col + 1, (skip_whitespace s0).line⟩⟩
      ⟨rest, (skip_whitespace s0).col + 1, (skip_whitespace s0).line⟩ := by
  simp only [next_token, hin]
  rw [if_neg (by decide : ¬ ((rbrace == lbrace) = true)),
    if_pos (by decide : (rbrace == rbrace) = true)]

/-- `next_token` on an opening square bracket. -/
theorem next_token_opensq (s0 : St) (rest : List Char)
    (hin : (skip_whitespace s0).input = '[' :: rest) :
    next_token s0 = .ok ⟨.OpenSqBracket, ⟨(skip_whitespace s0).col + 1, (skip_whitespace s0).line⟩⟩
      ⟨rest, (skip_whitespace s0).col + 1, (skip_whitespace s0).line⟩ := by
  simp only [next_token, hin]
  rw [if_neg (by decide : ¬ (('[' == lbrace) = true)),
    if_neg (by decide : ¬ (('[' == rbrace) = true)),
    if_pos (by decide : ('[' == '[') = true)]

/-- `next_token` on a closing square bracket. -/
theorem next_token_closesq (s0 : St) (rest : List Char)
    (hin : (skip_whitespace s0).input = ']' :: rest) :
    next_token s0 = .ok ⟨.ClosedSqBracket, ⟨(skip_whitespace s0).col + 1, (skip_whitespace s0).line⟩⟩
      ⟨rest, (skip_whitespace s0).col + 1, (skip_whitespace s0).line⟩ := by
  simp only [next_token, hin]
  rw [if_neg (by decide : ¬ ((']' == lbrace) = true)),
    if_neg (by decide : ¬ ((']' == rbrace) = true)),
    if_neg (by decide : ¬ ((']' == '[') = true)),
    if_pos (by decide : (']' == ']') = true)]

/-- `next_token` on a colon. -/
theorem next_token_colon (s0 : St) (rest : List Char)
    (hin : (skip_whitespace s0).input = ':' :: rest) :
    next_token s0 = .ok ⟨.Colon, ⟨(skip_whitespace s0).col + 1, (skip_whitespace s0).line⟩⟩
      ⟨rest, (skip_whitespace s0).col + 1, (skip_whitespace s0).line⟩ := by
  simp only [next_token, hin]
  rw [if_neg (by decide : ¬ ((':' == lbrace) = true)),
    if_neg (by decide : ¬ ((':' == rbrace) = true)),
    if_neg (by decide : ¬ ((':' == '[') = true)),
    if_neg (by decide : ¬ ((':' == ']') = true)),
    if_pos (by decide : (':' == ':') = true)]

/-- `next_token` on a comma whose next significant character is not a
closing brace/bracket: the `Comma` token, with the lookahead's whitespace
consumed. -/
theorem next_token_comma_ok (s0 : St) (r : List Char)
    (hin : (skip_whitespace s0).input = ',' :: r)
    (hnext : ∀ ch2, (r.dropWhile rustIsWs).head? = some ch2 → (ch2 == rbrace || ch2 == ']') = false) :
    next_token s0 = .ok ⟨.Comma, ⟨(skip_whitespace s0).col + 1, (skip_whitespace s0).line⟩⟩
      (skip_whitespace ⟨r, (skip_whitespace s0).col + 1, (skip_whitespace s0).line⟩) := by
  simp only [next_token, hin]
  rw [if_neg (by decide : ¬ ((',' == lbrace) = true)),
    if_neg (by decide : ¬ ((',' == rbrace) = true)),
    if_neg (by decide : ¬ ((',' == '[') = true)),
    if_neg (by decide : ¬ ((',' == ']') = true)),
    if_neg (by decide : ¬ ((',' == ':') = true)),
    if_pos (by decide : (',' == ',') = true)]
  rcases hp : (skip_whitespace ⟨r, (skip_whitespace s0).col + 1, (skip_whitespace s0).line⟩).input
    with _ | ⟨ch2, t⟩
  · rfl
  · have hr : r.dropWhile rustIsWs = ch2 :: t := by
      rw [← skip_whitespace_input ⟨r, (skip_whitespace s0).col + 1, (skip_whitespace s0).line⟩]
      exact hp
    have hc := hnext ch2 (by rw [hr]; rfl)
    simp only [hc]
    rfl

/-- `next_token` on a comma whose next significant character is a closing
brace/bracket: the `InvalidTrailingComma` error at the comma's location. -/
theorem next_token_comma_err (s0 : St) (r : List Char)
    (hin : (skip_whitespace s0).input = ',' :: r)
    (ch2 : Char) (t : List Char) (hd : r.dropWhile rustIsWs = ch2 :: t)
    (hch : (ch2 == rbrace || ch2 == ']') = true) :
    next_token s0 = .err ⟨.InvalidTrailingComma,
      ⟨(skip_whitespace s0).col + 1, (skip_whitespace s0).line⟩⟩ := by
  simp only [next_token, hin]
  rw [if_neg (by decide : ¬ ((',' == lbrace) = true)),
    if_neg (by decide : ¬ ((',' == rbrace) = true)),
    if_neg (by decide : ¬ ((',' == '[') = true)),
    if_neg (by decide : ¬ ((',' == ']') = true)),
    if_neg (by decide : ¬ ((',' == ':') = true)),
    if_pos (by decide : (',' == ',') = true)]
  have hp : (skip_whitespace ⟨r, (skip_whitespace s0).col + 1, (skip_whitespace s0).line⟩).input
      = ch2 :: t := by rw [skip_whitespace_input]; exact hd
  rw [hp]
  simp only [hch]
  rfl

/-- `tokenize_val` when the next significant character is a delimiter:
the `Val` token at the given location, with the peeked whitespace
consumed. -/
theorem tokenize_val_ok (text : List Char) (loc : Loc) (s : St) (ch : Char) (t : List Char)
    (hp : (skip_whitespace s).input = ch :: t)
    (hch : (ch == ',' || ch == rbrace || ch == ']') = true) :
    tokenize_val text loc s = .ok ⟨.Val text, loc⟩ (skip_whitespace s) := by
  simp only [tokenize_val, hp]
  simp only [hch]
  rfl

/-- `tokenize_val` when the next significant character is missing or not a
delimiter: the `MissingEndingComma` error at the post-peek location. -/
theorem tokenize_val_err (text : List Char) (loc : Loc) (s : St)
    (h : ∀ ch t, (skip_whitespace s).input = ch :: t → (ch == ',' || ch == rbrace || ch == ']') = false) :
    tokenize_val text loc s =
      .err ⟨.MissingEndingComma, ⟨(skip_whitespace s).col, (skip_whitespace s).line⟩⟩ := by
  rcases hp : (skip_whitespace s).input with _ | ⟨ch, t⟩
  · simp only [tokenize_val, hp]
  · simp only [tokenize_val, hp]
    simp only [h ch t hp]
    rfl

/-- `next_token` on an opening quote with a closing quote present:
the body runs to the unescaped quote, the quote is consumed, and the
colon lookahead decides `Ident` (colon next). -/
theorem next_token_quote_ident (s0 : St) (rest : List Char)
    (hin : (skip_whitespace s0).input = qmark :: rest)
    (txt : List Char) (s2 : St) (hb : strBody false [] ⟨rest, (skip_whitespace s0).col + 1, (skip_whitespace s0).line⟩ = (txt, s2))
    (r2 : List Char) (h2 : s2.input = qmark :: r2)
    (hcolon : (r2.dropWhile rustIsWs).head? = some ':') :
    next_token s0 = .ok ⟨.Ident txt, ⟨(skip_whitespace s0).col + 1, (skip_whitespace s0).line⟩⟩
      (skip_whitespace ⟨r2, s2.col + 1, s2.line⟩) := by
  simp only [next_token, hin]
  rw [if_neg (by decide : ¬ ((qmark == lbrace) = true)),
    if_neg (by decide : ¬ ((qmark == rbrace) = true)),
    if_neg (by decide : ¬ ((qmark == '[') = true)),
    if_neg (by decide : ¬ ((qmark == ']') = true)),
    if_neg (by decide : ¬ ((qmark == ':') = true)),
    if_neg (by decide : ¬ ((qmark == ',') = true)),
    if_pos (by decide : (qmark == qmark) = true)]
  rw [hb]
  simp only [h2]
  rw [if_pos (by decide : (qmark == qmark) = true)]
  have hp : (skip_whitespace ⟨r2, s2.col + 1, s2.line⟩).input = r2.dropWhile rustIsWs :=
    skip_whitespace_input _
  rcases hq : r2.dropWhile rustIsWs with _ | ⟨ch3, t3⟩
  · rw [hq] at hcolon; cases hcolon
  · rw [hq] at hcolon
    have : ch3 = ':' := by
      have := congrArg (fun o => o.getD ' ') hcolon
      simpa using this
    subst this
    rw [hp, hq]
    simp only [show ((':' == ':') = true) from by decide]
    rfl

/-- `next_token` on an opening quote with a closing quote present and no
colon after it: the `Val` token with the quotes re-applied. -/
theorem next_token_quote_val (s0 : St) (rest : List Char)
    (hin : (skip_whitespace s0).input = qmark :: rest)
    (txt : List Char) (s2 : St) (hb : strBody false [] ⟨rest, (skip_whitespace s0).col + 1, (skip_whitespace s0).line⟩ = (txt, s2))
    (r2 : List Char) (h2 : s2.input = qmark :: r2)
    (hcolon : (r2.dropWhile rustIsWs).head? ≠ some ':') :
    next_token s0 = .ok ⟨.Val (qmark :: txt ++ [qmark]), ⟨(skip_whitespace s0).col + 1, (skip_whitespace s0).line⟩⟩
      (skip_whitespace ⟨r2, s2.col + 1, s2.line⟩) := by
  simp only [next_token, hin]
  rw [if_neg (by decide : ¬ ((qmark == lbrace) = true)),
    if_neg (by decide : ¬ ((qmark == rbrace) = true)),
    if_neg (by decide : ¬ ((qmark == '[') = true)),
    if_neg (by decide : ¬ ((qmark == ']') = true)),
    if_neg (by decide : ¬ ((qmark == ':') = true)),
    if_neg (by decide : ¬ ((qmark == ',') = true)),
    if_pos (by decide : (qmark == qmark) = true)]
  rw [hb]
  simp only [h2]
  rw [if_pos (by decide : (qmark == qmark) = true)]
  have hp : (skip_whitespace ⟨r2, s2.col + 1, s2.line⟩).input = r2.dropWhile rustIsWs :=
    skip_whitespace_input _
  rcases hq : r2.dropWhile rustIsWs with _ | ⟨ch3, t3⟩
  · rw [hp, hq]
  · rw [hp, hq]
    have : (ch3 == ':') = false := by
      cases hc : ch3 == ':'
      · rfl
      · exact absurd (by rw [hq, eq_of_beq hc]; rfl : (r2.dropWhile rustIsWs).head? = some ':') hcolon
    simp only [this]
    rfl

/-- `next_token` on an opening quote whose run reaches end of input: the
Rust `unreachable!` panic. -/
theorem next_token_quote_panic (s0 : St) (rest : List Char)
    (hin : (skip_whitespace s0).input = qmark :: rest)
    (txt : List Char) (s2 : St) (hb : strBody false [] ⟨rest, (skip_whitespace s0).col + 1, (skip_whitespace s0).line⟩ = (txt, s2))
    (h2 : s2.input = []) :
    next_token s0 = .panic := by
  simp only [next_token, hin]
  rw [if_neg (by decide : ¬ ((qmark == lbrace) = true)),
    if_neg (by decide : ¬ ((qmark == rbrace) = true)),
    if_neg (by decide : ¬ ((qmark == '[') = true)),
    if_neg (by decide : ¬ ((qmark == ']') = true)),
    if_neg (by decide : ¬ ((qmark == ':') = true)),
    if_neg (by decide : ¬ ((qmark == ',') = true)),
    if_pos (by decide : (qmark == qmark) = true)]
  rw [hb]
  simp only [h2]

/-- `next_token` on a digit: the numeric run followed by `tokenize_val`. -/
theorem next_token_digit (s0 : St) (ch : Char) (rest : List Char)
    (hin : (skip_whitespace s0).input = ch :: rest) (hdig : ch.isDigit = true) :
    next_token s0 =
      tokenize_val (numRun [ch] ⟨rest, (skip_whitespace s0).col + 1, (skip_whitespace s0).line⟩).1
        ⟨(skip_whitespace s0).col + 1, (skip_whitespace s0).line⟩
        (numRun [ch] ⟨rest, (skip_whitespace s0).col + 1, (skip_whitespace s0).line⟩).2 := by
  simp only [next_token, hin]
  rw [if_neg (by simp [beq_eq_false_of_pred hdig (by decide : Char.isDigit lbrace = false)]),
    if_neg (by simp [beq_eq_false_of_pred hdig (by decide : Char.isDigit rbrace = false)]),
    if_neg (by simp [beq_eq_false_of_pred hdig (by decide : Char.isDigit '[' = false)]),
    if_neg (by simp [beq_eq_false_of_pred hdig (by decide : Char.isDigit ']' = false)]),
    if_neg (by simp [beq_eq_false_of_pred hdig (by decide : Char.isDigit ':' = false)]),
    if_neg (by simp [beq_eq_false_of_pred hdig (by decide : Char.isDigit ',' = false)]),
    if_neg (by simp [beq_eq_false_of_pred hdig (by decide : Char.isDigit qmark = false)]),
    if_pos hdig]

/-- `next_token` on an ASCII character that matches no earlier branch: the
bare-word run followed by `tokenize_val`. -/
theorem next_token_bare (s0 : St) (ch : Char) (rest : List Char)
    (hin : (skip_whitespace s0).input = ch :: rest)
    (h1 : (ch == lbrace) = false) (h2 : (ch == rbrace) = false)
    (h3 : (ch == '[') = false) (h4 : (ch == ']') = false)
    (h5 : (ch == ':') = false) (h6 : (ch == ',') = false)
    (h7 : (ch == qmark) = false) (h8 : ch.isDigit = false)
    (h9 : rustIsAscii ch = true) :
    next_token s0 =
      tokenize_val (bareRun (rest.length + 1) [ch] ⟨rest, (skip_whitespace s0).col + 1, (skip_whitespace s0).line⟩).1
        ⟨(skip_whitespace s0).col + 1, (skip_whitespace s0).line⟩
        (bareRun (rest.length + 1) [ch] ⟨rest, (skip_whitespace s0).col + 1, (skip_whitespace s0).line⟩).2 := by
  simp only [next_token, hin]
  rw [if_neg (by simp [h1]), if_neg (by simp [h2]), if_neg (by simp [h3]),
    if_neg (by simp [h4]), if_neg (by simp [h5]), if_neg (by simp [h6]),
    if_neg (by simp [h7]), if_neg (by simp [h8]), if_pos h9]

/-- `next_token` on a non-ASCII character that matches no earlier branch:
the `UnsupportedToken` error. -/
theorem next_token_unsupported (s0 : St) (ch : Char) (rest : List Char)
    (hin : (skip_whitespace s0).input = ch :: rest)
    (h1 : (ch == lbrace) = false) (h2 : (ch == rbrace) = false)
    (h3 : (ch == '[') = false) (h4 : (ch == ']') = false)
    (h5 : (ch == ':') = false) (h6 : (ch == ',') = false)
    (h7 : (ch == qmark) = false) (h8 : ch.isDigit = false)
    (h9 : rustIsAscii ch = false) :
    next_token s0 =
      .err ⟨.UnsupportedToken, ⟨(skip_whitespace s0).col + 1, (skip_whitespace s0).line⟩⟩ := by
  simp only [next_token, hin]
  rw [if_neg (by simp [h1]), if_neg (by simp [h2]), if_neg (by simp [h3]),
    if_neg (by simp [h4]), if_neg (by simp [h5]), if_neg (by simp [h6]),
    if_neg (by simp [h7]), if_neg (by simp [h8]), if_neg (by simp [h9])]

/-- The quoted-run loop stops only at end of input or at an unescaped
quote. -/
theorem strBodyGo_stop (cs : List Char) : ∀ esc acc c l,
    ((strBodyGo esc acc cs c l).2.input = []) ∨
    (∃ r, (strBodyGo esc acc cs c l).2.input = qmark :: r) := by
  induction cs with
  | nil => intro esc acc c l; left; rfl
  | cons ch rest ih =>
    intro esc acc c l
    by_cases h : (ch != qmark || esc) = true
    · simp only [strBodyGo, h]
      exact ih _ _ _ _
    · simp only [strBodyGo, h]
      right
      have : (ch == qmark) = true := by
        rcases hb : ch != qmark with _ | _
        · simpa using hb
        · rw [hb] at h; simp at h
      rw [if_neg (by simp [h])]
      exact ⟨rest, by rw [eq_of_beq this]⟩

/-- Inversion for `tokenize_val`: a successful result is the `Val` token at
the given location with the peeked state. -/
theorem tokenize_val_ok_inv (text : List Char) (loc : Loc) (s : St) (tok : Token) (s' : St)
    (h : tokenize_val text loc s = .ok tok s') :
    tok = ⟨.Val text, loc⟩ ∧ s' = skip_whitespace s := by
  rcases hp : (skip_whitespace s).input with _ | ⟨ch, t⟩ <;> simp only [tokenize_val, hp] at h
  · cases h
  · by_cases hch : (ch == ',' || ch == rbrace || ch == ']') = true
    · simp only [hch] at h
      injection h with h1 h2
      exact ⟨h1.symm, h2.symm⟩
    · simp only [eq_false_of_ne_true hch] at h
      cases h

/-- Every token other than `End` carries the line of the counters and the
1-based column of its first character (the column counter plus one). -/
theorem next_token_loc (s0 : St) (tok : Token) (s' : St)
    (h : next_token s0 = .ok tok s') (hne : tok.kind ≠ .End) :
    tok.loc = ⟨(skip_whitespace s0).col + 1, (skip_whitespace s0).line⟩ := by
  rcases hin : (skip_whitespace s0).input with _ | ⟨ch, rest⟩
  · rw [next_token_end s0 hin] at h
    injection h with h1 _
    exact absurd (by rw [← h1] : tok.kind = .End) hne
  · by_cases c1 : (ch == lbrace) = true
    · rw [eq_of_beq c1] at hin
      rw [next_token_lbrace s0 rest hin] at h
      injection h with h1 _
      rw [← h1]
    by_cases c2 : (ch == rbrace) = true
    · rw [eq_of_beq c2] at hin
      rw [next_token_rbrace s0 rest hin] at h
      injection h with h1 _
      rw [← h1]
    by_cases c3 : (ch == '[') = true
    · rw [eq_of_beq c3] at hin
      rw [next_token_opensq s0 rest hin] at h
      injection h with h1 _
      rw [← h1]
    by_cases c4 : (ch == ']') = true
    · rw [eq_of_beq c4] at hin
      rw [next_token_closesq s0 rest hin] at h
      injection h with h1 _
      rw [← h1]
    by_cases c5 : (ch == ':') = true
    · rw [eq_of_beq c5] at hin
      rw [next_token_colon s0 rest hin] at h
      injection h with h1 _
      rw [← h1]
    by_cases c6 : (ch == ',') = true
    · rw [eq_of_beq c6] at hin
      rcases hd : rest.dropWhile rustIsWs with _ | ⟨ch2, t⟩
      · rw [next_token_comma_ok s0 rest hin (fun ch2 hx => by rw [hd] at hx; cases hx)] at h
        injection h with h1 _
        rw [← h1]
      · by_cases hcl : (ch2 == rbrace || ch2 == ']') = true
        · rw [next_token_comma_err s0 rest hin ch2 t hd hcl] at h
          cases h
        · rw [next_token_comma_ok s0 rest hin (fun c hx => by
            rw [hd] at hx
            injection hx with hx2
            rw [← hx2]
            exact eq_false_of_ne_true hcl)] at h
          injection h with h1 _
          rw [← h1]
    by_cases c7 : (ch == qmark) = true
    · rw [eq_of_beq c7] at hin
      obtain ⟨txt, s2, hb⟩ : ∃ txt s2,
          strBody false [] ⟨rest, (skip_whitespace s0).col + 1, (skip_whitespace s0).line⟩ = (txt, s2) :=
        ⟨_, _, rfl⟩
      have hgo : strBodyGo false [] rest ((skip_whitespace s0).col + 1) (skip_whitespace s0).line
          = (txt, s2) := hb
      rcases strBodyGo_stop rest false [] ((skip_whitespace s0).col + 1) (skip_whitespace s0).line
        with hstop | ⟨r2, hstop⟩
      · rw [next_token_quote_panic s0 rest hin txt s2 hb (by rw [hgo] at hstop; exact hstop)] at h
        cases h
      · have h2 : s2.input = qmark :: r2 := by rw [hgo] at hstop; exact hstop
        by_cases hcolon : (r2.dropWhile rustIsWs).head? = some ':'
        · rw [next_token_quote_ident s0 rest hin txt s2 hb r2 h2 hcolon] at h
          injection h with h1 _
          rw [← h1]
        · rw [next_token_quote_val s0 rest hin txt s2 hb r2 h2 hcolon] at h
          injection h with h1 _
          rw [← h1]
    by_cases c8 : ch.isDigit = true
    · rw [next_token_digit s0 ch rest hin c8] at h
      exact congrArg Token.loc (tokenize_val_ok_inv _ _ _ _ _ h).1
    by_cases c9 : rustIsAscii ch = true
    · rw [next_token_bare s0 ch rest hin (eq_false_of_ne_true c1) (eq_false_of_ne_true c2)
        (eq_false_of_ne_true c3) (eq_false_of_ne_true c4) (eq_false_of_ne_true c5)
        (eq_false_of_ne_true c6) (eq_false_of_ne_true c7) (eq_false_of_ne_true c8) c9] at h
      exact congrArg Token.loc (tokenize_val_ok_inv _ _ _ _ _ h).1
    · rw [next_token_unsupported s0 ch rest hin (eq_false_of_ne_true c1) (eq_false_of_ne_true c2)
        (eq_false_of_ne_true c3) (eq_false_of_ne_true c4) (eq_false_of_ne_true c5)
        (eq_false_of_ne_true c6) (eq_false_of_ne_true c7) (eq_false_of_ne_true c8)
        (eq_false_of_ne_true c9)] at h
      cases h

/-- Claim C9, amended: a newline consumed as whitespace (by
`skip_whitespace`) resets the column counter to 0 and increments the line
counter, but a newline inside a quoted run is consumed like any ordinary
character — the quoted-run loop never changes the line counter (it only
increments the column).  Every token other than `End` still carries the
tokenizer's line counter and the 1-based column (counter plus one) of its
first character as so tracked. -/
theorem c9_location_amended :
    (∀ (cs : List Char) (c l : Nat), skipWsGo ('\n' :: cs) c l = skipWsGo cs 0 (l + 1)) ∧
    (∀ (esc : Bool) (acc : List Char) (s : St), ((strBody esc acc s).2).line = s.line) ∧
    (∀ (s0 : St) (tok : Token) (s' : St), next_token s0 = .ok tok s' → tok.kind ≠ .End →
      tok.loc = ⟨(skip_whitespace s0).col + 1, (skip_whitespace s0).line⟩) := by
  refine ⟨?_, ?_, next_token_loc⟩
  · intro cs c l
    simp [skipWsGo, show rustIsWs '\n' = true from rfl]
  · intro esc acc s
    exact strBodyGo_line s.input esc acc s.col s.line

/-- Witness for `c9_location_amended`: the `[` token of the input `[`
carries column 1, line 1. -/
theorem c9_location_amended_witness :
    (⟨.OpenSqBracket, ⟨1, 1⟩⟩ : Token).loc =
      ⟨(skip_whitespace ⟨['['], 0, 1⟩).col + 1, (skip_whitespace ⟨['['], 0, 1⟩).line⟩ :=
  c9_location_amended.2.2 ⟨['['], 0, 1⟩ ⟨.OpenSqBracket, ⟨1, 1⟩⟩ ⟨[], 1, 1⟩ rfl (by decide)

/-- The only error kinds `next_token` can produce are the three lexer
kinds: `InvalidTrailingComma`, `MissingEndingComma`, `UnsupportedToken`. -/
theorem next_token_err_kinds (s0 : St) (e : ParsingError) (h : next_token s0 = .err e) :
    e.kind = .InvalidTrailingComma ∨ e.kind = .MissingEndingComma ∨ e.kind = .UnsupportedToken := by
  rcases hin : (skip_whitespace s0).input with _ | ⟨ch, rest⟩
  · rw [next_token_end s0 hin] at h
    cases h
  · by_cases c1 : (ch == lbrace) = true
    · rw [eq_of_beq c1] at hin
      rw [next_token_lbrace s0 rest hin] at h
      cases h
    by_cases c2 : (ch == rbrace) = true
    · rw [eq_of_beq c2] at hin
      rw [next_token_rbrace s0 rest hin] at h
      cases h
    by_cases c3 : (ch == '[') = true
    · rw [eq_of_beq c3] at hin
      rw [next_token_opensq s0 rest hin] at h
      cases h
    by_cases c4 : (ch == ']') = true
    · rw [eq_of_beq c4] at hin
      rw [next_token_closesq s0 rest hin] at h
      cases h
    by_cases c5 : (ch == ':') = true
    · rw [eq_of_beq c5] at hin
      rw [next_token_colon s0 rest hin] at h
      cases h
    by_cases c6 : (ch == ',') = true
    · rw [eq_of_beq c6] at hin
      rcases hd : rest.dropWhile rustIsWs with _ | ⟨ch2, t⟩
      · rw [next_token_comma_ok s0 rest hin (fun ch2 hx => by rw [hd] at hx; cases hx)] at h
        cases h
      · by_cases hcl : (ch2 == rbrace || ch2 == ']') = true
        · rw [next_token_comma_err s0 rest hin ch2 t hd hcl] at h
          injection h with h1
          rw [← h1]
          exact Or.inl rfl
        · rw [next_token_comma_ok s0 rest hin (fun c hx => by
            rw [hd] at hx
            injection hx with hx2
            rw [← hx2]
            exact eq_false_of_ne_true hcl)] at h
          cases h
    by_cases c7 : (ch == qmark) = true
    · rw [eq_of_beq c7] at hin
      obtain ⟨txt, s2, hb⟩ : ∃ txt s2,
          strBody false [] ⟨rest, (skip_whitespace s0).col + 1, (skip_whitespace s0).line⟩ = (txt, s2) :=
        ⟨_, _, rfl⟩
      have hgo : strBodyGo false [] rest ((skip_whitespace s0).col + 1) (skip_whitespace s0).line
          = (txt, s2) := hb
      rcases strBodyGo_stop rest false [] ((skip_whitespace s0).col + 1) (skip_whitespace s0).line
        with hstop | ⟨r2, hstop⟩
      · rw [next_token_quote_panic s0 rest hin txt s2 hb (by rw [hgo] at hstop; exact hstop)] at h
        cases h
      · have h2 : s2.input = qmark :: r2 := by rw [hgo] at hstop; exact hstop
        by_cases hcolon : (r2.dropWhile rustIsWs).head? = some ':'
        · rw [next_token_quote_ident s0 rest hin txt s2 hb r2 h2 hcolon] at h
          cases h
        · rw [next_token_quote_val s0 rest hin txt s2 hb r2 h2 hcolon] at h
          cases h
    by_cases c8 : ch.isDigit = true
    · rw [next_token_digit s0 ch rest hin c8] at h
      rcases hp : (skip_whitespace (numRun [ch] ⟨rest, (skip_whitespace s0).col + 1, (skip_whitespace s0).line⟩).2).input with _ | ⟨ch3, t3⟩ <;>
        simp only [tokenize_val, hp] at h
      · injection h with h1
        rw [← h1]
        exact Or.inr (Or.inl rfl)
      · by_cases hch : (ch3 == ',' || ch3 == rbrace || ch3 == ']') = true
        · simp only [hch] at h
          cases h
        · simp only [eq_false_of_ne_true hch] at h
          injection h with h1
          rw [← h1]
          exact Or.inr (Or.inl rfl)
    by_cases c9 : rustIsAscii ch = true
    · rw [next_token_bare s0 ch rest hin (eq_false_of_ne_true c1) (eq_false_of_ne_true c2)
        (eq_false_of_ne_true c3) (eq_false_of_ne_true c4) (eq_false_of_ne_true c5)
        (eq_false_of_ne_true c6) (eq_false_of_ne_true c7) (eq_false_of_ne_true c8) c9] at h
      rcases hp : (skip_whitespace (bareRun (rest.length + 1) [ch] ⟨rest, (skip_whitespace s0).col + 1, (skip_whitespace s0).line⟩).2).input with _ | ⟨ch3, t3⟩ <;>
        simp only [tokenize_val, hp] at h
      · injection h with h1
        rw [← h1]
        exact Or.inr (Or.inl rfl)
      · by_cases hch : (ch3 == ',' || ch3 == rbrace || ch3 == ']') = true
        · simp only [hch] at h
          cases h
        · simp only [eq_false_of_ne_true hch] at h
          injection h with h1
          rw [← h1]
          exact Or.inr (Or.inl rfl)
    · rw [next_token_unsupported s0 ch rest hin (eq_false_of_ne_true c1) (eq_false_of_ne_true c2)
        (eq_false_of_ne_true c3) (eq_false_of_ne_true c4) (eq_false_of_ne_true c5)
        (eq_false_of_ne_true c6) (eq_false_of_ne_true c7) (eq_false_of_ne_true c8)
        (eq_false_of_ne_true c9)] at h
      injection h with h1
      rw [← h1]
      exact Or.inr (Or.inr rfl)

/-- `expect_token` never produces `InvalidStartingToken`. -/
theorem next_token_err_not_ist (s0 : St) (e : ParsingError) (h : next_token s0 = .err e) :
    e.kind ≠ .InvalidStartingToken := by
  rcases next_token_err_kinds s0 e h with h2 | h2 | h2 <;> rw [h2] <;> intro hx <;> cases hx

/-- `expect_token` never produces `InvalidStartingToken`. -/
theorem expect_token_err_not_ist (k : TokenKind) (s : St) (e : ParsingError)
    (h : expect_token k s = .err e) : e.kind ≠ .InvalidStartingToken := by
  simp only [expect_token] at h
  split at h
  · split at h
    · cases h
    · injection h with h1
      intro hx
      rw [← h1] at hx
      cases hx
  · injection h with h1
    rw [← h1]
    exact next_token_err_not_ist _ _ (by assumption)
  · cases h

/-- `classifyVal` errors are always `InvalidToken`. -/
theorem classifyVal_err_kind (chars : List Char) (loc : Loc) (s : St) (e : ParsingError)
    (h : classifyVal chars loc s = .err e) : e.kind = .InvalidToken := by
  unfold classifyVal at h
  split at h
  · cases h
  · split_ifs at h <;>
      (try split at h) <;>
      first
        | (cases h; rfl)
        | cases h
        | (injection h with h1; exact congrArg ParsingError.kind h1.symm)

/-- The recursive-descent step function never produces
`InvalidStartingToken` (that kind is only built by the top-level
`parse`). -/
theorem run_err_not_ist : ∀ (fuel : Nat) (c : Call) (s : St) (e : ParsingError),
    run fuel c s = .err e → e.kind ≠ .InvalidStartingToken := by
  intro fuel
  induction fuel with
  | zero => intro c s e h; cases h
  | succ fuel ih =>
    intro c s e h
    cases c <;> simp only [run] at h <;>
      (repeat' first
        | cases h
        | (injection h with h1; intro hx; rw [← h1] at hx; cases hx)
        | (exact ih _ _ _ (by assumption))
        | (exact next_token_err_not_ist _ _ (by assumption))
        | (exact expect_token_err_not_ist _ _ _ (by assumption))
        | (exact fun hx => by
            rw [classifyVal_err_kind _ _ _ _ (by assumption)] at hx
            cases hx)
        | (intro hx; cases hx)
        | split at h)

/-! ## Claim C8 — invalid starting token -/

/-- Claim C8: `parse` returns the `InvalidStartingToken` error exactly when
the first token of the document exists (tokenizes without error or panic)
and is neither an opening brace nor an opening bracket; in particular the
bare scalar document `"hello"` fails with `InvalidStartingToken` at its
first character.  (When the first token itself fails to tokenize, the lex
error is propagated instead, and no part of the parser other than the root
check ever constructs `InvalidStartingToken`.) -/
theorem c8_invalid_starting_token :
    (∀ s0 : St, (∃ e, parse s0 = .err e ∧ e.kind = .InvalidStartingToken) ↔
      (∃ tok s', next_token s0 = .ok tok s' ∧ tok.kind ≠ .OpenBracket ∧
        tok.kind ≠ .OpenSqBracket)) ∧
    parseStr "\"hello\"" = .err ⟨.InvalidStartingToken, ⟨1, 1⟩⟩ := by
  refine ⟨?_, rfl⟩
  intro s0
  constructor
  · rintro ⟨e, he, hk⟩
    rcases hn : next_token s0 with ⟨tok, s'⟩ | e0 | _ <;> simp only [parse, hn] at he
    · refine ⟨tok, s', rfl, ?_⟩
      cases htk : tok.kind <;> rw [htk] at he
      case OpenBracket => exact absurd hk (run_err_not_ist _ _ _ _ he)
      case OpenSqBracket => exact absurd hk (run_err_not_ist _ _ _ _ he)
      all_goals simp
    · injection he with h1
      exact absurd hk (h1 ▸ next_token_err_not_ist s0 e0 hn)
    · cases he
  · rintro ⟨tok, s', hn, h1, h2⟩
    refine ⟨⟨.InvalidStartingToken, tok.loc⟩, ?_, rfl⟩
    simp only [parse, hn]

/-- Witness for `c8_invalid_starting_token`: a document whose first token
is a bare colon produces `InvalidStartingToken`. -/
theorem c8_invalid_starting_token_witness :
    ∃ e, parse ⟨[':'], 0, 1⟩ = .err e ∧ e.kind = .InvalidStartingToken :=
  (c8_invalid_starting_token.1 ⟨[':'], 0, 1⟩).mpr
    ⟨⟨.Colon, ⟨1, 1⟩⟩, ⟨[], 1, 1⟩, rfl, by decide, by decide⟩

/-! ## Claim C1 — number classification in `parse_val` -/

/-- Claim C1: for every numeric-shaped `Val` token text (all characters in
the numeric character set, as required to reach the number branch), a text
containing `.` or `e`/`E` is parsed as a `Float` via the `f64` grammar (a
grammar failure is the `InvalidToken` error); otherwise a text starting
with `-` is parsed as a signed 64-bit integer and any other text as an
unsigned 64-bit integer, a parse failure — including 64-bit magnitude
overflow — yielding `InvalidToken`.  The array
`[27.0E2,42,-2,3.1415,4e-6,5E6]` parses to
`Float 2700, UnsignedInt 42, SignedInt (-2), Float 3.1415, Float 0.000004,
Float 5000000` (float values as exact rationals), and the 20-digit literal
`99999999999999999999` overflows `u64` and is rejected as `InvalidToken`. -/
theorem c1_number_classification :
    (∀ (c0 : Char) (rest : List Char) (loc : Loc) (s : St) (fuel : Nat),
        ((c0 :: rest).all is_num_char) = true →
        parse_val (fuel + 1) ⟨.Val (c0 :: rest), loc⟩ s =
          (if ((c0 :: rest).any fun c => c.toLower == 'e' || c == '.') then
            match rustParseF64 (c0 :: rest) with
            | some q => .ok (.v (.Number (.Float q))) s
            | none => .err ⟨.InvalidToken, loc⟩
          else if c0 == '-' then
            match rustParseI64 (c0 :: rest) with
            | some n => .ok (.v (.Number (.SignedInt n))) s
            | none => .err ⟨.InvalidToken, loc⟩
          else
            match rustParseU64 (c0 :: rest) with
            | some n => .ok (.v (.Number (.UnsignedInt n))) s
            | none => .err ⟨.InvalidToken, loc⟩)) ∧
    parseStr "[27.0E2,42,-2,3.1415,4e-6,5E6]" =
      .ok (.v (.Array [.Number (.Float (mkRat 2700 1)), .Number (.UnsignedInt 42),
        .Number (.SignedInt (-2)), .Number (.Float (mkRat 31415 10000)),
        .Number (.Float (mkRat 4 1000000)), .Number (.Float (mkRat 5000000 1))]))
        ⟨[], 30, 1⟩ ∧
    parseStr "[99999999999999999999]" = .err ⟨.InvalidToken, ⟨2, 1⟩⟩ := by
  refine ⟨?_, rfl, rfl⟩
  intro c0 rest loc s fuel hnum
  have hc0 : is_num_char c0 = true := by
    have h := hnum
    simp only [List.all_cons, Bool.and_eq_true] at h
    exact h.1
  have hq : (c0 == qmark) = false := beq_eq_false_of_pred hc0 (by decide)
  simp only [parse_val, run, classifyVal, hq, Bool.false_and, hnum, Bool.false_eq_true,
    if_false, if_true]

/-- Witness for `c1_number_classification`: the token text `42` is numeric,
has no `.`/`e`, does not start with `-`, and parses as `UnsignedInt 42`. -/
theorem c1_number_classification_witness :
    parse_val 1 ⟨.Val ['4', '2'], ⟨1, 1⟩⟩ ⟨[], 0, 1⟩ =
      (if (['4', '2'].any fun c => c.toLower == 'e' || c == '.') then
        match rustParseF64 ['4', '2'] with
        | some q => .ok (.v (.Number (.Float q))) ⟨[], 0, 1⟩
        | none => .err ⟨.InvalidToken, ⟨1, 1⟩⟩
      else if '4' == '-' then
        match rustParseI64 ['4', '2'] with
        | some n => .ok (.v (.Number (.SignedInt n))) ⟨[], 0, 1⟩
        | none => .err ⟨.InvalidToken, ⟨1, 1⟩⟩
      else
        match rustParseU64 ['4', '2'] with
        | some n => .ok (.v (.Number (.UnsignedInt n))) ⟨[], 0, 1⟩
        | none => .err ⟨.InvalidToken, ⟨1, 1⟩⟩) :=
  c1_number_classification.1 '4' ['2'] ⟨1, 1⟩ ⟨[], 0, 1⟩ 0 (by decide)

/-! ## Length and append lemmas for the tokenizer loops

These express that each loop consumes input from the front only, so its
behaviour is unchanged when more input is appended after the part it
consumed (as long as it did not observe the end of input). -/

/-- `skip_whitespace` never lengthens the input. -/
theorem skipWsGo_len (cs : List Char) : ∀ c l, (skipWsGo cs c l).input.length ≤ cs.length := by
  induction cs with
  | nil => intro c l; exact Nat.le_refl _
  | cons ch rest ih =>
    intro c l
    by_cases h : rustIsWs ch
    · by_cases h2 : (ch == '\n') = true <;>
        simp only [skipWsGo, h, h2, if_true, if_false, Bool.false_eq_true] <;>
        exact Nat.le_succ_of_le (ih _ _)
    · simp only [skipWsGo, h, Bool.false_eq_true, if_false]
      exact Nat.le_refl _

/-- The quoted-run loop never lengthens the input. -/
theorem strBodyGo_len (cs : List Char) : ∀ esc acc c l,
    ((strBodyGo esc acc cs c l).2).input.length ≤ cs.length := by
  induction cs with
  | nil => intro esc acc c l; exact Nat.le_refl _
  | cons ch rest ih =>
    intro esc acc c l
    by_cases h : (ch != qmark || esc) = true
    · simp only [strBodyGo, h, if_true]
      exact Nat.le_succ_of_le (ih _ _ _ _)
    · simp only [strBodyGo, h, Bool.false_eq_true, if_false]
      exact Nat.le_refl _

/-- The numeric-run loop never lengthens the input. -/
theorem numRunGo_len (cs : List Char) : ∀ acc c l,
    ((numRunGo acc cs c l).2).input.length ≤ cs.length := by
  induction cs with
  | nil => intro acc c l; exact Nat.le_refl _
  | cons ch rest ih =>
    intro acc c l
    by_cases h : is_num_char ch
    · simp only [numRunGo, h, if_true]
      exact Nat.le_succ_of_le (ih _ _ _)
    · simp only [numRunGo, h, Bool.false_eq_true, if_false]
      exact Nat.le_refl _

/-- The bare-word loop never lengthens the input. -/
theorem bareRun_len : ∀ (fuel : Nat) (acc : List Char) (s : St),
    ((bareRun fuel acc s).2).input.length ≤ s.input.length := by
  intro fuel
  induction fuel with
  | zero => intro acc s; exact Nat.le_refl _
  | succ fuel ih =>
    intro acc s
    simp only [bareRun]
    rcases hp : (skip_whitespace s).input with _ | ⟨ch, rest⟩
    · simp only [hp]
      have := skipWsGo_len s.input s.col s.line
      rw [show skipWsGo s.input s.col s.line = skip_whitespace s from rfl, hp] at this
      simpa using Nat.le_trans (by rw [hp]; exact Nat.zero_le _) (skipWsGo_len s.input s.col s.line)
    · simp only [hp]
      by_cases hch : (ch == ',' || ch == rbrace || ch == ']') = true
      · simp only [hch, if_true]
        have h1 : (skip_whitespace s).input.length ≤ s.input.length := skipWsGo_len s.input s.col s.line
        rw [hp] at h1
        rw [hp]
        exact h1
      · simp only [eq_false_of_ne_true hch, Bool.false_eq_true, if_false]
        have h1 : (skip_whitespace s).input.length ≤ s.input.length := skipWsGo_len s.input s.col s.line
        rw [hp] at h1
        exact Nat.le_trans (ih _ _) (by simpa using Nat.le_of_succ_le h1)

/-- A successful `next_token` never lengthens the input, and consumes at
least one character unless it produced the `End` token. -/
theorem next_token_len (s0 : St) (tok : Token) (s' : St) (h : next_token s0 = .ok tok s') :
    s'.input.length ≤ s0.input.length ∧
      (tok.kind ≠ .End → s'.input.length < s0.input.length) := by
  have hsw : (skip_whitespace s0).input.length ≤ s0.input.length :=
    skipWsGo_len s0.input s0.col s0.line
  rcases hin : (skip_whitespace s0).input with _ | ⟨ch, rest⟩
  · rw [next_token_end s0 hin] at h
    injection h with h1 h2
    refine ⟨h2 ▸ hsw, fun hk => absurd (by rw [← h1] : tok.kind = .End) hk⟩
  · have hrest : rest.length + 1 ≤ s0.input.length := by
      rw [hin] at hsw
      simpa using hsw
    by_cases c1 : (ch == lbrace) = true
    · rw [eq_of_beq c1] at hin
      rw [next_token_lbrace s0 rest hin] at h
      injection h with h1 h2
      rw [← h2]
      exact ⟨Nat.le_of_succ_le hrest, fun _ => hrest⟩
    by_cases c2 : (ch == rbrace) = true
    · rw [eq_of_beq c2] at hin
      rw [next_token_rbrace s0 rest hin] at h
      injection h with h1 h2
      rw [← h2]
      exact ⟨Nat.le_of_succ_le hrest, fun _ => hrest⟩
    by_cases c3 : (ch == '[') = true
    · rw [eq_of_beq c3] at hin
      rw [next_token_opensq s0 rest hin] at h
      injection h with h1 h2
      rw [← h2]
      exact ⟨Nat.le_of_succ_le hrest, fun _ => hrest⟩
    by_cases c4 : (ch == ']') = true
    · rw [eq_of_beq c4] at hin
      rw [next_token_closesq s0 rest hin] at h
      injection h with h1 h2
      rw [← h2]
      exact ⟨Nat.le_of_succ_le hrest, fun _ => hrest⟩
    by_cases c5 : (ch == ':') = true
    · rw [eq_of_beq c5] at hin
      rw [next_token_colon s0 rest hin] at h
      injection h with h1 h2
      rw [← h2]
      exact ⟨Nat.le_of_succ_le hrest, fun _ => hrest⟩
    by_cases c6 : (ch == ',') = true
    · rw [eq_of_beq c6] at hin
      have hcm : ∀ s2 : St, s2 =
          skip_whitespace ⟨rest, (skip_whitespace s0).col + 1, (skip_whitespace s0).line⟩ →
          s2.input.length ≤ s0.input.length ∧ s2.input.length < s0.input.length := by
        intro s2 hs2
        have : s2.input.length ≤ rest.length := by
          rw [hs2]
          exact skipWsGo_len rest _ _
        exact ⟨Nat.le_trans this (Nat.le_of_succ_le hrest),
          Nat.lt_of_le_of_lt this (Nat.lt_of_succ_le hrest)⟩
      rcases hd : rest.dropWhile rustIsWs with _ | ⟨ch2, t⟩
      · rw [next_token_comma_ok s0 rest hin (fun ch2 hx => by rw [hd] at hx; cases hx)] at h
        injection h with h1 h2
        rcases hcm _ h2.symm with ⟨ha, hb⟩
        exact ⟨ha, fun _ => hb⟩
      · by_cases hcl : (ch2 == rbrace || ch2 == ']') = true
        · rw [next_token_comma_err s0 rest hin ch2 t hd hcl] at h
          cases h
        · rw [next_token_comma_ok s0 rest hin (fun c hx => by
            rw [hd] at hx
            injection hx with hx2
            rw [← hx2]
            exact eq_false_of_ne_true hcl)] at h
          injection h with h1 h2
          rcases hcm _ h2.symm with ⟨ha, hb⟩
          exact ⟨ha, fun _ => hb⟩
    by_cases c7 : (ch == qmark) = true
    · rw [eq_of_beq c7] at hin
      obtain ⟨txt, s2, hb⟩ : ∃ txt s2,
          strBody false [] ⟨rest, (skip_whitespace s0).col + 1, (skip_whitespace s0).line⟩ = (txt, s2) :=
        ⟨_, _, rfl⟩
      have hgo : strBodyGo false [] rest ((skip_whitespace s0).col + 1) (skip_whitespace s0).line
          = (txt, s2) := hb
      have hs2len : s2.input.length ≤ rest.length := by
        have := strBodyGo_len rest false [] ((skip_whitespace s0).col + 1) (skip_whitespace s0).line
        rw [hgo] at this
        exact this
      rcases strBodyGo_stop rest false [] ((skip_whitespace s0).col + 1) (skip_whitespace s0).line
        with hstop | ⟨r2, hstop⟩
      · rw [next_token_quote_panic s0 rest hin txt s2 hb (by rw [hgo] at hstop; exact hstop)] at h
        cases h
      · have h2 : s2.input = qmark :: r2 := by rw [hgo] at hstop; exact hstop
        have hr2 : r2.length + 1 ≤ rest.length := by
          rw [h2] at hs2len
          simpa using hs2len
        have hfin : ∀ s3 : St, s3 = skip_whitespace ⟨r2, s2.col + 1, s2.line⟩ →
            s3.input.length ≤ s0.input.length ∧ s3.input.length < s0.input.length := by
          intro s3 hs3
          have : s3.input.length ≤ r2.length := by
            rw [hs3]
            exact skipWsGo_len r2 _ _
          have hlt : s3.input.length < rest.length :=
            Nat.lt_of_le_of_lt this (Nat.lt_of_succ_le hr2)
          exact ⟨Nat.le_of_succ_le (Nat.lt_of_lt_of_le hlt (Nat.le_of_succ_le hrest)),
            Nat.lt_trans hlt (Nat.lt_of_succ_le hrest)⟩
        by_cases hcolon : (r2.dropWhile rustIsWs).head? = some ':'
        · rw [next_token_quote_ident s0 rest hin txt s2 hb r2 h2 hcolon] at h
          injection h with h1 hh2
          rcases hfin _ hh2.symm with ⟨ha, hb2⟩
          exact ⟨ha, fun _ => hb2⟩
        · rw [next_token_quote_val s0 rest hin txt s2 hb r2 h2 hcolon] at h
          injection h with h1 hh2
          rcases hfin _ hh2.symm with ⟨ha, hb2⟩
          exact ⟨ha, fun _ => hb2⟩
    by_cases c8 : ch.isDigit = true
    · rw [next_token_digit s0 ch rest hin c8] at h
      obtain ⟨h1, h2⟩ := tokenize_val_ok_inv _ _ _ _ _ h
      have hnr : ((numRun [ch] ⟨rest, (skip_whitespace s0).col + 1, (skip_whitespace s0).line⟩).2).input.length ≤ rest.length :=
        numRunGo_len rest [ch] _ _
      have : s'.input.length ≤ rest.length := by
        rw [h2]
        exact Nat.le_trans (skipWsGo_len _ _ _) hnr
      exact ⟨Nat.le_trans this (Nat.le_of_succ_le hrest),
        fun _ => Nat.lt_of_le_of_lt this (Nat.lt_of_succ_le hrest)⟩
    by_cases c9 : rustIsAscii ch = true
    · rw [next_token_bare s0 ch rest hin (eq_false_of_ne_true c1) (eq_false_of_ne_true c2)
        (eq_false_of_ne_true c3) (eq_false_of_ne_true c4) (eq_false_of_ne_true c5)
        (eq_false_of_ne_true c6) (eq_false_of_ne_true c7) (eq_false_of_ne_true c8) c9] at h
      obtain ⟨h1, h2⟩ := tokenize_val_ok_inv _ _ _ _ _ h
      have hnr : ((bareRun (rest.length + 1) [ch] ⟨rest, (skip_whitespace s0).col + 1, (skip_whitespace s0).line⟩).2).input.length ≤ rest.length :=
        bareRun_len _ _ _
      have : s'.input.length ≤ rest.length := by
        rw [h2]
        exact Nat.le_trans (skipWsGo_len _ _ _) hnr
      exact ⟨Nat.le_trans this (Nat.le_of_succ_le hrest),
        fun _ => Nat.lt_of_le_of_lt this (Nat.lt_of_succ_le hrest)⟩
    · rw [next_token_unsupported s0 ch rest hin (eq_false_of_ne_true c1) (eq_false_of_ne_true c2)
        (eq_false_of_ne_true c3) (eq_false_of_ne_true c4) (eq_false_of_ne_true c5)
        (eq_false_of_ne_true c6) (eq_false_of_ne_true c7) (eq_false_of_ne_true c8)
        (eq_false_of_ne_true c9)] at h
      cases h

/-- Inversion for `expect_token`: success comes from a `next_token` success
with the expected kind. -/
theorem expect_token_ok_inv (k : TokenKind) (s : St) (tok : Token) (s' : St)
    (h : expect_token k s = .ok tok s') : next_token s = .ok tok s' ∧ tok.kind = k := by
  simp only [expect_token] at h
  split at h
  · split at h
    · injection h with h1 h2
      refine ⟨?_, ?_⟩
      · rw [← h1, ← h2]
        assumption
      · rw [← h1]
        exact eq_of_beq (by assumption)
    · cases h
  · cases h
  · cases h

/-- `classifyVal` passes the tokenizer state through unchanged on
success. -/
theorem classifyVal_ok_state (chars : List Char) (loc : Loc) (s : St) (rv : RVal) (s' : St)
    (h : classifyVal chars loc s = .ok rv s') : s' = s := by
  unfold classifyVal at h
  split at h
  · cases h
  · split_ifs at h <;>
      (try split at h) <;>
      first
        | (cases h; rfl)
        | cases h
        | (injection h with h1 h2; exact h2.symm)

/-- A successful recursive-descent call never lengthens the input, and the
object/array loops consume at least one character (their closing
delimiter). -/
theorem run_len : ∀ (fuel : Nat) (c : Call) (s : St) (rv : RVal) (s' : St),
    run fuel c s = .ok rv s' →
    s'.input.length ≤ s.input.length ∧
      (∀ m, c = .obj m → s'.input.length < s.input.length) ∧
      (∀ es, c = .arr es → s'.input.length < s.input.length) := by
  intro fuel
  induction fuel with
  | zero => intro c s rv s' h; cases h
  | succ fuel ih =>
    intro c s rv s' h
    cases c with
    | obj map =>
      simp only [run] at h
      split at h
      case h_1 => cases h
      case h_2 => cases h
      case h_3 tok s1 heq =>
        split at h
        case h_1 =>
          injection h with h1 h2
          have hlt : s1.input.length < s.input.length := by
            rcases next_token_len _ _ _ heq with ⟨-, hstrict⟩
            exact hstrict (by
              rw [show tok.kind = TokenKind.ClosedBracket from by assumption]
              intro hx
              cases hx)
          rw [← h2]
          exact ⟨Nat.le_of_succ_le hlt, fun _ _ => hlt, fun _ _ => hlt⟩
        case h_2 =>
          split at h
          case h_1 k v s2 heq2 =>
            rcases ih _ _ _ _ h with ⟨hll, hs, -⟩
            have h2le : s2.input.length ≤ s1.input.length := (ih _ _ _ _ heq2).1
            have h1le : s1.input.length ≤ s.input.length := (next_token_len _ _ _ heq).1
            have hx := hs _ rfl
            exact ⟨Nat.le_of_lt (Nat.lt_of_lt_of_le hx (Nat.le_trans h2le h1le)),
              fun _ _ => Nat.lt_of_lt_of_le hx (Nat.le_trans h2le h1le),
              fun _ _ => Nat.lt_of_lt_of_le hx (Nat.le_trans h2le h1le)⟩
          case h_2 => cases h
          case h_3 => cases h
          case h_4 => cases h
          case h_5 => cases h
        case h_3 =>
          rcases ih _ _ _ _ h with ⟨-, hs, -⟩
          have h1le : s1.input.length ≤ s.input.length := (next_token_len _ _ _ heq).1
          have hx := hs _ rfl
          exact ⟨Nat.le_of_lt (Nat.lt_of_lt_of_le hx h1le),
            fun _ _ => Nat.lt_of_lt_of_le hx h1le,
            fun _ _ => Nat.lt_of_lt_of_le hx h1le⟩
        case h_4 => cases h
    | arr elems =>
      simp only [run] at h
      split at h
      case h_1 => cases h
      case h_2 => cases h
      case h_3 tok s1 heq =>
        split at h
        case h_1 =>
          injection h with h1 h2
          have hlt : s1.input.length < s.input.length := by
            rcases next_token_len _ _ _ heq with ⟨-, hstrict⟩
            exact hstrict (by
              rw [show tok.kind = TokenKind.ClosedSqBracket from by assumption]
              intro hx
              cases hx)
          rw [← h2]
          exact ⟨Nat.le_of_succ_le hlt, fun _ _ => hlt, fun _ _ => hlt⟩
        case h_2 =>
          split at h
          case h_1 v s2 heq2 =>
            rcases ih _ _ _ _ h with ⟨-, -, hs⟩
            have h2le : s2.input.length ≤ s1.input.length := (ih _ _ _ _ heq2).1
            have h1le : s1.input.length ≤ s.input.length := (next_token_len _ _ _ heq).1
            have hx := hs _ rfl
            exact ⟨Nat.le_of_lt (Nat.lt_of_lt_of_le hx (Nat.le_trans h2le h1le)),
              fun _ _ => Nat.lt_of_lt_of_le hx (Nat.le_trans h2le h1le),
              fun _ _ => Nat.lt_of_lt_of_le hx (Nat.le_trans h2le h1le)⟩
          case h_2 => cases h
          case h_3 => cases h
          case h_4 => cases h
          case h_5 => cases h
        case h_3 =>
          split at h
          case h_1 v s2 heq2 =>
            rcases ih _ _ _ _ h with ⟨-, -, hs⟩
            have h2le : s2.input.length ≤ s1.input.length := (ih _ _ _ _ heq2).1
            have h1le : s1.input.length ≤ s.input.length := (next_token_len _ _ _ heq).1
            have hx := hs _ rfl
            exact ⟨Nat.le_of_lt (Nat.lt_of_lt_of_le hx (Nat.le_trans h2le h1le)),
              fun _ _ => Nat.lt_of_lt_of_le hx (Nat.le_trans h2le h1le),
              fun _ _ => Nat.lt_of_lt_of_le hx (Nat.le_trans h2le h1le)⟩
          case h_2 => cases h
          case h_3 => cases h
          case h_4 => cases h
          case h_5 => cases h
        case h_4 =>
          split at h
          case h_1 v s2 heq2 =>
            rcases ih _ _ _ _ h with ⟨-, -, hs⟩
            have h2le : s2.input.length ≤ s1.input.length := (ih _ _ _ _ heq2).1
            have h1le : s1.input.length ≤ s.input.length := (next_token_len _ _ _ heq).1
            have hx := hs _ rfl
            exact ⟨Nat.le_of_lt (Nat.lt_of_lt_of_le hx (Nat.le_trans h2le h1le)),
              fun _ _ => Nat.lt_of_lt_of_le hx (Nat.le_trans h2le h1le),
              fun _ _ => Nat.lt_of_lt_of_le hx (Nat.le_trans h2le h1le)⟩
          case h_2 => cases h
          case h_3 => cases h
          case h_4 => cases h
          case h_5 => cases h
        case h_5 => cases h
        case h_6 =>
          rcases ih _ _ _ _ h with ⟨-, -, hs⟩
          have h1le : s1.input.length ≤ s.input.length := (next_token_len _ _ _ heq).1
          have hx := hs _ rfl
          exact ⟨Nat.le_of_lt (Nat.lt_of_lt_of_le hx h1le),
            fun _ _ => Nat.lt_of_lt_of_le hx h1le,
            fun _ _ => Nat.lt_of_lt_of_le hx h1le⟩
        case h_7 => cases h
    | val tok =>
      simp only [run] at h
      split at h
      case h_1 =>
        have hst := classifyVal_ok_state _ _ _ _ _ h
        rw [hst]
        refine ⟨Nat.le_refl _, fun _ hx => ?_, fun _ hx => ?_⟩ <;> cases hx
      case h_2 =>
        rcases ih _ _ _ _ h with ⟨-, -, hs⟩
        refine ⟨Nat.le_of_lt (hs _ rfl), fun _ hx => ?_, fun _ hx => ?_⟩ <;> cases hx
      case h_3 =>
        rcases ih _ _ _ _ h with ⟨-, hs, -⟩
        refine ⟨Nat.le_of_lt (hs _ rfl), fun _ hx => ?_, fun _ hx => ?_⟩ <;> cases hx
      case h_4 => cases h
    | idp tok =>
      simp only [run] at h
      split at h
      case h_1 => cases h
      case h_2 => cases h
      case h_3 tk s1 heq =>
        split at h
        case h_1 => cases h
        case h_2 => cases h
        case h_3 vtok s2 heq2 =>
          split at h
          case h_2 => cases h
          case h_1 text heq3 =>
            split at h
            case h_2 => cases h
            case h_3 => cases h
            case h_4 => cases h
            case h_5 => cases h
            case h_1 v s3 heq4 =>
              injection h with h1 h2
              have ha : s1.input.length ≤ s.input.length :=
                (next_token_len _ _ _ (expect_token_ok_inv _ _ _ _ heq).1).1
              have hb : s2.input.length ≤ s1.input.length := (next_token_len _ _ _ heq2).1
              have hc : s3.input.length ≤ s2.input.length := (ih _ _ _ _ heq4).1
              rw [← h2]
              refine ⟨Nat.le_trans hc (Nat.le_trans hb ha),
                fun _ hx => ?_, fun _ hx => ?_⟩ <;> cases hx

/-- A successful recursive-descent call is stable under extra fuel. -/
theorem run_fuelMono : ∀ (fuel : Nat) (c : Call) (s : St) (rv : RVal) (s' : St),
    run fuel c s = .ok rv s' → ∀ fuel2, fuel ≤ fuel2 → run fuel2 c s = .ok rv s' := by
  intro fuel
  induction fuel with
  | zero => intro c s rv s' h; cases h
  | succ fuel ih =>
    intro c s rv s' h fuel2 hle
    obtain ⟨f2, rfl⟩ : ∃ f2, fuel2 = f2 + 1 := ⟨fuel2 - 1, by omega⟩
    have hle2 : fuel ≤ f2 := by omega
    cases c with
    | obj map =>
      simp only [run] at h ⊢
      split at h
      case h_1 => cases h
      case h_2 => cases h
      case h_3 tok s1 heq =>
        split at h
        case h_1 => exact h
        case h_2 =>
          split at h
          case h_1 k v s2 heq2 =>
            rw [ih _ _ _ _ heq2 f2 hle2]
            exact ih _ _ _ _ h f2 hle2
          case h_2 => cases h
          case h_3 => cases h
          case h_4 => cases h
          case h_5 => cases h
        case h_3 => exact ih _ _ _ _ h f2 hle2
        case h_4 => cases h
    | arr elems =>
      simp only [run] at h ⊢
      split at h
      case h_1 => cases h
      case h_2 => cases h
      case h_3 tok s1 heq =>
        split at h
        case h_1 => exact h
        case h_2 =>
          split at h
          case h_1 v s2 heq2 =>
            rw [ih _ _ _ _ heq2 f2 hle2]
            exact ih _ _ _ _ h f2 hle2
          case h_2 => cases h
          case h_3 => cases h
          case h_4 => cases h
          case h_5 => cases h
        case h_3 =>
          split at h
          case h_1 v s2 heq2 =>
            rw [ih _ _ _ _ heq2 f2 hle2]
            exact ih _ _ _ _ h f2 hle2
          case h_2 => cases h
          case h_3 => cases h
          case h_4 => cases h
          case h_5 => cases h
        case h_4 =>
          split at h
          case h_1 v s2 heq2 =>
            rw [ih _ _ _ _ heq2 f2 hle2]
            exact ih _ _ _ _ h f2 hle2
          case h_2 => cases h
          case h_3 => cases h
          case h_4 => cases h
          case h_5 => cases h
        case h_5 => cases h
        case h_6 => exact ih _ _ _ _ h f2 hle2
        case h_7 => cases h
    | val tok =>
      simp only [run] at h ⊢
      split at h
      case h_1 => exact h
      case h_2 => exact ih _ _ _ _ h f2 hle2
      case h_3 => exact ih _ _ _ _ h f2 hle2
      case h_4 => cases h
    | idp tok =>
      simp only [run] at h ⊢
      split at h
      case h_1 => cases h
      case h_2 => cases h
      case h_3 tk s1 heq =>
        split at h
        case h_1 => cases h
        case h_2 => cases h
        case h_3 vtok s2 heq2 =>
          split at h
          case h_2 => cases h
          case h_1 text heq3 =>
            split at h
            case h_2 => cases h
            case h_3 => cases h
            case h_4 => cases h
            case h_5 => cases h
            case h_1 v s3 heq4 =>
              rw [ih _ _ _ _ heq4 f2 hle2]
              exact h

/-- `skip_whitespace` acts only on the consumed prefix: appending input
after a run that stopped at a character leaves the run unchanged. -/
theorem skipWsGo_append (cs : List Char) : ∀ (b : List Char) (c l : Nat) (r : List Char)
    (c' l' : Nat), skipWsGo cs c l = ⟨r, c', l'⟩ → r ≠ [] →
    skipWsGo (cs ++ b) c l = ⟨r ++ b, c', l'⟩ := by
  induction cs with
  | nil =>
    intro b c l r c' l' h hne
    injection h with h1 h2 h3
    exact absurd h1.symm hne
  | cons ch rest ih =>
    intro b c l r c' l' h hne
    by_cases hw : rustIsWs ch
    · by_cases hn : (ch == '\n') = true <;>
        simp only [List.cons_append, skipWsGo, hw, hn, if_true, if_false, Bool.false_eq_true] at h ⊢ <;>
        exact ih b _ _ r c' l' h hne
    · simp only [List.cons_append, skipWsGo, hw, Bool.false_eq_true, if_false] at h ⊢
      injection h with h1 h2 h3
      rw [← h1, ← h2, ← h3]
      rfl

/-- The quoted-run loop acts only on the consumed prefix. -/
theorem strBodyGo_append (cs : List Char) : ∀ (b : List Char) (esc : Bool) (acc : List Char)
    (c l : Nat) (t r : List Char) (c' l' : Nat),
    strBodyGo esc acc cs c l = (t, ⟨r, c', l'⟩) → r ≠ [] →
    strBodyGo esc acc (cs ++ b) c l = (t, ⟨r ++ b, c', l'⟩) := by
  induction cs with
  | nil =>
    intro b esc acc c l t r c' l' h hne
    injection h with h1 h2
    injection h2 with h3 h4 h5
    exact absurd h3.symm hne
  | cons ch rest ih =>
    intro b esc acc c l t r c' l' h hne
    by_cases hc : (ch != qmark || esc) = true
    · simp only [List.cons_append, strBodyGo, hc, if_true] at h ⊢
      exact ih b _ _ _ _ t r c' l' h hne
    · simp only [List.cons_append, strBodyGo, hc, Bool.false_eq_true, if_false] at h ⊢
      injection h with h1 h2
      injection h2 with h3 h4 h5
      rw [← h1, ← h3, ← h4, ← h5]
      rfl

/-- The numeric-run loop acts only on the consumed prefix. -/
theorem numRunGo_append (cs : List Char) : ∀ (b acc : List Char) (c l : Nat) (t r : List Char)
    (c' l' : Nat), numRunGo acc cs c l = (t, ⟨r, c', l'⟩) → r ≠ [] →
    numRunGo acc (cs ++ b) c l = (t, ⟨r ++ b, c', l'⟩) := by
  induction cs with
  | nil =>
    intro b acc c l t r c' l' h hne
    injection h with h1 h2
    injection h2 with h3 h4 h5
    exact absurd h3.symm hne
  | cons ch rest ih =>
    intro b acc c l t r c' l' h hne
    by_cases hc : is_num_char ch
    · simp only [List.cons_append, numRunGo, hc, if_true] at h ⊢
      exact ih b _ _ _ t r c' l' h hne
    · simp only [List.cons_append, numRunGo, hc, Bool.false_eq_true, if_false] at h ⊢
      injection h with h1 h2
      injection h2 with h3 h4 h5
      rw [← h1, ← h3, ← h4, ← h5]
      rfl

/-- The bare-word loop acts only on the consumed prefix: with sufficient
fuel on both sides (more than the respective input lengths), appending
input after a run that stopped at a delimiter leaves the run unchanged. -/
theorem bareRun_append : ∀ (fuel : Nat) (cs : List Char) (b acc : List Char) (c l : Nat)
    (t r : List Char) (c' l' : Nat) (fuel2 : Nat),
    cs.length < fuel → (cs ++ b).length < fuel2 →
    bareRun fuel acc ⟨cs, c, l⟩ = (t, ⟨r, c', l'⟩) → r ≠ [] →
    bareRun fuel2 acc ⟨cs ++ b, c, l⟩ = (t, ⟨r ++ b, c', l'⟩) := by
  intro fuel
  induction fuel with
  | zero => intro cs b acc c l t r c' l' fuel2 hf; cases hf
  | succ fuel ih =>
    intro cs b acc c l t r c' l' fuel2 hf hf2 h hne
    obtain ⟨f2, rfl⟩ : ∃ f2, fuel2 = f2 + 1 := ⟨fuel2 - 1, by omega⟩
    have hlensw : (skip_whitespace (⟨cs, c, l⟩ : St)).input.length ≤ cs.length :=
      skipWsGo_len cs c l
    simp only [bareRun] at h ⊢
    rcases hE : skip_whitespace (⟨cs, c, l⟩ : St) with ⟨i, cc, ll⟩
    rw [hE] at h hlensw
    rcases hi : i with _ | ⟨ch, rest2⟩
    · rw [hi] at h
      simp only at h
      injection h with h1 h2
      injection h2 with h3 h4 h5
      exact absurd h3.symm hne
    · rw [hi] at h hE hlensw
      simp only at h hlensw
      have hgo : skipWsGo cs c l = ⟨ch :: rest2, cc, ll⟩ := hE
      have happ := skipWsGo_append cs b c l (ch :: rest2) cc ll hgo (by simp)
      have happ2 : skip_whitespace (⟨cs ++ b, c, l⟩ : St) = ⟨ch :: (rest2 ++ b), cc, ll⟩ := happ
      rw [happ2]
      simp only
      by_cases hch : (ch == ',' || ch == rbrace || ch == ']') = true
      · simp only [hch, if_true] at h ⊢
        injection h with h1 h2
        injection h2 with h3 h4 h5
        rw [← h1, ← h3, ← h4, ← h5]
        rfl
      · simp only [hch, Bool.false_eq_true, if_false] at h ⊢
        have hlen : rest2.length < fuel := by
          simp only [List.length_cons] at hlensw
          omega
        have hlen2 : (rest2 ++ b).length < f2 := by
          simp only [List.length_cons] at hlensw
          simp only [List.length_append] at hf2 ⊢
          omega
        exact ih rest2 b _ _ _ t r c' l' f2 hlen hlen2 h hne

/-- Full inversion for a successful `tokenize_val`: the token is the `Val`
at the given location, the final state is the peeked state, and its input
starts with one of the three delimiters. -/
theorem tokenize_val_ok_full (text : List Char) (loc : Loc) (s : St) (tok : Token) (s' : St)
    (h : tokenize_val text loc s = .ok tok s') :
    tok = ⟨.Val text, loc⟩ ∧ s' = skip_whitespace s ∧
      ∃ d t2, s'.input = d :: t2 ∧ (d == ',' || d == rbrace || d == ']') = true := by
  rcases hp : (skip_whitespace s).input with _ | ⟨d, t2⟩ <;> simp only [tokenize_val, hp] at h
  · cases h
  · by_cases hch : (d == ',' || d == rbrace || d == ']') = true
    · simp only [hch] at h
      injection h with h1 h2
      exact ⟨h1.symm, h2.symm, d, t2, by rw [h2.symm, hp], hch⟩
    · simp only [eq_false_of_ne_true hch] at h
      cases h

/-- A list starting with a character has the same `head?` after appending. -/
theorem head_append_of_ne_nil (r b : List Char) (hne : r ≠ []) :
    (r ++ b).head? = r.head? := by
  rcases r with _ | ⟨x, xs⟩
  · exact absurd rfl hne
  · rfl

/-- `next_token` acts only on the consumed prefix: a successful call that
either left input unconsumed (`r ≠ []`) or produced a token whose branch
performs no lookahead (brackets, braces, colon) behaves identically when
more input is appended after it. -/
theorem next_token_append (a b : List Char) (c l : Nat) (tok : Token) (r : List Char)
    (c' l' : Nat) (h : next_token ⟨a, c, l⟩ = .ok tok ⟨r, c', l'⟩)
    (hside : r ≠ [] ∨ tok.kind = .OpenBracket ∨ tok.kind = .ClosedBracket ∨
      tok.kind = .OpenSqBracket ∨ tok.kind = .ClosedSqBracket ∨ tok.kind = .Colon) :
    next_token ⟨a ++ b, c, l⟩ = .ok tok ⟨r ++ b, c', l'⟩ := by
  rcases hE : skip_whitespace (⟨a, c, l⟩ : St) with ⟨i, cc, ll⟩
  rcases hi : i with _ | ⟨ch, rest⟩
  · rw [hi] at hE
    have hin : (skip_whitespace (⟨a, c, l⟩ : St)).input = [] := by rw [hE]
    rw [next_token_end _ hin] at h
    injection h with h1 h2
    rw [hE] at h2
    injection h2 with h3 h4 h5
    rcases hside with hne | hk
    · exact absurd h3.symm hne
    · have hke : tok.kind = .End := by rw [← h1]
      rcases hk with hk | hk | hk | hk | hk <;> rw [hke] at hk <;> cases hk
  · rw [hi] at hE
    have hin : (skip_whitespace (⟨a, c, l⟩ : St)).input = ch :: rest := by rw [hE]
    have hgo : skipWsGo a c l = ⟨ch :: rest, cc, ll⟩ := hE
    have happ : skip_whitespace (⟨a ++ b, c, l⟩ : St) = ⟨ch :: (rest ++ b), cc, ll⟩ :=
      skipWsGo_append a b c l (ch :: rest) cc ll hgo (by simp)
    have hinb : (skip_whitespace (⟨a ++ b, c, l⟩ : St)).input = ch :: (rest ++ b) := by rw [happ]
    by_cases c1 : (ch == lbrace) = true
    · rw [eq_of_beq c1] at hin hinb
      rw [next_token_lbrace _ rest hin, hE] at h
      rw [next_token_lbrace _ (rest ++ b) hinb, happ]
      injection h with h1 h2
      injection h2 with h3 h4 h5
      rw [← h1, ← h3, ← h4, ← h5]
    by_cases c2 : (ch == rbrace) = true
    · rw [eq_of_beq c2] at hin hinb
      rw [next_token_rbrace _ rest hin, hE] at h
      rw [next_token_rbrace _ (rest ++ b) hinb, happ]
      injection h with h1 h2
      injection h2 with h3 h4 h5
      rw [← h1, ← h3, ← h4, ← h5]
    by_cases c3 : (ch == '[') = true
    · rw [eq_of_beq c3] at hin hinb
      rw [next_token_opensq _ rest hin, hE] at h
      rw [next_token_opensq _ (rest ++ b) hinb, happ]
      injection h with h1 h2
      injection h2 with h3 h4 h5
      rw [← h1, ← h3, ← h4, ← h5]
    by_cases c4 : (ch == ']') = true
    · rw [eq_of_beq c4] at hin hinb
      rw [next_token_closesq _ rest hin, hE] at h
      rw [next_token_closesq _ (rest ++ b) hinb, happ]
      injection h with h1 h2
      injection h2 with h3 h4 h5
      rw [← h1, ← h3, ← h4, ← h5]
    by_cases c5 : (ch == ':') = true
    · rw [eq_of_beq c5] at hin hinb
      rw [next_token_colon _ rest hin, hE] at h
      rw [next_token_colon _ (rest ++ b) hinb, happ]
      injection h with h1 h2
      injection h2 with h3 h4 h5
      rw [← h1, ← h3, ← h4, ← h5]
    by_cases c6 : (ch == ',') = true
    · rw [eq_of_beq c6] at hin hinb
      rcases hd : rest.dropWhile rustIsWs with _ | ⟨ch2, t⟩
      · rw [next_token_comma_ok _ rest hin (fun x hx => by rw [hd] at hx; cases hx), hE] at h
        injection h with h1 h2
        have hr : r = [] := by
          have hx : (skip_whitespace (⟨rest, cc + 1, ll⟩ : St)).input = r := by rw [h2]
          rw [skip_whitespace_input] at hx
          simp only at hx
          rw [hd] at hx
          exact hx.symm
        rcases hside with hne | hk
        · exact absurd hr hne
        · have hkc : tok.kind = .Comma := by rw [← h1]
          rcases hk with hk | hk | hk | hk | hk <;> rw [hkc] at hk <;> cases hk
      · by_cases hcl : (ch2 == rbrace || ch2 == ']') = true
        · rw [next_token_comma_err _ rest hin ch2 t hd hcl] at h
          cases h
        · have hfun : ∀ x, (rest.dropWhile rustIsWs).head? = some x →
              (x == rbrace || x == ']') = false := fun x hx => by
            rw [hd] at hx
            injection hx with hx2
            rw [← hx2]
            exact eq_false_of_ne_true hcl
          rw [next_token_comma_ok _ rest hin hfun, hE] at h
          injection h with h1 h2
          have hreq : r = ch2 :: t := by
            have hx : (skip_whitespace (⟨rest, cc + 1, ll⟩ : St)).input = r := by rw [h2]
            rw [skip_whitespace_input] at hx
            simp only at hx
            rw [hd] at hx
            exact hx.symm
          have hgo2 : skipWsGo rest (cc + 1) ll = ⟨r, c', l'⟩ := h2
          have happ2 : skip_whitespace (⟨rest ++ b, cc + 1, ll⟩ : St) = ⟨r ++ b, c', l'⟩ :=
            skipWsGo_append rest b (cc + 1) ll r c' l' hgo2 (by rw [hreq]; simp)
          have hfunb : ∀ x, ((rest ++ b).dropWhile rustIsWs).head? = some x →
              (x == rbrace || x == ']') = false := by
            intro x hx
            have e1 : (rest ++ b).dropWhile rustIsWs = r ++ b := by
              have := skip_whitespace_input (⟨rest ++ b, cc + 1, ll⟩ : St)
              rw [happ2] at this
              exact this.symm
            rw [e1, head_append_of_ne_nil r b (by rw [hreq]; simp), hreq] at hx
            injection hx with hx2
            rw [← hx2]
            exact eq_false_of_ne_true hcl
          rw [next_token_comma_ok _ (rest ++ b) hinb hfunb, happ, happ2]
          rw [← h1]
    by_cases c7 : (ch == qmark) = true
    · rw [eq_of_beq c7] at hin hinb
      obtain ⟨txt, s2x, hb⟩ : ∃ txt s2x,
          strBody false [] (⟨rest, cc + 1, ll⟩ : St) = (txt, s2x) := ⟨_, _, rfl⟩
      rcases hs2E : s2x with ⟨i2, cc2, ll2⟩
      rw [hs2E] at hb
      have hb' : strBody false []
          (⟨rest, (skip_whitespace (⟨a, c, l⟩ : St)).col + 1,
            (skip_whitespace (⟨a, c, l⟩ : St)).line⟩ : St) = (txt, ⟨i2, cc2, ll2⟩) := by
        rw [hE]
        exact hb
      rcases hi2 : i2 with _ | ⟨ch2, r2⟩
      · rw [hi2] at hb'
        rw [next_token_quote_panic _ rest hin txt _ hb' rfl] at h
        cases h
      · rw [hi2] at hb' hb
        have hstop := strBodyGo_stop rest false [] (cc + 1) ll
        rw [show strBodyGo false [] rest (cc + 1) ll = (txt, (⟨ch2 :: r2, cc2, ll2⟩ : St)) from hb]
          at hstop
        have hch2 : ch2 = qmark := by
          rcases hstop with hstop | ⟨rr, hstop⟩
          · cases hstop
          · simp only at hstop
            injection hstop with hs1 hs2
        rw [hch2] at hb' hb
        have hbapp : strBody false [] (⟨rest ++ b, cc + 1, ll⟩ : St) =
            (txt, ⟨qmark :: (r2 ++ b), cc2, ll2⟩) :=
          strBodyGo_append rest b false [] (cc + 1) ll txt (qmark :: r2) cc2 ll2 hb (by simp)
        have hbapp' : strBody false []
            (⟨rest ++ b, (skip_whitespace (⟨a ++ b, c, l⟩ : St)).col + 1,
              (skip_whitespace (⟨a ++ b, c, l⟩ : St)).line⟩ : St) =
            (txt, ⟨qmark :: (r2 ++ b), cc2, ll2⟩) := by
          rw [happ]
          exact hbapp
        by_cases hcolon : (r2.dropWhile rustIsWs).head? = some ':'
        · rw [next_token_quote_ident _ rest hin txt _ hb' r2 rfl hcolon, hE] at h
          injection h with h1 h2
          have hr_ne : r ≠ [] := by
            have hx : (skip_whitespace (⟨r2, cc2 + 1, ll2⟩ : St)).input = r := by rw [h2]
            rw [skip_whitespace_input] at hx
            simp only at hx
            intro hcon
            rw [hcon] at hx
            rw [hx] at hcolon
            cases hcolon
          have hgo2 : skipWsGo r2 (cc2 + 1) ll2 = ⟨r, c', l'⟩ := h2
          have happ3 : skip_whitespace (⟨r2 ++ b, cc2 + 1, ll2⟩ : St) = ⟨r ++ b, c', l'⟩ :=
            skipWsGo_append r2 b (cc2 + 1) ll2 r c' l' hgo2 hr_ne
          have hcolonb : ((r2 ++ b).dropWhile rustIsWs).head? = some ':' := by
            have e1 : (r2 ++ b).dropWhile rustIsWs = r ++ b := by
              have := skip_whitespace_input (⟨r2 ++ b, cc2 + 1, ll2⟩ : St)
              rw [happ3] at this
              exact this.symm
            have e0 : r2.dropWhile rustIsWs = r := by
              have := skip_whitespace_input (⟨r2, cc2 + 1, ll2⟩ : St)
              rw [h2] at this
              exact this.symm
            rw [e1, head_append_of_ne_nil r b hr_ne, ← e0]
            exact hcolon
          rw [next_token_quote_ident _ (rest ++ b) hinb txt _ hbapp' (r2 ++ b) rfl hcolonb,
            happ, happ3]
          rw [← h1]
        · rw [next_token_quote_val _ rest hin txt _ hb' r2 rfl hcolon, hE] at h
          injection h with h1 h2
          have hkv : tok.kind = .Val (qmark :: txt ++ [qmark]) := by rw [← h1]
          have hr_ne : r ≠ [] := by
            rcases hside with hne | hk | hk | hk | hk | hk
            · exact hne
            all_goals rw [hkv] at hk; cases hk
          have hgo2 : skipWsGo r2 (cc2 + 1) ll2 = ⟨r, c', l'⟩ := h2
          have happ3 : skip_whitespace (⟨r2 ++ b, cc2 + 1, ll2⟩ : St) = ⟨r ++ b, c', l'⟩ :=
            skipWsGo_append r2 b (cc2 + 1) ll2 r c' l' hgo2 hr_ne
          have hcolonb : ((r2 ++ b).dropWhile rustIsWs).head? ≠ some ':' := by
            have e1 : (r2 ++ b).dropWhile rustIsWs = r ++ b := by
              have := skip_whitespace_input (⟨r2 ++ b, cc2 + 1, ll2⟩ : St)
              rw [happ3] at this
              exact this.symm
            have e0 : r2.dropWhile rustIsWs = r := by
              have := skip_whitespace_input (⟨r2, cc2 + 1, ll2⟩ : St)
              rw [h2] at this
              exact this.symm
            rw [e1, head_append_of_ne_nil r b hr_ne, ← e0]
            exact hcolon
          rw [next_token_quote_val _ (rest ++ b) hinb txt _ hbapp' (r2 ++ b) rfl hcolonb,
            happ, happ3]
          rw [← h1]
    by_cases c8 : ch.isDigit = true
    · rw [next_token_digit _ ch rest hin c8, hE] at h
      obtain ⟨txt, s2x, hnr⟩ : ∃ txt s2x,
          numRun [ch] (⟨rest, cc + 1, ll⟩ : St) = (txt, s2x) := ⟨_, _, rfl⟩
      rcases hs2E : s2x with ⟨i2, cc2, ll2⟩
      rw [hs2E] at hnr
      rw [show numRun [ch] (⟨rest, cc + 1, ll⟩ : St) = (txt, (⟨i2, cc2, ll2⟩ : St)) from hnr] at h
      obtain ⟨h1, h2, d, t2, hd2, hdel⟩ := tokenize_val_ok_full _ _ _ _ _ h
      have hrd : r = d :: t2 := by
        have := hd2
        simp only at this
        exact this
      have hi2ne : i2 ≠ [] := by
        intro hcon
        have hx := skip_whitespace_input (⟨i2, cc2, ll2⟩ : St)
        rw [← h2] at hx
        simp only [hcon] at hx
        rw [hrd] at hx
        simp at hx
      have hnrapp : numRun [ch] (⟨rest ++ b, cc + 1, ll⟩ : St) = (txt, ⟨i2 ++ b, cc2, ll2⟩) :=
        numRunGo_append rest b [ch] (cc + 1) ll txt i2 cc2 ll2 hnr hi2ne
      have hsw2 : skip_whitespace (⟨i2, cc2, ll2⟩ : St) = ⟨r, c', l'⟩ := by
        rw [← h2]
      have hswapp : skip_whitespace (⟨i2 ++ b, cc2, ll2⟩ : St) = ⟨r ++ b, c', l'⟩ :=
        skipWsGo_append i2 b cc2 ll2 r c' l' hsw2 (by rw [hrd]; simp)
      rw [next_token_digit _ ch (rest ++ b) hinb c8, happ]
      rw [show numRun [ch] (⟨rest ++ b, cc + 1, ll⟩ : St) = (txt, (⟨i2 ++ b, cc2, ll2⟩ : St))
        from hnrapp]
      rw [tokenize_val_ok _ _ _ d (t2 ++ b) (by rw [hswapp, hrd]; rfl) hdel, hswapp]
      rw [h1]
    by_cases c9 : rustIsAscii ch = true
    · rw [next_token_bare _ ch rest hin (eq_false_of_ne_true c1) (eq_false_of_ne_true c2)
        (eq_false_of_ne_true c3) (eq_false_of_ne_true c4) (eq_false_of_ne_true c5)
        (eq_false_of_ne_true c6) (eq_false_of_ne_true c7) (eq_false_of_ne_true c8) c9, hE] at h
      obtain ⟨txt, s2x, hbr⟩ : ∃ txt s2x,
          bareRun (rest.length + 1) [ch] (⟨rest, cc + 1, ll⟩ : St) = (txt, s2x) := ⟨_, _, rfl⟩
      rcases hs2E : s2x with ⟨i2, cc2, ll2⟩
      rw [hs2E] at hbr
      rw [show bareRun (rest.length + 1) [ch] (⟨rest, cc + 1, ll⟩ : St) =
        (txt, (⟨i2, cc2, ll2⟩ : St)) from hbr] at h
      obtain ⟨h1, h2, d, t2, hd2, hdel⟩ := tokenize_val_ok_full _ _ _ _ _ h
      have hrd : r = d :: t2 := by
        have := hd2
        simp only at this
        exact this
      have hi2ne : i2 ≠ [] := by
        intro hcon
        have hx := skip_whitespace_input (⟨i2, cc2, ll2⟩ : St)
        rw [← h2] at hx
        simp only [hcon] at hx
        rw [hrd] at hx
        simp at hx
      have hbrapp : bareRun ((rest ++ b).length + 1) [ch] (⟨rest ++ b, cc + 1, ll⟩ : St) =
          (txt, ⟨i2 ++ b, cc2, ll2⟩) :=
        bareRun_append (rest.length + 1) rest b [ch] (cc + 1) ll txt i2 cc2 ll2
          ((rest ++ b).length + 1) (by omega) (by omega) hbr hi2ne
      have hsw2 : skip_whitespace (⟨i2, cc2, ll2⟩ : St) = ⟨r, c', l'⟩ := by
        rw [← h2]
      have hswapp : skip_whitespace (⟨i2 ++ b, cc2, ll2⟩ : St) = ⟨r ++ b, c', l'⟩ :=
        skipWsGo_append i2 b cc2 ll2 r c' l' hsw2 (by rw [hrd]; simp)
      rw [next_token_bare _ ch (rest ++ b) hinb (eq_false_of_ne_true c1)
        (eq_false_of_ne_true c2) (eq_false_of_ne_true c3) (eq_false_of_ne_true c4)
        (eq_false_of_ne_true c5) (eq_false_of_ne_true c6) (eq_false_of_ne_true c7)
        (eq_false_of_ne_true c8) c9, happ]
      rw [show bareRun ((rest ++ b).length + 1) [ch] (⟨rest ++ b, cc + 1, ll⟩ : St) =
        (txt, (⟨i2 ++ b, cc2, ll2⟩ : St)) from hbrapp]
      rw [tokenize_val_ok _ _ _ d (t2 ++ b) (by rw [hswapp, hrd]; rfl) hdel, hswapp]
      rw [h1]
    · rw [next_token_unsupported _ ch rest hin (eq_false_of_ne_true c1)
        (eq_false_of_ne_true c2) (eq_false_of_ne_true c3) (eq_false_of_ne_true c4)
        (eq_false_of_ne_true c5) (eq_false_of_ne_true c6) (eq_false_of_ne_true c7)
        (eq_false_of_ne_true c8) (eq_false_of_ne_true c9)] at h
      cases h

/-- A token other than `End` can only be produced from nonempty input. -/
theorem next_token_ok_ne_end (s : St) (tok : Token) (s' : St)
    (h : next_token s = .ok tok s') (hk : tok.kind ≠ .End) : s.input ≠ [] := by
  intro hcon
  have hin : (skip_whitespace s).input = [] := by
    rw [skip_whitespace_input, hcon]
    rfl
  rw [next_token_end s hin] at h
  injection h with h1 h2
  exact hk (by rw [← h1])

/-- A successful object, array or key-value call always consumes a first
token other than `End`, so it needs nonempty input. -/
theorem run_ok_ne_nil (fuel : Nat) (c : Call) (s : St) (rv : RVal) (s' : St)
    (h : run fuel c s = .ok rv s') (hnv : ∀ t, c ≠ .val t) : s.input ≠ [] := by
  rcases fuel with _ | fuel
  · cases h
  rcases c with map | elems | tok | tok
  · simp only [run] at h
    split at h
    case h_1 => cases h
    case h_2 => cases h
    case h_3 tok s1 heq =>
      split at h
      case h_1 heq2 =>
        exact next_token_ok_ne_end s tok s1 heq (by rw [heq2]; intro hc; cases hc)
      case h_2 _text heq2 =>
        exact next_token_ok_ne_end s tok s1 heq (by rw [heq2]; intro hc; cases hc)
      case h_3 heq2 =>
        exact next_token_ok_ne_end s tok s1 heq (by rw [heq2]; intro hc; cases hc)
      case h_4 => cases h
  · simp only [run] at h
    split at h
    case h_1 => cases h
    case h_2 => cases h
    case h_3 tok s1 heq =>
      split at h
      case h_1 heq2 =>
        exact next_token_ok_ne_end s tok s1 heq (by rw [heq2]; intro hc; cases hc)
      case h_2 heq2 =>
        exact next_token_ok_ne_end s tok s1 heq (by rw [heq2]; intro hc; cases hc)
      case h_3 heq2 =>
        exact next_token_ok_ne_end s tok s1 heq (by rw [heq2]; intro hc; cases hc)
      case h_4 _chars heq2 =>
        exact next_token_ok_ne_end s tok s1 heq (by rw [heq2]; intro hc; cases hc)
      case h_5 => cases h
      case h_6 heq2 =>
        exact next_token_ok_ne_end s tok s1 heq (by rw [heq2]; intro hc; cases hc)
      case h_7 => cases h
  · exact absurd rfl (hnv tok)
  · simp only [run] at h
    split at h
    case h_1 => cases h
    case h_2 => cases h
    case h_3 ctok s1 heq =>
      obtain ⟨hnt, hck⟩ := expect_token_ok_inv .Colon s ctok s1 heq
      exact next_token_ok_ne_end s ctok s1 hnt (by rw [hck]; intro hc; cases hc)

/-- A successful value call leaves the state untouched when the token is a
literal, and otherwise the token is an opening delimiter. -/
theorem run_val_ok_kinds (fuel : Nat) (tok : Token) (s : St) (rv : RVal) (s' : St)
    (h : run fuel (.val tok) s = .ok rv s') :
    (s' = s) ∨ tok.kind = .OpenSqBracket ∨ tok.kind = .OpenBracket := by
  rcases fuel with _ | fuel
  · cases h
  simp only [run] at h
  split at h
  case h_1 chars heq =>
    exact Or.inl (classifyVal_ok_state chars tok.loc s rv s' h)
  case h_2 heq => exact Or.inr (Or.inl heq)
  case h_3 heq => exact Or.inr (Or.inr heq)
  case h_4 => cases h

/-- `classifyVal` never reads the tokenizer state: a classification that
succeeds at one state succeeds identically at any other. -/
theorem classifyVal_any_state (chars : List Char) (loc : Loc) (s1 s2 : St) (rv : RVal)
    (s' : St) (h : classifyVal chars loc s1 = .ok rv s') :
    classifyVal chars loc s2 = .ok rv s2 := by
  rcases chars with _ | ⟨c0, cs⟩
  · cases h
  · simp only [classifyVal] at h ⊢
    rcases hF : rustParseF64 (c0 :: cs) with _ | q <;>
      rcases hI : rustParseI64 (c0 :: cs) with _ | n <;>
        rcases hU : rustParseU64 (c0 :: cs) with _ | m <;>
          simp only [hF, hI, hU] at h ⊢ <;>
            split_ifs at h ⊢ <;>
              first
                | (injection h with h1 h2; rw [h1])
                | cases h

/-- The recursive descent acts only on the consumed prefix: a successful
call behaves identically when extra input is appended, provided a
key-value call does not end exactly at end of input (its value token may
have peeked past a quoted run). -/
theorem run_append : ∀ (fuel : Nat) (c : Call) (a : List Char) (sc sl : Nat)
    (b : List Char) (rv : RVal) (r : List Char) (c' l' : Nat),
    run fuel c ⟨a, sc, sl⟩ = .ok rv ⟨r, c', l'⟩ →
    (∀ t, c = .idp t → r ≠ []) →
    run fuel c ⟨a ++ b, sc, sl⟩ = .ok rv ⟨r ++ b, c', l'⟩ := by
  intro fuel
  induction fuel with
  | zero => intro c a sc sl b rv r c' l' h hidp; cases h
  | succ fuel ih =>
    intro c a sc sl b rv r c' l' h hidp
    cases c with
    | obj map =>
      simp only [run] at h ⊢
      split at h
      case h_1 => cases h
      case h_2 => cases h
      case h_3 tok s1 heq =>
        obtain ⟨a1, c1, l1⟩ := s1
        split at h
        case h_1 heq2 =>
          injection h with h1 h2
          injection h2 with h3 h4 h5
          have happ := next_token_append a b sc sl tok a1 c1 l1 heq
            (Or.inr (Or.inr (Or.inl heq2)))
          simp only [happ, heq2]
          rw [← h1, ← h3, ← h4, ← h5]
        case h_2 _text heq2 =>
          split at h
          case h_1 k v s2 heq3 =>
            obtain ⟨a2, c2, l2⟩ := s2
            have ha1 : a1 ≠ [] :=
              run_ok_ne_nil fuel (.idp tok) ⟨a1, c1, l1⟩ _ _ heq3
                (fun t hc => Call.noConfusion hc)
            have ha2 : a2 ≠ [] :=
              run_ok_ne_nil fuel (.obj (mapInsert map k v)) ⟨a2, c2, l2⟩ _ _ h
                (fun t hc => Call.noConfusion hc)
            have happ := next_token_append a b sc sl tok a1 c1 l1 heq (Or.inl ha1)
            have hidp2 := ih (.idp tok) a1 c1 l1 b (.kv k v) a2 c2 l2 heq3 (fun t _ => ha2)
            have hobj2 := ih (.obj (mapInsert map k v)) a2 c2 l2 b rv r c' l' h
              (fun t hc => Call.noConfusion hc)
            simp only [happ, heq2, hidp2]
            exact hobj2
          case h_2 => cases h
          case h_3 => cases h
          case h_4 => cases h
          case h_5 => cases h
        case h_3 heq2 =>
          have ha1 : a1 ≠ [] :=
            run_ok_ne_nil fuel (.obj map) ⟨a1, c1, l1⟩ _ _ h
              (fun t hc => Call.noConfusion hc)
          have happ := next_token_append a b sc sl tok a1 c1 l1 heq (Or.inl ha1)
          simp only [happ, heq2]
          exact ih (.obj map) a1 c1 l1 b rv r c' l' h (fun t hc => Call.noConfusion hc)
        case h_4 => cases h
    | arr elems =>
      simp only [run] at h ⊢
      split at h
      case h_1 => cases h
      case h_2 => cases h
      case h_3 tok s1 heq =>
        obtain ⟨a1, c1, l1⟩ := s1
        split at h
        case h_1 heq2 =>
          injection h with h1 h2
          injection h2 with h3 h4 h5
          have happ := next_token_append a b sc sl tok a1 c1 l1 heq
            (Or.inr (Or.inr (Or.inr (Or.inr (Or.inl heq2)))))
          simp only [happ, heq2]
          rw [← h1, ← h3, ← h4, ← h5]
        case h_2 heq2 =>
          split at h
          case h_1 v s2 heq3 =>
            obtain ⟨a2, c2, l2⟩ := s2
            have happ := next_token_append a b sc sl tok a1 c1 l1 heq
              (Or.inr (Or.inl heq2))
            have hin2 := ih (.obj []) a1 c1 l1 b (.v v) a2 c2 l2 heq3
              (fun t hc => Call.noConfusion hc)
            have harr2 := ih (.arr (elems ++ [v])) a2 c2 l2 b rv r c' l' h
              (fun t hc => Call.noConfusion hc)
            simp only [happ, heq2, hin2]
            exact harr2
          case h_2 => cases h
          case h_3 => cases h
          case h_4 => cases h
          case h_5 => cases h
        case h_3 heq2 =>
          split at h
          case h_1 v s2 heq3 =>
            obtain ⟨a2, c2, l2⟩ := s2
            have happ := next_token_append a b sc sl tok a1 c1 l1 heq
              (Or.inr (Or.inr (Or.inr (Or.inl heq2))))
            have hin2 := ih (.arr []) a1 c1 l1 b (.v v) a2 c2 l2 heq3
              (fun t hc => Call.noConfusion hc)
            have harr2 := ih (.arr (elems ++ [v])) a2 c2 l2 b rv r c' l' h
              (fun t hc => Call.noConfusion hc)
            simp only [happ, heq2, hin2]
            exact harr2
          case h_2 => cases h
          case h_3 => cases h
          case h_4 => cases h
          case h_5 => cases h
        case h_4 _chars heq2 =>
          split at h
          case h_1 v s2 heq3 =>
            obtain ⟨a2, c2, l2⟩ := s2
            have ha2 : a2 ≠ [] :=
              run_ok_ne_nil fuel (.arr (elems ++ [v])) ⟨a2, c2, l2⟩ _ _ h
                (fun t hc => Call.noConfusion hc)
            have ha1 : a1 ≠ [] := by
              rcases run_val_ok_kinds fuel tok ⟨a1, c1, l1⟩ (.v v) ⟨a2, c2, l2⟩ heq3
                with hst | hvk | hvk
              · injection hst with f1 f2 f3
                rw [← f1]
                exact ha2
              · rw [heq2] at hvk
                cases hvk
              · rw [heq2] at hvk
                cases hvk
            have happ := next_token_append a b sc sl tok a1 c1 l1 heq (Or.inl ha1)
            have hin2 := ih (.val tok) a1 c1 l1 b (.v v) a2 c2 l2 heq3
              (fun t hc => Call.noConfusion hc)
            have harr2 := ih (.arr (elems ++ [v])) a2 c2 l2 b rv r c' l' h
              (fun t hc => Call.noConfusion hc)
            simp only [happ, heq2, hin2]
            exact harr2
          case h_2 => cases h
          case h_3 => cases h
          case h_4 => cases h
          case h_5 => cases h
        case h_5 => cases h
        case h_6 heq2 =>
          have ha1 : a1 ≠ [] :=
            run_ok_ne_nil fuel (.arr elems) ⟨a1, c1, l1⟩ _ _ h
              (fun t hc => Call.noConfusion hc)
          have happ := next_token_append a b sc sl tok a1 c1 l1 heq (Or.inl ha1)
          simp only [happ, heq2]
          exact ih (.arr elems) a1 c1 l1 b rv r c' l' h (fun t hc => Call.noConfusion hc)
        case h_7 => cases h
    | val tok =>
      simp only [run] at h ⊢
      split at h
      case h_1 chars heq =>
        have hst := classifyVal_ok_state chars tok.loc ⟨a, sc, sl⟩ rv ⟨r, c', l'⟩ h
        injection hst with e1 e2 e3
        rw [e1, e2, e3]
        exact classifyVal_any_state chars tok.loc ⟨a, sc, sl⟩ ⟨a ++ b, sc, sl⟩ rv
          ⟨r, c', l'⟩ h
      case h_2 => exact ih (.arr []) a sc sl b rv r c' l' h (fun t hc => Call.noConfusion hc)
      case h_3 => exact ih (.obj []) a sc sl b rv r c' l' h (fun t hc => Call.noConfusion hc)
      case h_4 => cases h
    | idp tok =>
      simp only [run] at h ⊢
      split at h
      case h_1 => cases h
      case h_2 => cases h
      case h_3 ctok s1 heq =>
        obtain ⟨a1, c1, l1⟩ := s1
        obtain ⟨hnt, hck⟩ := expect_token_ok_inv .Colon ⟨a, sc, sl⟩ ctok ⟨a1, c1, l1⟩ heq
        split at h
        case h_1 => cases h
        case h_2 => cases h
        case h_3 vtok s2 heq2 =>
          obtain ⟨a2, c2, l2⟩ := s2
          split at h
          case h_2 => cases h
          case h_1 text heq3 =>
            split at h
            case h_2 => cases h
            case h_3 => cases h
            case h_4 => cases h
            case h_5 => cases h
            case h_1 v s3 heq4 =>
              obtain ⟨a3, c3, l3⟩ := s3
              injection h with h1 h2
              injection h2 with e1 e2 e3
              have hr : r ≠ [] := hidp tok rfl
              have happ1 := next_token_append a b sc sl ctok a1 c1 l1 hnt
                (Or.inr (Or.inr (Or.inr (Or.inr (Or.inr hck)))))
              have hexp : expect_token .Colon ⟨a ++ b, sc, sl⟩ = .ok ctok ⟨a1 ++ b, c1, l1⟩ := by
                simp only [expect_token, happ1, hck]
                rw [if_pos (by decide : (TokenKind.Colon == TokenKind.Colon) = true)]
              have hside : a2 ≠ [] ∨ vtok.kind = .OpenBracket ∨ vtok.kind = .ClosedBracket ∨
                  vtok.kind = .OpenSqBracket ∨ vtok.kind = .ClosedSqBracket ∨
                  vtok.kind = .Colon := by
                rcases run_val_ok_kinds fuel vtok ⟨a2, c2, l2⟩ (.v v) ⟨a3, c3, l3⟩ heq4
                  with hst | hvk | hvk
                · left
                  injection hst with f1 f2 f3
                  rw [← f1, e1]
                  exact hr
                · right; right; right; left; exact hvk
                · right; left; exact hvk
              have happ2 := next_token_append a1 b c1 l1 vtok a2 c2 l2 heq2 hside
              have hval2 := ih (.val vtok) a2 c2 l2 b (.v v) a3 c3 l3 heq4
                (fun t hc => Call.noConfusion hc)
              simp only [hexp, happ2, heq3, hval2]
              rw [← h1, ← e1, ← e2, ← e3]

/-- `parse` acts only on the consumed prefix: appending arbitrary text
after a successfully parsed document leaves the result unchanged, with the
appended text left over in the final state. -/
theorem parse_append (a b : List Char) (sc sl : Nat) (rv : RVal) (r : List Char)
    (c' l' : Nat) (h : parse ⟨a, sc, sl⟩ = .ok rv ⟨r, c', l'⟩) :
    parse ⟨a ++ b, sc, sl⟩ = .ok rv ⟨r ++ b, c', l'⟩ := by
  simp only [parse, parse_object, parse_array] at h
  split at h
  case h_1 => cases h
  case h_2 => cases h
  case h_3 tok s1 heq =>
    obtain ⟨a1, c1, l1⟩ := s1
    split at h
    case h_1 heq2 =>
      have happ := next_token_append a b sc sl tok a1 c1 l1 heq (Or.inr (Or.inl heq2))
      simp only [parse, parse_object, parse_array, happ, heq2]
      exact run_fuelMono _ _ _ _ _
        (run_append (a.length + 2) (.obj []) a1 c1 l1 b rv r c' l' h
          (fun t hc => Call.noConfusion hc))
        ((a ++ b).length + 2) (by rw [List.length_append]; omega)
    case h_2 heq2 =>
      have happ := next_token_append a b sc sl tok a1 c1 l1 heq
        (Or.inr (Or.inr (Or.inr (Or.inl heq2))))
      simp only [parse, parse_object, parse_array, happ, heq2]
      exact run_fuelMono _ _ _ _ _
        (run_append (a.length + 2) (.arr []) a1 c1 l1 b rv r c' l' h
          (fun t hc => Call.noConfusion hc))
        ((a ++ b).length + 2) (by rw [List.length_append]; omega)
    case h_3 => cases h

/-- **C10**: `parse` never inspects input past the root value's closing
delimiter: every successful parse of a document remains successful, with
the same value and the appended characters simply left over, when
arbitrary text is appended after it; in particular `\x7b\x7dgarbage`
parses to the empty object and `[1,2][` parses to the array `[1, 2]`,
each ignoring the trailing characters. -/
theorem c10_trailing_ignored :
    (∀ (a b : List Char) (sc sl : Nat) (rv : RVal) (r : List Char) (c' l' : Nat),
      parse ⟨a, sc, sl⟩ = .ok rv ⟨r, c', l'⟩ →
      parse ⟨a ++ b, sc, sl⟩ = .ok rv ⟨r ++ b, c', l'⟩) ∧
    parseStr "\x7b\x7dgarbage" = .ok (.v (.Object [])) ⟨"garbage".data, 2, 1⟩ ∧
    parseStr "[1,2][" =
      .ok (.v (.Array [.Number (.UnsignedInt 1), .Number (.UnsignedInt 2)])) ⟨['['], 5, 1⟩ := by
  refine ⟨?_, rfl, rfl⟩
  intro a b sc sl rv r c' l' h
  exact parse_append a b sc sl rv r c' l' h

/-- Witness for the C10 theorem: instantiating the append property on the
parsed document `[]` and the trailing text `x`. -/
theorem c10_trailing_ignored_witness :
    parse ⟨"[]".data, 0, 1⟩ = .ok (.v (.Array [])) ⟨[], 2, 1⟩ ∧
    parse ⟨"[]".data ++ "x".data, 0, 1⟩ = .ok (.v (.Array [])) ⟨[] ++ "x".data, 2, 1⟩ :=
  ⟨rfl, c10_trailing_ignored.1 "[]".data "x".data 0 1 (.v (.Array [])) [] 2 1 rfl⟩

/-! ## Whitespace and digit-printing lemmas -/

/-- Dropping whitespace ignores a leading newline. -/
theorem dropWhile_nl (l : List Char) :
    ('\n' :: l).dropWhile rustIsWs = l.dropWhile rustIsWs := by
  rw [List.dropWhile_cons_of_pos (by decide)]

/-- Dropping whitespace ignores a leading space. -/
theorem dropWhile_space (l : List Char) :
    (' ' :: l).dropWhile rustIsWs = l.dropWhile rustIsWs := by
  rw [List.dropWhile_cons_of_pos (by decide)]

/-- Dropping whitespace ignores a run of spaces. -/
theorem dropWhile_replicate_space (n : Nat) (l : List Char) :
    (List.replicate n ' ' ++ l).dropWhile rustIsWs = l.dropWhile rustIsWs := by
  induction n with
  | zero => rfl
  | succ n ih => rw [List.replicate_succ, List.cons_append, dropWhile_space, ih]

/-- Dropping whitespace ignores a leading indent. -/
theorem dropWhile_indent (d : Nat) (l : List Char) :
    (indentChars d ++ l).dropWhile rustIsWs = l.dropWhile rustIsWs :=
  dropWhile_replicate_space (4 * d) l

/-- Dropping whitespace stops at a non-whitespace character. -/
theorem dropWhile_nonws (x : Char) (hx : rustIsWs x = false) (l : List Char) :
    (x :: l).dropWhile rustIsWs = x :: l := by
  rw [List.dropWhile_cons_of_neg (by rw [hx]; intro hc; cases hc)]

/-- The decimal digit characters: code point, digit test, membership. -/
theorem digitCharFacts (k : Nat) (hk : k < 10) :
    (Char.ofNat (48 + k)).toNat = 48 + k ∧ (Char.ofNat (48 + k)).isDigit = true ∧
      Char.ofNat (48 + k) ∈ ['0', '1', '2', '3', '4', '5', '6', '7', '8', '9'] := by
  interval_cases k <;> exact ⟨by decide, by decide, by decide⟩

/-- The digit printer is accumulator-invariant. -/
theorem natDigsAux_acc (f : Nat) : ∀ (n : Nat) (acc : List Char),
    natDigsAux f n acc = natDigsAux f n [] ++ acc := by
  induction f with
  | zero => intro n acc; rfl
  | succ f ih =>
    intro n acc
    by_cases h : n < 10
    · simp only [natDigsAux]
      rw [if_pos h, if_pos h]
      rfl
    · simp only [natDigsAux]
      rw [if_neg h, if_neg h, ih (n / 10) (Char.ofNat (48 + n % 10) :: acc),
        ih (n / 10) [Char.ofNat (48 + n % 10)], List.append_assoc]
      rfl

/-- The digit printer ignores extra fuel. -/
theorem natDigsAux_fuel : ∀ (n f g : Nat), n < f → n < g → ∀ acc : List Char,
    natDigsAux f n acc = natDigsAux g n acc := by
  intro n
  induction n using Nat.strong_induction_on with
  | _ n ih =>
    intro f g hf hg acc
    obtain ⟨f2, rfl⟩ : ∃ f2, f = f2 + 1 := ⟨f - 1, by omega⟩
    obtain ⟨g2, rfl⟩ : ∃ g2, g = g2 + 1 := ⟨g - 1, by omega⟩
    by_cases h : n < 10
    · simp only [natDigsAux]
      rw [if_pos h, if_pos h]
    · simp only [natDigsAux]
      rw [if_neg h, if_neg h]
      exact ih (n / 10) (by omega) f2 g2 (by omega) (by omega) _

/-- Peeling the last digit off the printed form. -/
theorem natDigs_step (n : Nat) (h : ¬ n < 10) :
    natDigs n = natDigs (n / 10) ++ [Char.ofNat (48 + n % 10)] := by
  show natDigsAux (n + 1) n [] = _
  have h1 : natDigsAux (n + 1) n [] = natDigsAux n (n / 10) [Char.ofNat (48 + n % 10)] := by
    simp only [natDigsAux]
    rw [if_neg h]
  rw [h1, natDigsAux_acc]
  have h2 : natDigsAux n (n / 10) [] = natDigsAux (n / 10 + 1) (n / 10) [] :=
    natDigsAux_fuel (n / 10) n (n / 10 + 1) (by omega) (by omega) []
  rw [h2]
  rfl

/-- Reading back a number with one more trailing digit. -/
theorem digitsVal_concat (l : List Char) (c : Char) :
    digitsVal (l ++ [c]) = digitsVal l * 10 + (c.toNat - 48) := by
  simp [digitsVal, List.foldl_append]

/-- Correctness of the decimal printer: reading the printed digits back
gives the number, every printed character is a digit, and the printed
form is nonempty. -/
theorem natDigs_spec : ∀ n : Nat, digitsVal (natDigs n) = n ∧ allDigits (natDigs n) = true ∧
    natDigs n ≠ [] ∧ ∀ c ∈ natDigs n,
      c ∈ ['0', '1', '2', '3', '4', '5', '6', '7', '8', '9'] := by
  intro n
  induction n using Nat.strong_induction_on with
  | _ n ih =>
    by_cases h : n < 10
    · interval_cases n <;> exact ⟨by decide, by decide, by decide, by decide⟩
    · obtain ⟨ihv, ihd, ihne, ihc⟩ := ih (n / 10) (by omega)
      obtain ⟨hcn, hcd, hcm⟩ := digitCharFacts (n % 10) (by omega)
      refine ⟨?_, ?_, ?_, ?_⟩
      · rw [natDigs_step n h, digitsVal_concat, ihv, hcn]
        omega
      · rw [natDigs_step n h]
        simp only [allDigits, List.all_append] at ihd ⊢
        rw [ihd]
        simp [hcd]
      · rw [natDigs_step n h]
        simp
      · rw [natDigs_step n h]
        intro c hc
        rw [List.mem_append] at hc
        rcases hc with hc | hc
        · exact ihc c hc
        · rw [List.mem_singleton] at hc
          rw [hc]
          exact hcm

/-! ## Replay lemmas: re-lexing serialized text -/

/-- Replaying the quoted-run loop over a well-formed body consumes exactly
the body and stops at the appended closing quote. -/
theorem strBodyGo_rt : ∀ (body : List Char) (esc : Bool), strOkGo esc body = true →
    ∀ (acc rest : List Char) (c l : Nat), ∃ c2,
      strBodyGo esc acc (body ++ qmark :: rest) c l = (acc ++ body, ⟨qmark :: rest, c2, l⟩) := by
  intro body
  induction body with
  | nil =>
    intro esc hok acc rest c l
    simp only [strOkGo] at hok
    refine ⟨c, ?_⟩
    simp only [List.nil_append, List.append_nil, strBodyGo]
    rw [if_neg ?_]
    · rw [show esc = false from by revert hok; cases esc <;> simp]
      decide
  | cons ch body ih =>
    intro esc hok acc rest c l
    simp only [strOkGo, Bool.and_eq_true] at hok
    obtain ⟨h1, h2⟩ := hok
    obtain ⟨c2, ih2⟩ := ih (ch == bslash) h2 (acc ++ [ch]) rest (c + 1) l
    refine ⟨c2, ?_⟩
    simp only [List.cons_append, strBodyGo, List.append_eq]
    rw [if_pos h1, ih2, List.append_assoc]
    rfl

/-- Replaying the numeric run over digit text consumes exactly the text
and stops at the first following character. -/
theorem numRunGo_rt : ∀ (ds : List Char), ds.all is_num_char = true →
    ∀ (acc rest : List Char), (∀ x, rest.head? = some x → is_num_char x = false) →
    ∀ (c l : Nat), ∃ c2, numRunGo acc (ds ++ rest) c l = (acc ++ ds, ⟨rest, c2, l⟩) := by
  intro ds
  induction ds with
  | nil =>
    intro _ acc rest hrest c l
    refine ⟨c, ?_⟩
    simp only [List.nil_append, List.append_nil]
    rcases rest with _ | ⟨x, t⟩
    · rfl
    · simp only [numRunGo]
      rw [if_neg ?_]
      · rw [hrest x rfl]
        decide
  | cons d ds ih =>
    intro hall acc rest hrest c l
    simp only [List.all_cons, Bool.and_eq_true] at hall
    obtain ⟨c2, ih2⟩ := ih hall.2 (acc ++ [d]) rest hrest (c + 1) l
    refine ⟨c2, ?_⟩
    simp only [List.cons_append, numRunGo, List.append_eq]
    rw [if_pos hall.1, ih2, List.append_assoc]
    rfl

/-- Replaying the bare-word loop over delimiter-free non-whitespace text
consumes exactly the text and stops at the first significant delimiter
after it. -/
theorem bareRun_rt : ∀ (ds : List Char),
    ds.all (fun ch => !(ch == ',' || ch == rbrace || ch == ']') && !rustIsWs ch) = true →
    ∀ (fuel : Nat), ds.length < fuel →
    ∀ (acc rest : List Char), contOk rest = true →
    ∀ (c l : Nat), ∃ c2 l2, bareRun fuel acc ⟨ds ++ rest, c, l⟩ =
      (acc ++ ds, ⟨rest.dropWhile rustIsWs, c2, l2⟩) := by
  intro ds
  induction ds with
  | nil =>
    intro _ fuel hfuel acc rest hcont c l
    obtain ⟨f, rfl⟩ : ∃ f, fuel = f + 1 := ⟨fuel - 1, by omega⟩
    rcases hsw : skip_whitespace (⟨rest, c, l⟩ : St) with ⟨i2, c2, l2⟩
    have hi2 : i2 = rest.dropWhile rustIsWs := by
      have := skip_whitespace_input (⟨rest, c, l⟩ : St)
      rw [hsw] at this
      exact this
    refine ⟨c2, l2, ?_⟩
    simp only [List.nil_append, List.append_nil, bareRun, hsw]
    simp only [contOk] at hcont
    rcases hd : (rest.dropWhile rustIsWs).head? with _ | dlm
    · rw [hd] at hcont
      cases hcont
    · rw [hd] at hcont
      rcases hdd : rest.dropWhile rustIsWs with _ | ⟨x, t⟩
      · rw [hdd] at hd
        cases hd
      · rw [hdd] at hd
        injection hd with hd2
        rw [hdd] at hi2
        subst hi2
        simp only
        rw [if_pos (by rw [hd2]; exact hcont)]
  | cons d ds ih =>
    intro hall fuel hfuel acc rest hcont c l
    simp only [List.all_cons, Bool.and_eq_true] at hall
    obtain ⟨⟨hd1, hd2⟩, hall2⟩ := hall
    obtain ⟨f, rfl⟩ : ∃ f, fuel = f + 1 := ⟨fuel - 1, by omega⟩
    obtain ⟨c2, l2, ih2⟩ := ih hall2 f (by simp at hfuel ⊢; omega) (acc ++ [d]) rest hcont (c + 1) l
    refine ⟨c2, l2, ?_⟩
    have hnw : rustIsWs d = false := by revert hd2; cases rustIsWs d <;> simp
    simp only [List.cons_append, bareRun,
      skip_whitespace_nonws ⟨d :: (ds ++ rest), c, l⟩ d (ds ++ rest) rfl hnw]
    rw [if_neg (by revert hd1; cases (d == ',' || d == rbrace || d == ']') <;> simp)]
    rw [ih2, List.append_assoc]
    rfl

/-! ## Digest lemmas for single parser steps -/

/-- `String.mk` undoes `String.data`. -/
theorem String_mk_data (s : String) : String.mk s.data = s := rfl

/-- Dropping whitespace is idempotent. -/
theorem dropWhile_idem (l : List Char) :
    (l.dropWhile rustIsWs).dropWhile rustIsWs = l.dropWhile rustIsWs := by
  induction l with
  | nil => rfl
  | cons x t ih =>
    by_cases hx : rustIsWs x = true
    · rw [List.dropWhile_cons_of_pos hx, ih]
    · rw [List.dropWhile_cons_of_neg hx, List.dropWhile_cons_of_neg hx]

/-- A delimiter context never starts with a colon. -/
theorem contOk_ne_colon (rest : List Char) (h : contOk rest = true) :
    ((rest.dropWhile rustIsWs).head? ≠ some ':') := by
  simp only [contOk] at h
  rcases hh : (rest.dropWhile rustIsWs).head? with _ | dch
  · intro hc
    cases hc
  · rw [hh] at h
    intro hc
    injection hc with hc2
    rw [hc2] at h
    cases h

/-- Inserting a fresh key appends it. -/
theorem mapInsert_notIn (map : List (String × JsonVal)) (k : String) (v : JsonVal)
    (h : keyNotIn k map = true) : mapInsert map k v = map ++ [(k, v)] := by
  simp only [mapInsert]
  rw [if_neg ?_]
  simp only [keyNotIn, List.all_eq_true] at h
  simp only [List.any_eq_true]
  rintro ⟨p, hp, hpk⟩
  have := h p hp
  rw [show (p.1 != k) = !(p.1 == k) from rfl, hpk] at this
  cases this

/-- The object loop on a closing brace. -/
theorem run_obj_close (F : Nat) (map : List (String × JsonVal)) (s s1 : St) (loc : Loc)
    (hnt : next_token s = .ok ⟨.ClosedBracket, loc⟩ s1) :
    run (F + 1) (.obj map) s = .ok (.v (.Object map)) s1 := by
  simp only [run, hnt]

/-- The object loop on an identifier whose key-value call succeeds. -/
theorem run_obj_ident (F : Nat) (map : List (String × JsonVal)) (s s1 s2 : St)
    (kd : List Char) (loc : Loc) (k2 : String) (v : JsonVal)
    (hnt : next_token s = .ok ⟨.Ident kd, loc⟩ s1)
    (hidp : run F (.idp ⟨.Ident kd, loc⟩) s1 = .ok (.kv k2 v) s2) :
    run (F + 1) (.obj map) s = run F (.obj (mapInsert map k2 v)) s2 := by
  simp only [run, hnt, hidp]

/-- The object loop on an identifier whose key-value call runs out of
fuel. -/
theorem run_obj_ident_nofuel (F : Nat) (map : List (String × JsonVal)) (s s1 : St)
    (kd : List Char) (loc : Loc)
    (hnt : next_token s = .ok ⟨.Ident kd, loc⟩ s1)
    (hidp : run F (.idp ⟨.Ident kd, loc⟩) s1 = .nofuel) :
    run (F + 1) (.obj map) s = .nofuel := by
  simp only [run, hnt, hidp]

/-- The object loop on a comma. -/
theorem run_obj_comma (F : Nat) (map : List (String × JsonVal)) (s s1 : St) (loc : Loc)
    (hnt : next_token s = .ok ⟨.Comma, loc⟩ s1) :
    run (F + 1) (.obj map) s = run F (.obj map) s1 := by
  simp only [run, hnt]

/-- The array loop on a closing bracket. -/
theorem run_arr_close (F : Nat) (elems : List JsonVal) (s s1 : St) (loc : Loc)
    (hnt : next_token s = .ok ⟨.ClosedSqBracket, loc⟩ s1) :
    run (F + 1) (.arr elems) s = .ok (.v (.Array elems)) s1 := by
  simp only [run, hnt]

/-- A key-value call whose pieces all succeed. -/
theorem run_idp (F : Nat) (s s1 s2 s3 : St) (kd : List Char) (loc loc2 : Loc)
    (vtok : Token) (v : JsonVal)
    (hexp : expect_token .Colon s = .ok ⟨.Colon, loc2⟩ s1)
    (hnt : next_token s1 = .ok vtok s2)
    (hval : run F (.val vtok) s2 = .ok (.v v) s3) :
    run (F + 1) (.idp ⟨.Ident kd, loc⟩) s = .ok (.kv (String.mk kd) v) s3 := by
  simp only [run, hexp, hnt, hval]

/-- A key-value call whose value call runs out of fuel. -/
theorem run_idp_nofuel (F : Nat) (s s1 s2 : St) (kd : List Char) (loc loc2 : Loc)
    (vtok : Token)
    (hexp : expect_token .Colon s = .ok ⟨.Colon, loc2⟩ s1)
    (hnt : next_token s1 = .ok vtok s2)
    (hval : run F (.val vtok) s2 = .nofuel) :
    run (F + 1) (.idp ⟨.Ident kd, loc⟩) s = .nofuel := by
  simp only [run, hexp, hnt, hval]

/-- A value call on an opening brace token descends into the object
loop. -/
theorem run_val_brace (F : Nat) (tok : Token) (s : St) (h : tok.kind = .OpenBracket) :
    run (F + 1) (.val tok) s = run F (.obj []) s := by
  simp only [run, h]

/-- A value call on an opening bracket token descends into the array
loop. -/
theorem run_val_sq (F : Nat) (tok : Token) (s : St) (h : tok.kind = .OpenSqBracket) :
    run (F + 1) (.val tok) s = run F (.arr []) s := by
  simp only [run, h]

/-- A value call on a literal token classifies it. -/
theorem run_val_lit (F : Nat) (tok : Token) (s : St) (chars : List Char)
    (h : tok.kind = .Val chars) :
    run (F + 1) (.val tok) s = classifyVal chars tok.loc s := by
  simp only [run, h]

/-- A colon token satisfies `expect_token Colon`. -/
theorem expect_colon_ok (s s1 : St) (loc : Loc)
    (hnt : next_token s = .ok ⟨.Colon, loc⟩ s1) :
    expect_token .Colon s = .ok ⟨.Colon, loc⟩ s1 := by
  simp only [expect_token, hnt]
  rw [if_pos (by decide)]

/-! ## Classification of serialized literals -/

/-- Properties of the decimal digit characters. -/
theorem digit_char_props : ∀ c ∈ ['0', '1', '2', '3', '4', '5', '6', '7', '8', '9'],
    is_num_char c = true ∧ (c == qmark) = false ∧ (c == '-') = false ∧ (c == '+') = false ∧
      (c.toLower == 'e' || c == '.') = false ∧ rustIsWs c = false ∧
      (c == ',' || c == rbrace || c == ']') = false := by
  decide

/-- Classifying a serialized string literal. -/
theorem classifyVal_string (sd : List Char) (loc : Loc) (st : St) :
    classifyVal (qmark :: sd ++ [qmark]) loc st = .ok (.v (.String (String.mk sd))) st := by
  rw [List.cons_append]
  have h1 : (qmark == qmark && (qmark :: (sd ++ [qmark])).getLast? == some qmark) = true := by
    rw [show qmark :: (sd ++ [qmark]) = (qmark :: sd) ++ [qmark] from
      (List.cons_append qmark sd [qmark]).symm, List.getLast?_concat]
    decide
  have h2 : ¬ (((qmark :: (sd ++ [qmark])).length == 1) = true) := by
    intro hc
    rw [List.length_cons, List.length_append, List.length_singleton] at hc
    simp at hc
  simp only [classifyVal]
  rw [if_pos h1, if_neg h2]
  rw [show ((qmark :: (sd ++ [qmark])).drop 1).dropLast = sd from by
    rw [show (qmark :: (sd ++ [qmark])).drop 1 = sd ++ [qmark] from rfl,
      List.dropLast_concat]]

/-- Classifying the literal `true`. -/
theorem classifyVal_true (loc : Loc) (st : St) :
    classifyVal "true".data loc st = .ok (.v (.Boolean true)) st := rfl

/-- Classifying the literal `false`. -/
theorem classifyVal_false (loc : Loc) (st : St) :
    classifyVal "false".data loc st = .ok (.v (.Boolean false)) st := rfl

/-- Classifying the literal `null`. -/
theorem classifyVal_null (loc : Loc) (st : St) :
    classifyVal "null".data loc st = .ok (.v .Null) st := rfl

/-- Classifying a serialized unsigned integer. -/
theorem classifyVal_uint (n : Nat) (hn : n < 2 ^ 64) (loc : Loc) (st : St) :
    classifyVal (natDigs n) loc st = .ok (.v (.Number (.UnsignedInt n))) st := by
  obtain ⟨hval, hdig, hne, hmem⟩ := natDigs_spec n
  rcases hd : natDigs n with _ | ⟨d0, ds⟩
  · exact absurd hd hne
  have hprops : ∀ c ∈ d0 :: ds, _ := fun c hc => digit_char_props c (hmem c (by rw [hd]; exact hc))
  have hd0 := hprops d0 (List.mem_cons_self d0 ds)
  have hall : ((d0 :: ds).all is_num_char) = true := by
    rw [List.all_eq_true]
    intro c hc
    exact (hprops c hc).1
  have hany : ((d0 :: ds).any fun c => c.toLower == 'e' || c == '.') = false := by
    rw [List.any_eq_false]
    intro c hc
    rw [(hprops c hc).2.2.2.2.1]
    intro hcon
    cases hcon
  have hu : rustParseU64 (d0 :: ds) = some n := by
    simp only [rustParseU64]
    rw [show (if (d0 == '+') = true then ds else d0 :: ds) = d0 :: ds from by
      rw [hd0.2.2.2.1]
      simp]
    rw [if_pos ?_]
    · rw [← hd, hval]
    · exact ⟨by simp, by rw [← hd]; exact hdig, by rw [← hd, hval]; exact hn⟩
  simp only [classifyVal]
  rw [if_neg (by rw [hd0.2.1]; simp), if_pos hall, if_neg (by rw [hany]; simp),
    if_neg (by rw [hd0.2.2.1]; intro hcon; cases hcon)]
  simp only [hu]

/-- Classifying a serialized negative signed integer. -/
theorem classifyVal_sint (n : Int) (hneg : n < 0) (habs : n.natAbs ≤ 2 ^ 63)
    (loc : Loc) (st : St) :
    classifyVal (intDigs n) loc st = .ok (.v (.Number (.SignedInt n))) st := by
  obtain ⟨hval, hdig, hne, hmem⟩ := natDigs_spec n.natAbs
  have hform : intDigs n = '-' :: natDigs n.natAbs := by
    simp only [intDigs]
    rw [if_pos hneg]
  rw [hform]
  have hprops : ∀ c ∈ natDigs n.natAbs, _ := fun c hc => digit_char_props c (hmem c hc)
  have hall : (('-' :: natDigs n.natAbs).all is_num_char) = true := by
    rw [List.all_cons, show is_num_char '-' = true from by decide, Bool.true_and,
      List.all_eq_true]
    intro c hc
    exact (hprops c hc).1
  have hany : (('-' :: natDigs n.natAbs).any fun c => c.toLower == 'e' || c == '.') = false := by
    rw [List.any_cons, show (Char.toLower '-' == 'e' || '-' == '.') = false from by decide,
      Bool.false_or, List.any_eq_false]
    intro c hc
    rw [(hprops c hc).2.2.2.2.1]
    intro hcon
    cases hcon
  have hi : rustParseI64 ('-' :: natDigs n.natAbs) = some n := by
    simp only [rustParseI64]
    rw [if_pos (by decide : (('-' == '-') = true))]
    rw [if_pos ?_]
    · rw [hval]
      congr 1
      omega
    · exact ⟨hne, hdig, by rw [hval]; exact habs⟩
  simp only [classifyVal]
  rw [if_neg (by rw [show (('-' == qmark) = false) from by decide]; simp), if_pos hall,
    if_neg (by rw [hany]; simp), if_pos (by decide : (('-' == '-') = true))]
  simp only [hi]

/-- The serialization of a well-formed value starts with a significant
character. -/
theorem fmt_nonws (v : JsonVal) (hwf : wfVal v = true) (dep : Nat) (l : List Char) :
    (fmt_impl v dep ++ l).dropWhile rustIsWs = fmt_impl v dep ++ l := by
  cases v with
  | Array es =>
    rcases es with _ | ⟨e, es⟩
    · exact dropWhile_nonws '[' (by decide) _
    · simp only [wfVal] at hwf
      cases hwf
  | Object ms =>
    rcases ms with _ | ⟨m, ms⟩
    · exact dropWhile_nonws lbrace (by decide) _
    · exact dropWhile_nonws lbrace (by decide) _
  | String s => exact dropWhile_nonws qmark (by decide) _
  | Boolean b =>
    rcases b with _ | _
    · exact dropWhile_nonws 'f' (by decide) _
    · exact dropWhile_nonws 't' (by decide) _
  | Null => exact dropWhile_nonws 'n' (by decide) _
  | Number num =>
    rcases num with n | n | q
    · -- UnsignedInt
      obtain ⟨hval, hdig, hne, hmem⟩ := natDigs_spec n
      rcases hd : natDigs n with _ | ⟨d0, ds⟩
      · exact absurd hd hne
      have hd0 := digit_char_props d0 (hmem d0 (by rw [hd]; exact List.mem_cons_self d0 ds))
      show ((natDigs n ++ l).dropWhile rustIsWs) = natDigs n ++ l
      rw [hd, List.cons_append]
      exact dropWhile_nonws d0 hd0.2.2.2.2.2.1 _
    · -- SignedInt
      have hform : intDigs n = '-' :: natDigs n.natAbs := by
        simp only [intDigs]
        rw [if_pos ?_]
        simp only [wfVal, Bool.and_eq_true, decide_eq_true_eq] at hwf
        exact hwf.1
      show ((intDigs n ++ l).dropWhile rustIsWs) = intDigs n ++ l
      rw [hform, List.cons_append]
      exact dropWhile_nonws '-' (by decide) _
    · simp only [wfVal] at hwf
      cases hwf

/-- One iteration of the object loop over a serialized member: the loop
lexes the key, the colon, and the member value, and continues with the
member inserted, the value round-trip property supplying the value. -/
theorem memStep (d : Nat) (k : String) (v : JsonVal)
    (hkeyok : strOkGo false k.data = true) (hwfv : wfVal v = true) (hvrt : ValRT v)
    (T1 a : List Char) (col line : Nat)
    (hhead : T1.head? = some ',' ∨ T1.head? = some '\n')
    (hcont : contOk T1 = true)
    (ha : a.dropWhile rustIsWs =
      qmark :: (k.data ++ qmark :: ':' :: ' ' :: (fmt_impl v d ++ T1))) :
    ∀ (F : Nat) (map : List (String × JsonVal)),
      run (F + 1) (.obj map) ⟨a, col, line⟩ = .nofuel ∨
      ∃ r2 c2 l2, run (F + 1) (.obj map) ⟨a, col, line⟩ =
          run F (.obj (mapInsert map k v)) ⟨r2, c2, l2⟩ ∧
        r2.dropWhile rustIsWs = T1.dropWhile rustIsWs := by
  intro F map
  have hin : (skip_whitespace (⟨a, col, line⟩ : St)).input =
      qmark :: (k.data ++ qmark :: ':' :: ' ' :: (fmt_impl v d ++ T1)) := by
    rw [skip_whitespace_input]
    exact ha
  obtain ⟨cK, hbK⟩ := strBodyGo_rt k.data false hkeyok []
    (':' :: ' ' :: (fmt_impl v d ++ T1))
    ((skip_whitespace (⟨a, col, line⟩ : St)).col + 1)
    (skip_whitespace (⟨a, col, line⟩ : St)).line
  rw [List.nil_append] at hbK
  have hbK2 : strBody false []
      (⟨k.data ++ qmark :: ':' :: ' ' :: (fmt_impl v d ++ T1),
        (skip_whitespace (⟨a, col, line⟩ : St)).col + 1,
        (skip_whitespace (⟨a, col, line⟩ : St)).line⟩ : St) =
      (k.data, ⟨qmark :: ':' :: ' ' :: (fmt_impl v d ++ T1), cK,
        (skip_whitespace (⟨a, col, line⟩ : St)).line⟩) := hbK
  have hcolonR : ((':' :: ' ' :: (fmt_impl v d ++ T1)).dropWhile rustIsWs).head? =
      some ':' := by
    rw [dropWhile_nonws ':' (by decide)]
    rfl
  have hNT0 := next_token_quote_ident ⟨a, col, line⟩
    (k.data ++ qmark :: ':' :: ' ' :: (fmt_impl v d ++ T1)) hin k.data
    _ hbK2 (':' :: ' ' :: (fmt_impl v d ++ T1)) rfl hcolonR
  dsimp only at hNT0
  rw [skip_whitespace_nonws
    ⟨':' :: ' ' :: (fmt_impl v d ++ T1), cK + 1,
      (skip_whitespace (⟨a, col, line⟩ : St)).line⟩
    ':' (' ' :: (fmt_impl v d ++ T1)) rfl (by decide)] at hNT0
  rcases F with _ | F2
  · exact Or.inl (run_obj_ident_nofuel 0 map _ _ k.data _ hNT0 rfl)
  · have hin2 : (skip_whitespace
        (⟨':' :: ' ' :: (fmt_impl v d ++ T1), cK + 1,
          (skip_whitespace (⟨a, col, line⟩ : St)).line⟩ : St)).input =
        ':' :: (' ' :: (fmt_impl v d ++ T1)) := by
      rw [skip_whitespace_nonws _ ':' (' ' :: (fmt_impl v d ++ T1)) rfl (by decide)]
    have hNTc := next_token_colon _ (' ' :: (fmt_impl v d ++ T1)) hin2
    rw [skip_whitespace_nonws
      ⟨':' :: ' ' :: (fmt_impl v d ++ T1), cK + 1,
        (skip_whitespace (⟨a, col, line⟩ : St)).line⟩
      ':' (' ' :: (fmt_impl v d ++ T1)) rfl (by decide)] at hNTc
    have hexp := expect_colon_ok _ _ _ hNTc
    have hfmtdrop : (' ' :: (fmt_impl v d ++ T1)).dropWhile rustIsWs =
        fmt_impl v d ++ T1 := by
      rw [dropWhile_space]
      exact fmt_nonws v hwfv d T1
    obtain ⟨vtok, b1, bc1, bl1, hvt, hrunv⟩ :=
      hvrt d (' ' :: (fmt_impl v d ++ T1)) T1 (cK + 1 + 1)
        (skip_whitespace (⟨a, col, line⟩ : St)).line hfmtdrop hhead hcont
    rcases hrunv F2 with hnf | ⟨r2v, vc2, vl2, hok, hdropv⟩
    · exact Or.inl (run_obj_ident_nofuel (F2 + 1) map _ _ k.data _ hNT0
        (run_idp_nofuel F2 _ _ _ k.data _ _ vtok hexp hvt hnf))
    · refine Or.inr ⟨r2v, vc2, vl2, ?_, hdropv⟩
      have hidp := run_idp F2 _ _ _ _ k.data
        ⟨(skip_whitespace (⟨a, col, line⟩ : St)).col + 1,
          (skip_whitespace (⟨a, col, line⟩ : St)).line⟩ _ vtok v hexp hvt hok
      rw [String_mk_data] at hidp
      exact run_obj_ident (F2 + 1) map _ _ _ k.data _ k v hNT0 hidp

/-- A nonempty serialized member list starts, after whitespace, with the
opening quote of its first key. -/
theorem fmtMems_cons_head (p : String × JsonVal) (ms2 : List (String × JsonVal))
    (d : Nat) (l : List Char) :
    ∃ Y, fmtMems (p :: ms2) d ++ l = indentChars d ++ (qmark :: Y) := by
  obtain ⟨k2, v2⟩ := p
  refine ⟨(k2.data ++ [qmark]) ++ ([':', ' '] ++ (fmt_impl v2 d ++
    ((if ms2.isEmpty then [] else [',']) ++ ('\n' :: (fmtMems ms2 d ++ l))))), ?_⟩
  show (indentChars d ++ (qmark :: (k2.data ++ [qmark])) ++ [':', ' '] ++ fmt_impl v2 d
      ++ (if ms2.isEmpty then [] else [',']) ++ '\n' :: fmtMems ms2 d) ++ l = _
  simp [List.append_assoc]

/-- The object member loop over serialized members: given the round-trip
property for the member values, the loop extends the accumulated map by
exactly those members and consumes through the closing brace. -/
theorem memsRT : ∀ (ms : List (String × JsonVal)), wfMems ms = true →
    (∀ k v, (k, v) ∈ ms → ValRT v) →
    ∀ (d dep : Nat) (map : List (String × JsonVal)) (a : List Char) (col line : Nat)
      (rest0 : List Char),
    (∀ k v, (k, v) ∈ ms → keyNotIn k map = true) →
    a.dropWhile rustIsWs =
      ('\n' :: (fmtMems ms d ++ indentChars dep ++ rbrace :: rest0)).dropWhile rustIsWs →
    ∀ F, run F (.obj map) ⟨a, col, line⟩ = .nofuel ∨
      ∃ c2 l2, run F (.obj map) ⟨a, col, line⟩ =
        .ok (.v (.Object (map ++ ms))) ⟨rest0, c2, l2⟩ := by
  intro ms
  induction ms with
  | nil =>
    intro _ _ d dep map a col line rest0 _ ha F
    rcases F with _ | F
    · exact Or.inl rfl
    refine Or.inr ⟨(skip_whitespace (⟨a, col, line⟩ : St)).col + 1,
      (skip_whitespace (⟨a, col, line⟩ : St)).line, ?_⟩
    have hin : (skip_whitespace (⟨a, col, line⟩ : St)).input = rbrace :: rest0 := by
      rw [skip_whitespace_input, ha, dropWhile_nl]
      show ((fmtMems [] d ++ indentChars dep ++ rbrace :: rest0).dropWhile rustIsWs) = _
      rw [show fmtMems [] d = [] from rfl, List.nil_append, dropWhile_indent,
        dropWhile_nonws rbrace (by decide)]
    rw [run_obj_close F map _ _ _ (next_token_rbrace ⟨a, col, line⟩ rest0 hin),
      List.append_nil]
  | cons m ms ih =>
    obtain ⟨k, v⟩ := m
    intro hwf hval d dep map a col line rest0 hfresh ha F
    simp only [wfMems, Bool.and_eq_true] at hwf
    obtain ⟨⟨⟨hkeyok, hknotin⟩, hwfv⟩, hwfms⟩ := hwf
    rcases F with _ | F
    · exact Or.inl rfl
    have hvrt : ValRT v := hval k v (List.mem_cons_self _ _)
    have hfr : keyNotIn k map = true := hfresh k v (List.mem_cons_self _ _)
    rcases ms with _ | ⟨m2, ms2⟩
    · -- last member
      have hlist : fmtMems [(k, v)] d ++ indentChars dep ++ rbrace :: rest0 =
          indentChars d ++ (qmark :: (k.data ++ qmark :: ':' :: ' ' :: (fmt_impl v d ++
            ('\n' :: (fmtMems ([] : List (String × JsonVal)) d ++ indentChars dep
              ++ rbrace :: rest0))))) := by
        show (indentChars d ++ (qmark :: (k.data ++ [qmark])) ++ [':', ' '] ++ fmt_impl v d
            ++ [] ++ '\n' :: fmtMems [] d) ++ indentChars dep ++ rbrace :: rest0 = _
        simp [List.append_assoc]
      have hdropa : a.dropWhile rustIsWs =
          qmark :: (k.data ++ qmark :: ':' :: ' ' :: (fmt_impl v d ++
            ('\n' :: (fmtMems ([] : List (String × JsonVal)) d ++ indentChars dep
              ++ rbrace :: rest0)))) := by
        rw [ha, dropWhile_nl, hlist, dropWhile_indent, dropWhile_nonws qmark (by decide)]
      have hcontT1 : contOk ('\n' :: (fmtMems ([] : List (String × JsonVal)) d
          ++ indentChars dep ++ rbrace :: rest0)) = true := by
        simp only [contOk]
        rw [dropWhile_nl, show fmtMems ([] : List (String × JsonVal)) d = [] from rfl,
          List.nil_append, dropWhile_indent, dropWhile_nonws rbrace (by decide)]
        rfl
      rcases memStep d k v hkeyok hwfv hvrt
          ('\n' :: (fmtMems ([] : List (String × JsonVal)) d ++ indentChars dep
            ++ rbrace :: rest0))
          a col line (Or.inr rfl) hcontT1 hdropa F map with hnf | ⟨r2, c2, l2, hstep, hdrop2⟩
      · exact Or.inl hnf
      rw [mapInsert_notIn map k v hfr] at hstep
      rcases ih hwfms (fun k2 v2 h => absurd h (List.not_mem_nil _)) d dep
          (map ++ [(k, v)]) r2 c2 l2 rest0
          (fun k2 v2 h => absurd h (List.not_mem_nil _)) hdrop2 F with hnf2 | ⟨c3, l3, hok2⟩
      · exact Or.inl (hstep.trans hnf2)
      · refine Or.inr ⟨c3, l3, hstep.trans ?_⟩
        rw [List.append_nil] at hok2
        exact hok2
    · -- at least one more member
      have hlist : fmtMems ((k, v) :: m2 :: ms2) d ++ indentChars dep ++ rbrace :: rest0 =
          indentChars d ++ (qmark :: (k.data ++ qmark :: ':' :: ' ' :: (fmt_impl v d ++
            (',' :: '\n' :: (fmtMems (m2 :: ms2) d ++ indentChars dep
              ++ rbrace :: rest0))))) := by
        show (indentChars d ++ (qmark :: (k.data ++ [qmark])) ++ [':', ' '] ++ fmt_impl v d
            ++ [','] ++ '\n' :: fmtMems (m2 :: ms2) d) ++ indentChars dep
              ++ rbrace :: rest0 = _
        simp [List.append_assoc]
      have hdropa : a.dropWhile rustIsWs =
          qmark :: (k.data ++ qmark :: ':' :: ' ' :: (fmt_impl v d ++
            (',' :: '\n' :: (fmtMems (m2 :: ms2) d ++ indentChars dep
              ++ rbrace :: rest0)))) := by
        rw [ha, dropWhile_nl, hlist, dropWhile_indent, dropWhile_nonws qmark (by decide)]
      have hcontT1 : contOk (',' :: '\n' :: (fmtMems (m2 :: ms2) d ++ indentChars dep
          ++ rbrace :: rest0)) = true := by
        simp only [contOk]
        rw [dropWhile_nonws ',' (by decide)]
        rfl
      rcases memStep d k v hkeyok hwfv hvrt
          (',' :: '\n' :: (fmtMems (m2 :: ms2) d ++ indentChars dep ++ rbrace :: rest0))
          a col line (Or.inl rfl) hcontT1 hdropa F map with hnf | ⟨r2, c2, l2, hstep, hdrop2⟩
      · exact Or.inl hnf
      rw [mapInsert_notIn map k v hfr] at hstep
      rw [dropWhile_nonws ',' (by decide)] at hdrop2
      rcases F with _ | F3
      · exact Or.inl hstep
      have hin3 : (skip_whitespace (⟨r2, c2, l2⟩ : St)).input =
          ',' :: ('\n' :: (fmtMems (m2 :: ms2) d ++ indentChars dep ++ rbrace :: rest0)) := by
        rw [skip_whitespace_input]
        exact hdrop2
      obtain ⟨Y, hY⟩ := fmtMems_cons_head m2 ms2 d (indentChars dep ++ rbrace :: rest0)
      have hW : (('\n' :: (fmtMems (m2 :: ms2) d ++ indentChars dep
          ++ rbrace :: rest0)).dropWhile rustIsWs) = qmark :: Y := by
        rw [dropWhile_nl, List.append_assoc, hY, dropWhile_indent,
          dropWhile_nonws qmark (by decide)]
      have hnextfun : ∀ ch2, ((('\n' :: (fmtMems (m2 :: ms2) d ++ indentChars dep
          ++ rbrace :: rest0)).dropWhile rustIsWs).head?) = some ch2 →
          (ch2 == rbrace || ch2 == ']') = false := by
        intro ch2 hch
        rw [hW] at hch
        injection hch with hch2
        rw [← hch2]
        decide
      have hNTcomma := next_token_comma_ok ⟨r2, c2, l2⟩
        ('\n' :: (fmtMems (m2 :: ms2) d ++ indentChars dep ++ rbrace :: rest0)) hin3 hnextfun
      rcases hswc : skip_whitespace
          (⟨'\n' :: (fmtMems (m2 :: ms2) d ++ indentChars dep ++ rbrace :: rest0),
            (skip_whitespace (⟨r2, c2, l2⟩ : St)).col + 1,
            (skip_whitespace (⟨r2, c2, l2⟩ : St)).line⟩ : St) with ⟨i4, c4, l4⟩
      rw [hswc] at hNTcomma
      have hstep2 := run_obj_comma F3 (map ++ [(k, v)]) ⟨r2, c2, l2⟩ ⟨i4, c4, l4⟩ _ hNTcomma
      have hi4 : i4.dropWhile rustIsWs = (('\n' :: (fmtMems (m2 :: ms2) d ++ indentChars dep
          ++ rbrace :: rest0)).dropWhile rustIsWs) := by
        have := skip_whitespace_input
          (⟨'\n' :: (fmtMems (m2 :: ms2) d ++ indentChars dep ++ rbrace :: rest0),
            (skip_whitespace (⟨r2, c2, l2⟩ : St)).col + 1,
            (skip_whitespace (⟨r2, c2, l2⟩ : St)).line⟩ : St)
        rw [hswc] at this
        simp only at this
        rw [this, dropWhile_idem]
      have hfresh2 : ∀ k2 v2, (k2, v2) ∈ m2 :: ms2 → keyNotIn k2 (map ++ [(k, v)]) = true := by
        intro k2 v2 hmem2
        simp only [keyNotIn, List.all_append, Bool.and_eq_true]
        refine ⟨hfresh k2 v2 (List.mem_cons_of_mem _ hmem2), ?_⟩
        simp only [List.all_cons, List.all_nil, Bool.and_true]
        simp only [keyNotIn, List.all_eq_true] at hknotin
        have hne2 := hknotin (k2, v2) hmem2
        simp only [bne_iff_ne] at hne2 ⊢
        exact fun hc => hne2 (by rw [hc])
      rcases ih hwfms (fun k2 v2 h => hval k2 v2 (List.mem_cons_of_mem _ h)) d dep
          (map ++ [(k, v)]) i4 c4 l4 rest0 hfresh2 hi4 F3 with hnf3 | ⟨c5, l5, hok3⟩
      · exact Or.inl (hstep.trans (hstep2.trans hnf3))
      · refine Or.inr ⟨c5, l5, hstep.trans (hstep2.trans ?_)⟩
        rw [List.append_assoc, List.singleton_append] at hok3
        exact hok3

/-- Member values of a well-formed member list are well-formed. -/
theorem wfMems_mem : ∀ (ms : List (String × JsonVal)) (k : String) (v : JsonVal),
    wfMems ms = true → (k, v) ∈ ms → wfVal v = true := by
  intro ms
  induction ms with
  | nil => intro k v _ h; cases h
  | cons m t ih =>
    obtain ⟨k1, v1⟩ := m
    intro k v hwf hmem
    simp only [wfMems, Bool.and_eq_true] at hwf
    rcases List.mem_cons.mp hmem with heq | ht
    · injection heq with e1 e2
      rw [e2]
      exact hwf.1.2
    · exact ih k v hwf.2 ht

/-- A member value is structurally smaller than its object. -/
theorem sizeOf_mem_val (ms : List (String × JsonVal)) (k : String) (v : JsonVal)
    (h : (k, v) ∈ ms) : sizeOf v < sizeOf (JsonVal.Object ms) := by
  have h1 := List.sizeOf_lt_of_mem h
  have h2 : sizeOf (k, v) = 1 + sizeOf k + sizeOf v := by simp
  have h3 : sizeOf (JsonVal.Object ms) = 1 + sizeOf ms := by simp
  omega

/-- Lexing a bare word followed by a delimiter context: the whole word
becomes a single `Val` token and the state stops at the delimiter. -/
theorem bare_token_rt (ch : Char) (tl : List Char)
    (h1 : (ch == lbrace) = false) (h2 : (ch == rbrace) = false)
    (h3 : (ch == '[') = false) (h4 : (ch == ']') = false)
    (h5 : (ch == ':') = false) (h6 : (ch == ',') = false)
    (h7 : (ch == qmark) = false) (h8 : ch.isDigit = false)
    (h9 : rustIsAscii ch = true)
    (htl : tl.all (fun c => !(c == ',' || c == rbrace || c == ']') && !rustIsWs c) = true)
    (a rest : List Char) (col line : Nat)
    (hin : (skip_whitespace (⟨a, col, line⟩ : St)).input = ch :: (tl ++ rest))
    (hcont : contOk rest = true) :
    ∃ c3 l3, next_token ⟨a, col, line⟩ =
      .ok ⟨.Val (ch :: tl), ⟨(skip_whitespace (⟨a, col, line⟩ : St)).col + 1,
        (skip_whitespace (⟨a, col, line⟩ : St)).line⟩⟩
        ⟨rest.dropWhile rustIsWs, c3, l3⟩ := by
  obtain ⟨c2, l2, hbr⟩ := bareRun_rt tl htl ((tl ++ rest).length + 1)
    (by rw [List.length_append]; omega) [ch] rest hcont
    ((skip_whitespace (⟨a, col, line⟩ : St)).col + 1)
    (skip_whitespace (⟨a, col, line⟩ : St)).line
  rw [List.singleton_append] at hbr
  have hex : ∃ dlm t, rest.dropWhile rustIsWs = dlm :: t ∧
      (dlm == ',' || dlm == rbrace || dlm == ']') = true := by
    rcases hdl : rest.dropWhile rustIsWs with _ | ⟨dlm, t⟩
    · simp only [contOk, hdl] at hcont
      cases hcont
    · simp only [contOk, hdl] at hcont
      exact ⟨dlm, t, rfl, hcont⟩
  obtain ⟨dlm, t, hdl, hch⟩ := hex
  rcases hsw3 : skip_whitespace (⟨rest.dropWhile rustIsWs, c2, l2⟩ : St) with ⟨i3, c3, l3⟩
  have hi3 : i3 = rest.dropWhile rustIsWs := by
    have := skip_whitespace_input (⟨rest.dropWhile rustIsWs, c2, l2⟩ : St)
    rw [hsw3] at this
    simp only at this
    rw [this, dropWhile_idem]
  have htv := tokenize_val_ok (ch :: tl)
    ⟨(skip_whitespace (⟨a, col, line⟩ : St)).col + 1,
      (skip_whitespace (⟨a, col, line⟩ : St)).line⟩
    ⟨rest.dropWhile rustIsWs, c2, l2⟩ dlm t
    (by rw [skip_whitespace_input]; simp only; rw [dropWhile_idem, hdl]) hch
  rw [hsw3] at htv
  refine ⟨c3, l3, ?_⟩
  rw [next_token_bare ⟨a, col, line⟩ ch (tl ++ rest) hin h1 h2 h3 h4 h5 h6 h7 h8 h9]
  simp only [hbr]
  rw [htv, ← hi3]

/-- Lexing a serialized unsigned integer followed by a delimiter context:
the digits become a single `Val` token and the state stops at the
delimiter. -/
theorem digit_token_rt (n : Nat) (a rest : List Char) (col line : Nat)
    (hin : (skip_whitespace (⟨a, col, line⟩ : St)).input = natDigs n ++ rest)
    (hhead : rest.head? = some ',' ∨ rest.head? = some '\n')
    (hcont : contOk rest = true) :
    ∃ c3 l3, next_token ⟨a, col, line⟩ =
      .ok ⟨.Val (natDigs n), ⟨(skip_whitespace (⟨a, col, line⟩ : St)).col + 1,
        (skip_whitespace (⟨a, col, line⟩ : St)).line⟩⟩
        ⟨rest.dropWhile rustIsWs, c3, l3⟩ := by
  obtain ⟨hval, hdig, hne, hmem⟩ := natDigs_spec n
  obtain ⟨d0, ds, hnd⟩ : ∃ d0 ds, natDigs n = d0 :: ds := by
    rcases hx : natDigs n with _ | ⟨d0, ds⟩
    · exact absurd hx hne
    · exact ⟨d0, ds, rfl⟩
  have hd0dig : d0.isDigit = true := by
    have hd2 := hdig
    rw [hnd] at hd2
    simp only [allDigits, List.all_cons, Bool.and_eq_true] at hd2
    exact hd2.1
  have hin2 : (skip_whitespace (⟨a, col, line⟩ : St)).input = d0 :: (ds ++ rest) := by
    rw [hin, hnd, List.cons_append]
  have hdsnum : ds.all is_num_char = true := by
    rw [List.all_eq_true]
    intro c hc
    exact (digit_char_props c (hmem c (by rw [hnd]; exact List.mem_cons_of_mem _ hc))).1
  have hrest_num : ∀ x, rest.head? = some x → is_num_char x = false := by
    intro x hx
    rcases hhead with h | h <;> rw [h] at hx <;> injection hx with e <;> rw [← e] <;> decide
  obtain ⟨c2, hnr⟩ := numRunGo_rt ds hdsnum [d0] rest hrest_num
    ((skip_whitespace (⟨a, col, line⟩ : St)).col + 1)
    (skip_whitespace (⟨a, col, line⟩ : St)).line
  rw [List.singleton_append] at hnr
  have hex : ∃ dlm t, rest.dropWhile rustIsWs = dlm :: t ∧
      (dlm == ',' || dlm == rbrace || dlm == ']') = true := by
    rcases hdl : rest.dropWhile rustIsWs with _ | ⟨dlm, t⟩
    · simp only [contOk, hdl] at hcont
      cases hcont
    · simp only [contOk, hdl] at hcont
      exact ⟨dlm, t, rfl, hcont⟩
  obtain ⟨dlm, t, hdl, hch⟩ := hex
  rcases hsw3 : skip_whitespace (⟨rest, c2,
      (skip_whitespace (⟨a, col, line⟩ : St)).line⟩ : St) with ⟨i3, c3, l3⟩
  have hi3 : i3 = rest.dropWhile rustIsWs := by
    have := skip_whitespace_input (⟨rest, c2,
      (skip_whitespace (⟨a, col, line⟩ : St)).line⟩ : St)
    rw [hsw3] at this
    exact this
  have htv := tokenize_val_ok (d0 :: ds)
    ⟨(skip_whitespace (⟨a, col, line⟩ : St)).col + 1,
      (skip_whitespace (⟨a, col, line⟩ : St)).line⟩
    ⟨rest, c2, (skip_whitespace (⟨a, col, line⟩ : St)).line⟩ dlm t
    (by rw [skip_whitespace_input]; simp only; rw [hdl]) hch
  rw [hsw3] at htv
  refine ⟨c3, l3, ?_⟩
  rw [next_token_digit ⟨a, col, line⟩ d0 (ds ++ rest) hin2 hd0dig]
  rw [show numRun [d0] (⟨ds ++ rest, (skip_whitespace (⟨a, col, line⟩ : St)).col + 1,
      (skip_whitespace (⟨a, col, line⟩ : St)).line⟩ : St) =
    (d0 :: ds, ⟨rest, c2, (skip_whitespace (⟨a, col, line⟩ : St)).line⟩) from hnr]
  rw [htv, ← hi3, hnd]

/-- Every well-formed value satisfies the round-trip property (strong
induction on the tree size; the object case loops over the members via
`memsRT`, which consumes each member value through this theorem at a
smaller size). -/
theorem valRT_aux : ∀ (n : Nat) (v : JsonVal), sizeOf v ≤ n → wfVal v = true → ValRT v := by
  intro n
  induction n using Nat.strong_induction_on with
  | _ n ih =>
    intro v hsz hwf
    intro dep a rest col line ha hhead hcont
    have hin : (skip_whitespace (⟨a, col, line⟩ : St)).input = fmt_impl v dep ++ rest := by
      rw [skip_whitespace_input]
      exact ha
    cases v with
    | Null =>
      have hin2 : (skip_whitespace (⟨a, col, line⟩ : St)).input =
          'n' :: (['u', 'l', 'l'] ++ rest) := hin
      obtain ⟨c3, l3, hNT⟩ := bare_token_rt 'n' ['u', 'l', 'l'] (by decide) (by decide)
        (by decide) (by decide) (by decide) (by decide) (by decide) (by decide) (by decide)
        (by decide) a rest col line hin2 hcont
      refine ⟨_, _, _, _, hNT, ?_⟩
      intro F
      rcases F with _ | F2
      · exact Or.inl rfl
      refine Or.inr ⟨rest.dropWhile rustIsWs, c3, l3, ?_, dropWhile_idem rest⟩
      rw [run_val_lit F2 _ _ ('n' :: ['u', 'l', 'l']) rfl]
      exact classifyVal_null _ _
    | Boolean b =>
      rcases b with _ | _
      · have hin2 : (skip_whitespace (⟨a, col, line⟩ : St)).input =
            'f' :: (['a', 'l', 's', 'e'] ++ rest) := hin
        obtain ⟨c3, l3, hNT⟩ := bare_token_rt 'f' ['a', 'l', 's', 'e'] (by decide) (by decide)
          (by decide) (by decide) (by decide) (by decide) (by decide) (by decide) (by decide)
          (by decide) a rest col line hin2 hcont
        refine ⟨_, _, _, _, hNT, ?_⟩
        intro F
        rcases F with _ | F2
        · exact Or.inl rfl
        refine Or.inr ⟨rest.dropWhile rustIsWs, c3, l3, ?_, dropWhile_idem rest⟩
        rw [run_val_lit F2 _ _ ('f' :: ['a', 'l', 's', 'e']) rfl]
        exact classifyVal_false _ _
      · have hin2 : (skip_whitespace (⟨a, col, line⟩ : St)).input =
            't' :: (['r', 'u', 'e'] ++ rest) := hin
        obtain ⟨c3, l3, hNT⟩ := bare_token_rt 't' ['r', 'u', 'e'] (by decide) (by decide)
          (by decide) (by decide) (by decide) (by decide) (by decide) (by decide) (by decide)
          (by decide) a rest col line hin2 hcont
        refine ⟨_, _, _, _, hNT, ?_⟩
        intro F
        rcases F with _ | F2
        · exact Or.inl rfl
        refine Or.inr ⟨rest.dropWhile rustIsWs, c3, l3, ?_, dropWhile_idem rest⟩
        rw [run_val_lit F2 _ _ ('t' :: ['r', 'u', 'e']) rfl]
        exact classifyVal_true _ _
    | Number num =>
      rcases num with n2 | n2 | q
      · -- UnsignedInt
        simp only [wfVal, decide_eq_true_eq] at hwf
        have hin2 : (skip_whitespace (⟨a, col, line⟩ : St)).input = natDigs n2 ++ rest := hin
        obtain ⟨c3, l3, hNT⟩ := digit_token_rt n2 a rest col line hin2 hhead hcont
        refine ⟨_, _, _, _, hNT, ?_⟩
        intro F
        rcases F with _ | F2
        · exact Or.inl rfl
        refine Or.inr ⟨rest.dropWhile rustIsWs, c3, l3, ?_, dropWhile_idem rest⟩
        rw [run_val_lit F2 _ _ (natDigs n2) rfl]
        exact classifyVal_uint n2 hwf _ _
      · -- SignedInt
        simp only [wfVal, Bool.and_eq_true, decide_eq_true_eq] at hwf
        obtain ⟨hneg, habs⟩ := hwf
        have hform : intDigs n2 = '-' :: natDigs n2.natAbs := by
          simp only [intDigs]
          rw [if_pos hneg]
        have hin2 : (skip_whitespace (⟨a, col, line⟩ : St)).input =
            '-' :: (natDigs n2.natAbs ++ rest) := by
          rw [hin]
          show intDigs n2 ++ rest = _
          rw [hform, List.cons_append]
        have htl : (natDigs n2.natAbs).all
            (fun c => !(c == ',' || c == rbrace || c == ']') && !rustIsWs c) = true := by
          rw [List.all_eq_true]
          intro c hc
          have hp := digit_char_props c ((natDigs_spec n2.natAbs).2.2.2 c hc)
          rw [hp.2.2.2.2.2.2, hp.2.2.2.2.2.1]
          decide
        obtain ⟨c3, l3, hNT⟩ := bare_token_rt '-' (natDigs n2.natAbs) (by decide) (by decide)
          (by decide) (by decide) (by decide) (by decide) (by decide) (by decide) (by decide)
          htl a rest col line hin2 hcont
        refine ⟨_, _, _, _, hNT, ?_⟩
        intro F
        rcases F with _ | F2
        · exact Or.inl rfl
        refine Or.inr ⟨rest.dropWhile rustIsWs, c3, l3, ?_, dropWhile_idem rest⟩
        rw [run_val_lit F2 _ _ ('-' :: natDigs n2.natAbs) rfl, ← hform]
        exact classifyVal_sint n2 hneg habs _ _
      · simp only [wfVal] at hwf
        cases hwf
    | String s =>
      simp only [wfVal] at hwf
      have hin2 : (skip_whitespace (⟨a, col, line⟩ : St)).input =
          qmark :: (s.data ++ qmark :: rest) := by
        rw [hin]
        show (qmark :: (s.data ++ [qmark])) ++ rest = _
        simp [List.append_assoc]
      obtain ⟨cB, hb⟩ := strBodyGo_rt s.data false hwf [] rest
        ((skip_whitespace (⟨a, col, line⟩ : St)).col + 1)
        (skip_whitespace (⟨a, col, line⟩ : St)).line
      rw [List.nil_append] at hb
      have hb2 : strBody false []
          (⟨s.data ++ qmark :: rest, (skip_whitespace (⟨a, col, line⟩ : St)).col + 1,
            (skip_whitespace (⟨a, col, line⟩ : St)).line⟩ : St) =
          (s.data, ⟨qmark :: rest, cB, (skip_whitespace (⟨a, col, line⟩ : St)).line⟩) := hb
      have hNT0 := next_token_quote_val ⟨a, col, line⟩ (s.data ++ qmark :: rest) hin2
        s.data _ hb2 rest rfl (contOk_ne_colon rest hcont)
      dsimp only at hNT0
      rcases hsw3 : skip_whitespace (⟨rest, cB + 1,
          (skip_whitespace (⟨a, col, line⟩ : St)).line⟩ : St) with ⟨i3, c3, l3⟩
      rw [hsw3] at hNT0
      have hi3 : i3 = rest.dropWhile rustIsWs := by
        have := skip_whitespace_input (⟨rest, cB + 1,
          (skip_whitespace (⟨a, col, line⟩ : St)).line⟩ : St)
        rw [hsw3] at this
        exact this
      refine ⟨_, i3, c3, l3, hNT0, ?_⟩
      intro F
      rcases F with _ | F2
      · exact Or.inl rfl
      refine Or.inr ⟨i3, c3, l3, ?_, by rw [hi3, dropWhile_idem]⟩
      rw [run_val_lit F2 _ _ (qmark :: s.data ++ [qmark]) rfl]
      rw [classifyVal_string s.data _ _, String_mk_data]
    | Array es =>
      rcases es with _ | ⟨e, es⟩
      · have hin2 : (skip_whitespace (⟨a, col, line⟩ : St)).input = '[' :: (']' :: rest) := hin
        have hNT := next_token_opensq ⟨a, col, line⟩ (']' :: rest) hin2
        refine ⟨_, _, _, _, hNT, ?_⟩
        intro F
        rcases F with _ | F2
        · exact Or.inl rfl
        rcases F2 with _ | F3
        · exact Or.inl rfl
        have hin3 : (skip_whitespace (⟨']' :: rest,
            (skip_whitespace (⟨a, col, line⟩ : St)).col + 1,
            (skip_whitespace (⟨a, col, line⟩ : St)).line⟩ : St)).input = ']' :: rest := by
          rw [skip_whitespace_nonws _ ']' rest rfl (by decide)]
        have hNT3 := next_token_closesq _ rest hin3
        rw [skip_whitespace_nonws ⟨']' :: rest,
          (skip_whitespace (⟨a, col, line⟩ : St)).col + 1,
          (skip_whitespace (⟨a, col, line⟩ : St)).line⟩ ']' rest rfl (by decide)] at hNT3
        dsimp only at hNT3
        refine Or.inr ⟨rest, (skip_whitespace (⟨a, col, line⟩ : St)).col + 1 + 1,
          (skip_whitespace (⟨a, col, line⟩ : St)).line, ?_, rfl⟩
        rw [run_val_sq (F3 + 1) _ _ rfl, run_arr_close F3 [] _ _ _ hNT3]
      · simp only [wfVal, List.isEmpty_cons] at hwf
        cases hwf
    | Object ms =>
      simp only [wfVal] at hwf
      have hvals : ∀ k2 v2, (k2, v2) ∈ ms → ValRT v2 := fun k2 v2 hm =>
        ih (sizeOf v2) (by have := sizeOf_mem_val ms k2 v2 hm; omega) v2 le_rfl
          (wfMems_mem ms k2 v2 hwf hm)
      rcases ms with _ | ⟨m1, ms1⟩
      · have hin2 : (skip_whitespace (⟨a, col, line⟩ : St)).input =
            lbrace :: ((indentChars dep ++ [rbrace]) ++ rest) := hin
        have hNT := next_token_lbrace ⟨a, col, line⟩ ((indentChars dep ++ [rbrace]) ++ rest) hin2
        refine ⟨_, _, _, _, hNT, ?_⟩
        intro F
        rcases F with _ | F2
        · exact Or.inl rfl
        have ha2 : ((indentChars dep ++ [rbrace]) ++ rest).dropWhile rustIsWs =
            ('\n' :: (fmtMems ([] : List (String × JsonVal)) (dep + 1) ++ indentChars dep
              ++ rbrace :: rest)).dropWhile rustIsWs := by
          rw [List.append_assoc, List.singleton_append, dropWhile_indent,
            dropWhile_nonws rbrace (by decide), dropWhile_nl,
            show fmtMems ([] : List (String × JsonVal)) (dep + 1) = [] from rfl,
            List.nil_append, dropWhile_indent, dropWhile_nonws rbrace (by decide)]
        rcases memsRT [] rfl (fun k2 v2 h => absurd h (List.not_mem_nil _)) (dep + 1) dep []
            ((indentChars dep ++ [rbrace]) ++ rest)
            ((skip_whitespace (⟨a, col, line⟩ : St)).col + 1)
            (skip_whitespace (⟨a, col, line⟩ : St)).line rest
            (fun k2 v2 h => absurd h (List.not_mem_nil _)) ha2 F2 with hnf | ⟨c2, l2, hok⟩
        · exact Or.inl ((run_val_brace F2 _ _ rfl).trans hnf)
        · rw [List.nil_append] at hok
          exact Or.inr ⟨rest, c2, l2, (run_val_brace F2 _ _ rfl).trans hok, rfl⟩
      · have hin2 : (skip_whitespace (⟨a, col, line⟩ : St)).input =
            lbrace :: ('\n' :: ((fmtMems (m1 :: ms1) (dep + 1) ++ indentChars dep ++ [rbrace])
              ++ rest)) := hin
        have hNT := next_token_lbrace ⟨a, col, line⟩
          ('\n' :: ((fmtMems (m1 :: ms1) (dep + 1) ++ indentChars dep ++ [rbrace]) ++ rest)) hin2
        refine ⟨_, _, _, _, hNT, ?_⟩
        intro F
        rcases F with _ | F2
        · exact Or.inl rfl
        have hle : (fmtMems (m1 :: ms1) (dep + 1) ++ indentChars dep ++ [rbrace]) ++ rest =
            fmtMems (m1 :: ms1) (dep + 1) ++ indentChars dep ++ rbrace :: rest := by
          simp [List.append_assoc]
        have ha2 : ('\n' :: ((fmtMems (m1 :: ms1) (dep + 1) ++ indentChars dep ++ [rbrace])
            ++ rest)).dropWhile rustIsWs =
            ('\n' :: (fmtMems (m1 :: ms1) (dep + 1) ++ indentChars dep
              ++ rbrace :: rest)).dropWhile rustIsWs := by
          rw [hle]
        rcases memsRT (m1 :: ms1) hwf hvals (dep + 1) dep []
            ('\n' :: ((fmtMems (m1 :: ms1) (dep + 1) ++ indentChars dep ++ [rbrace]) ++ rest))
            ((skip_whitespace (⟨a, col, line⟩ : St)).col + 1)
            (skip_whitespace (⟨a, col, line⟩ : St)).line rest
            (fun k2 v2 h => rfl) ha2 F2 with hnf | ⟨c2, l2, hok⟩
        · exact Or.inl ((run_val_brace F2 _ _ rfl).trans hnf)
        · rw [List.nil_append] at hok
          exact Or.inr ⟨rest, c2, l2, (run_val_brace F2 _ _ rfl).trans hok, rfl⟩

/-- Every well-formed value satisfies the round-trip property. -/
theorem valRT (v : JsonVal) (hwf : wfVal v = true) : ValRT v :=
  valRT_aux (sizeOf v) v le_rfl hwf

/-- An identifier token consumes at least its two quotes. -/
theorem next_token_ident_len (s0 : St) (txt : List Char) (loc : Loc) (s2 : St)
    (h : next_token s0 = .ok ⟨.Ident txt, loc⟩ s2) :
    s2.input.length + 2 ≤ s0.input.length := by
  have hsw : (skip_whitespace s0).input.length ≤ s0.input.length :=
    skipWsGo_len s0.input s0.col s0.line
  rcases hin : (skip_whitespace s0).input with _ | ⟨ch, rest⟩
  · rw [next_token_end s0 hin] at h
    injection h with h1 h2
    injection h1 with hk hl
    cases hk
  rw [hin] at hsw
  simp only [List.length_cons] at hsw
  by_cases c1 : (ch == lbrace) = true
  · rw [eq_of_beq c1] at hin
    rw [next_token_lbrace _ rest hin] at h
    injection h with h1 h2
    injection h1 with hk hl
    cases hk
  by_cases c2 : (ch == rbrace) = true
  · rw [eq_of_beq c2] at hin
    rw [next_token_rbrace _ rest hin] at h
    injection h with h1 h2
    injection h1 with hk hl
    cases hk
  by_cases c3 : (ch == '[') = true
  · rw [eq_of_beq c3] at hin
    rw [next_token_opensq _ rest hin] at h
    injection h with h1 h2
    injection h1 with hk hl
    cases hk
  by_cases c4 : (ch == ']') = true
  · rw [eq_of_beq c4] at hin
    rw [next_token_closesq _ rest hin] at h
    injection h with h1 h2
    injection h1 with hk hl
    cases hk
  by_cases c5 : (ch == ':') = true
  · rw [eq_of_beq c5] at hin
    rw [next_token_colon _ rest hin] at h
    injection h with h1 h2
    injection h1 with hk hl
    cases hk
  by_cases c6 : (ch == ',') = true
  · rw [eq_of_beq c6] at hin
    rcases hd : rest.dropWhile rustIsWs with _ | ⟨ch2, t⟩
    · rw [next_token_comma_ok _ rest hin (fun x hx => by rw [hd] at hx; cases hx)] at h
      injection h with h1 h2
      injection h1 with hk hl
      cases hk
    · by_cases hcl : (ch2 == rbrace || ch2 == ']') = true
      · rw [next_token_comma_err _ rest hin ch2 t hd hcl] at h
        cases h
      · rw [next_token_comma_ok _ rest hin (fun x hx => by
          rw [hd] at hx
          injection hx with hx2
          rw [← hx2]
          exact eq_false_of_ne_true hcl)] at h
        injection h with h1 h2
        injection h1 with hk hl
        cases hk
  by_cases c7 : (ch == qmark) = true
  · rw [eq_of_beq c7] at hin
    obtain ⟨txt2, s2x, hb⟩ : ∃ txt2 s2x,
        strBody false [] (⟨rest, (skip_whitespace s0).col + 1,
          (skip_whitespace s0).line⟩ : St) = (txt2, s2x) := ⟨_, _, rfl⟩
    have hblen : s2x.input.length ≤ rest.length := by
      have := strBodyGo_len rest false [] ((skip_whitespace s0).col + 1)
        (skip_whitespace s0).line
      rw [show strBodyGo false [] rest ((skip_whitespace s0).col + 1)
        (skip_whitespace s0).line = (txt2, s2x) from hb] at this
      exact this
    rcases hi2 : s2x.input with _ | ⟨ch2, r2⟩
    · rw [next_token_quote_panic _ rest hin txt2 _ hb hi2] at h
      cases h
    · have hstop := strBodyGo_stop rest false [] ((skip_whitespace s0).col + 1)
        (skip_whitespace s0).line
      rw [show strBodyGo false [] rest ((skip_whitespace s0).col + 1)
        (skip_whitespace s0).line = (txt2, s2x) from hb, hi2] at hstop
      have hch2 : ch2 = qmark := by
        rcases hstop with hstop | ⟨rr, hstop⟩
        · cases hstop
        · injection hstop with hs1 hs2
      rw [hch2] at hi2
      by_cases hcolon : (r2.dropWhile rustIsWs).head? = some ':'
      · rw [next_token_quote_ident _ rest hin txt2 _ hb r2 hi2 hcolon] at h
        injection h with h1 h2
        have hlen2 : s2.input.length ≤ r2.length := by
          rw [← h2]
          exact skipWsGo_len r2 (s2x.col + 1) s2x.line
        rw [hi2] at hblen
        simp only [List.length_cons] at hblen
        omega
      · rw [next_token_quote_val _ rest hin txt2 _ hb r2 hi2 hcolon] at h
        injection h with h1 h2
        injection h1 with hk hl
        cases hk
  by_cases c8 : ch.isDigit = true
  · rw [next_token_digit _ ch rest hin c8] at h
    obtain ⟨h1, h2, d, t2, hd2, hdel⟩ := tokenize_val_ok_full _ _ _ _ _ h
    injection h1 with hk hl
    cases hk
  by_cases c9 : rustIsAscii ch = true
  · rw [next_token_bare _ ch rest hin (eq_false_of_ne_true c1) (eq_false_of_ne_true c2)
      (eq_false_of_ne_true c3) (eq_false_of_ne_true c4) (eq_false_of_ne_true c5)
      (eq_false_of_ne_true c6) (eq_false_of_ne_true c7) (eq_false_of_ne_true c8) c9] at h
    obtain ⟨h1, h2, d, t2, hd2, hdel⟩ := tokenize_val_ok_full _ _ _ _ _ h
    injection h1 with hk hl
    cases hk
  · rw [next_token_unsupported _ ch rest hin (eq_false_of_ne_true c1)
      (eq_false_of_ne_true c2) (eq_false_of_ne_true c3) (eq_false_of_ne_true c4)
      (eq_false_of_ne_true c5) (eq_false_of_ne_true c6) (eq_false_of_ne_true c7)
      (eq_false_of_ne_true c8) (eq_false_of_ne_true c9)] at h
    cases h

/-- `classifyVal` always answers. -/
theorem classifyVal_ne_nofuel (chars : List Char) (loc : Loc) (s : St) :
    classifyVal chars loc s ≠ .nofuel := by
  rcases chars with _ | ⟨c0, cs⟩
  · intro hc
    cases hc
  · simp only [classifyVal]
    rcases hF : rustParseF64 (c0 :: cs) with _ | q2 <;>
      rcases hI : rustParseI64 (c0 :: cs) with _ | n2 <;>
        rcases hU : rustParseU64 (c0 :: cs) with _ | m2 <;>
          simp only [hF, hI, hU] <;>
            split_ifs <;> intro hc <;> cases hc

/-- The recursive descent never exhausts its fuel when given slightly more
fuel than remaining input: every loop iteration and every descent consumes
input, except the value-call indirection, which costs one extra unit. -/
theorem run_no_nofuel : ∀ (F : Nat) (c : Call) (s : St),
    (match c with
      | .obj _ => s.input.length + 2 ≤ F
      | .arr _ => s.input.length + 2 ≤ F
      | .idp _ => s.input.length + 3 ≤ F
      | .val tok => 1 ≤ F ∧ ((tok.kind = .OpenBracket ∨ tok.kind = .OpenSqBracket) →
          s.input.length + 3 ≤ F)) →
    run F c s ≠ .nofuel := by
  intro F
  induction F with
  | zero =>
    intro c s hF
    rcases c with map | elems | tok | tok
    · have hF2 : s.input.length + 2 ≤ 0 := hF
      omega
    · have hF2 : s.input.length + 2 ≤ 0 := hF
      omega
    · have hF2 : (1 ≤ 0 ∧ _) := hF
      omega
    · have hF2 : s.input.length + 3 ≤ 0 := hF
      omega
  | succ F ih =>
    intro c s hF
    rcases c with map | elems | tok | tok
    · -- object loop
      have hF2 : s.input.length + 2 ≤ F + 1 := hF
      simp only [run]
      split
      · intro hc; cases hc
      · intro hc; cases hc
      · next tok2 s1 heq =>
        obtain ⟨tk2, loc2⟩ := tok2
        split
        · intro hc; cases hc
        · next txt heqk =>
          simp only at heqk
          subst heqk
          have hlen1 := next_token_ident_len s txt loc2 s1 heq
          split
          · next k2 v2 s3 heq2 =>
            have hrl := (run_len F _ _ _ _ heq2).1
            exact ih (.obj _) s3 (show s3.input.length + 2 ≤ F by omega)
          · intro hc; cases hc
          · intro hc; cases hc
          · intro hc; cases hc
          · next heq2 =>
            exact absurd heq2 (ih (.idp ⟨.Ident txt, loc2⟩) s1
              (show s1.input.length + 3 ≤ F by omega))
        · next heqk =>
          simp only at heqk
          have hstrict := (next_token_len s _ s1 heq).2 (by
            simp only [heqk]
            intro hc
            cases hc)
          exact ih (.obj map) s1 (show s1.input.length + 2 ≤ F by omega)
        · intro hc; cases hc
    · -- array loop
      have hF2 : s.input.length + 2 ≤ F + 1 := hF
      simp only [run]
      split
      · intro hc; cases hc
      · intro hc; cases hc
      · next tok2 s1 heq =>
        obtain ⟨tk2, loc2⟩ := tok2
        split
        · intro hc; cases hc
        · next heqk =>
          simp only at heqk
          have hstrict := (next_token_len s _ s1 heq).2 (by
            simp only [heqk]
            intro hc
            cases hc)
          split
          · next v2 s3 heq2 =>
            have hrl := (run_len F _ _ _ _ heq2).1
            exact ih (.arr _) s3 (show s3.input.length + 2 ≤ F by omega)
          · intro hc; cases hc
          · intro hc; cases hc
          · intro hc; cases hc
          · next heq2 =>
            exact absurd heq2 (ih (.obj []) s1 (show s1.input.length + 2 ≤ F by omega))
        · next heqk =>
          simp only at heqk
          have hstrict := (next_token_len s _ s1 heq).2 (by
            simp only [heqk]
            intro hc
            cases hc)
          split
          · next v2 s3 heq2 =>
            have hrl := (run_len F _ _ _ _ heq2).1
            exact ih (.arr _) s3 (show s3.input.length + 2 ≤ F by omega)
          · intro hc; cases hc
          · intro hc; cases hc
          · intro hc; cases hc
          · next heq2 =>
            exact absurd heq2 (ih (.arr []) s1 (show s1.input.length + 2 ≤ F by omega))
        · next chars heqk =>
          simp only at heqk
          subst heqk
          have hstrict := (next_token_len s _ s1 heq).2 (by
            simp only
            intro hc
            cases hc)
          split
          · next v2 s3 heq2 =>
            have hrl := (run_len F _ _ _ _ heq2).1
            exact ih (.arr _) s3 (show s3.input.length + 2 ≤ F by omega)
          · intro hc; cases hc
          · intro hc; cases hc
          · intro hc; cases hc
          · next heq2 =>
            refine absurd heq2 (ih (.val ⟨.Val chars, loc2⟩) s1 ?_)
            refine ⟨by omega, ?_⟩
            intro hbr
            rcases hbr with hbr | hbr <;> simp only at hbr <;> cases hbr
        · intro hc; cases hc
        · next heqk =>
          simp only at heqk
          have hstrict := (next_token_len s _ s1 heq).2 (by
            simp only [heqk]
            intro hc
            cases hc)
          exact ih (.arr elems) s1 (show s1.input.length + 2 ≤ F by omega)
        · intro hc; cases hc
    · -- value call
      obtain ⟨hF1, hFbr⟩ : 1 ≤ F + 1 ∧ ((tok.kind = .OpenBracket ∨
          tok.kind = .OpenSqBracket) → s.input.length + 3 ≤ F + 1) := hF
      simp only [run]
      split
      · next chars heqk =>
        exact classifyVal_ne_nofuel chars tok.loc s
      · next heqk =>
        exact ih (.arr []) s (show s.input.length + 2 ≤ F by
          have := hFbr (Or.inr heqk)
          omega)
      · next heqk =>
        exact ih (.obj []) s (show s.input.length + 2 ≤ F by
          have := hFbr (Or.inl heqk)
          omega)
      · intro hc; cases hc
    · -- key-value call
      have hF2 : s.input.length + 3 ≤ F + 1 := hF
      simp only [run]
      split
      · intro hc; cases hc
      · intro hc; cases hc
      · next ctok s1 heqE =>
        obtain ⟨hnt1, hck⟩ := expect_token_ok_inv .Colon s ctok s1 heqE
        have hstrict1 := (next_token_len s ctok s1 hnt1).2 (by
          rw [hck]
          intro hc
          cases hc)
        split
        · intro hc; cases hc
        · intro hc; cases hc
        · next vtok s3 heq2 =>
          split
          · next txt heqk =>
            split
            · intro hc; cases hc
            · intro hc; cases hc
            · intro hc; cases hc
            · intro hc; cases hc
            · next heq3 =>
              refine absurd heq3 (ih (.val vtok) s3 ?_)
              refine ⟨by omega, ?_⟩
              intro hbr
              have hstrict2 := (next_token_len s1 vtok s3 heq2).2 (by
                rcases hbr with hbr | hbr <;> rw [hbr] <;> intro hc <;> cases hc)
              omega
          · intro hc; cases hc

/-- **C2** (amended): serialize-then-reparse is the identity on value
trees in which every array is empty, every number is an in-range unsigned
integer or a strictly negative in-range signed integer, every string and
key re-lexes to itself (true of every lexed string), and object keys are
pairwise distinct (true of all parse output): re-parsing the display of
such a root object yields the same tree, and the empty root array
round-trips as well.  The restrictions are necessary: re-parsing the
serialization of a non-empty array fails with the trailing-comma lex
error (see the counterexample), and a float or non-negative signed
integer member re-parses to a different Number variant, as the final two
conjuncts show concretely. -/
theorem c2_roundtrip_amended :
    (∀ ms : List (String × JsonVal), wfMems ms = true →
      ∃ c l, parseStr (display (.Object ms)) = .ok (.v (.Object ms)) ⟨[], c, l⟩) ∧
    parseStr (display (.Array [])) = .ok (.v (.Array [])) ⟨[], 2, 1⟩ ∧
    parseStr (display (.Object [("a", .Number (.Float (mkRat 2700 1)))])) =
      .ok (.v (.Object [("a", .Number (.UnsignedInt 2700))])) ⟨[], 1, 3⟩ ∧
    parseStr (display (.Object [("a", .Number (.SignedInt 0))])) =
      .ok (.v (.Object [("a", .Number (.UnsignedInt 0))])) ⟨[], 1, 3⟩ := by
  refine ⟨?_, rfl, rfl, rfl⟩
  intro ms hwf
  rcases ms with _ | ⟨m1, ms1⟩
  · exact ⟨2, 1, rfl⟩
  · show ∃ c l, parse ⟨fmt_impl (.Object (m1 :: ms1)) 0, 0, 1⟩ =
      .ok (.v (.Object (m1 :: ms1))) ⟨[], c, l⟩
    have hfmt : fmt_impl (.Object (m1 :: ms1)) 0 =
        lbrace :: ('\n' :: (fmtMems (m1 :: ms1) 1 ++ indentChars 0 ++ [rbrace])) := by
      simp only [fmt_impl, Nat.zero_add]
    have hin2 : (skip_whitespace
        (⟨fmt_impl (.Object (m1 :: ms1)) 0, 0, 1⟩ : St)).input =
        lbrace :: ('\n' :: (fmtMems (m1 :: ms1) 1 ++ indentChars 0 ++ [rbrace])) := by
      rw [skip_whitespace_nonws ⟨fmt_impl (.Object (m1 :: ms1)) 0, 0, 1⟩ lbrace
        ('\n' :: (fmtMems (m1 :: ms1) 1 ++ indentChars 0 ++ [rbrace]))
        hfmt (by decide)]
      exact hfmt
    have hNT := next_token_lbrace ⟨fmt_impl (.Object (m1 :: ms1)) 0, 0, 1⟩
      ('\n' :: (fmtMems (m1 :: ms1) 1 ++ indentChars 0 ++ [rbrace])) hin2
    rw [skip_whitespace_nonws ⟨fmt_impl (.Object (m1 :: ms1)) 0, 0, 1⟩ lbrace
      ('\n' :: (fmtMems (m1 :: ms1) 1 ++ indentChars 0 ++ [rbrace])) hfmt (by decide)] at hNT
    dsimp only at hNT
    have hP : parse ⟨fmt_impl (.Object (m1 :: ms1)) 0, 0, 1⟩ =
        run ((fmt_impl (.Object (m1 :: ms1)) 0).length + 2) (.obj [])
          ⟨'\n' :: (fmtMems (m1 :: ms1) 1 ++ indentChars 0 ++ [rbrace]), 0 + 1, 1⟩ := by
      simp only [parse, hNT, parse_object]
    have hvals : ∀ k2 v2, (k2, v2) ∈ m1 :: ms1 → ValRT v2 := fun k2 v2 hm =>
      valRT v2 (wfMems_mem _ k2 v2 hwf hm)
    rcases memsRT (m1 :: ms1) hwf hvals 1 0 []
        ('\n' :: (fmtMems (m1 :: ms1) 1 ++ indentChars 0 ++ [rbrace])) (0 + 1) 1 []
        (fun k2 v2 _ => rfl) rfl ((fmt_impl (.Object (m1 :: ms1)) 0).length + 2)
        with hnf | ⟨c2, l2, hok⟩
    · refine absurd hnf (run_no_nofuel ((fmt_impl (.Object (m1 :: ms1)) 0).length + 2)
        (.obj []) ⟨'\n' :: (fmtMems (m1 :: ms1) 1 ++ indentChars 0 ++ [rbrace]), 0 + 1, 1⟩ ?_)
      show ('\n' :: (fmtMems (m1 :: ms1) 1 ++ indentChars 0 ++ [rbrace])).length + 2 ≤
        (fmt_impl (.Object (m1 :: ms1)) 0).length + 2
      rw [hfmt]
      simp only [List.length_cons]
      omega
    · rw [List.nil_append] at hok
      exact ⟨c2, l2, hP.trans hok⟩

/-- Witness for the C2 amended theorem: the two-member object
`{"a": 7, "b": null}` satisfies the well-formedness conditions and
round-trips through the serializer. -/
theorem c2_roundtrip_amended_witness :
    wfMems [("a", JsonVal.Number (.UnsignedInt 7)), ("b", JsonVal.Null)] = true ∧
    ∃ c l, parseStr (display (.Object [("a", .Number (.UnsignedInt 7)), ("b", .Null)])) =
      .ok (.v (.Object [("a", .Number (.UnsignedInt 7)), ("b", .Null)])) ⟨[], c, l⟩ :=
  ⟨by decide,
    c2_roundtrip_amended.1 [("a", .Number (.UnsignedInt 7)), ("b", .Null)] (by decide)⟩

end Jsonparser
